import Mathlib

/-!
# Chained hash table over doubly linked lists (`LinkedList.c`, `HashTable.c`)

A shallow embedding of the two C files and a verification of their contract.

Memory model.  An address is a `Nat` and a pointer an `Option Nat` (`none` is
`NULL`).  Every `LinkedList` owns the nodes it has `malloc`ed: they live in its
`nodes` store, `malloc` hands out the address `brk` and bumps it, `free` empties
the cell.  A `HashTable` owns its key/value records in the same way (`kvs`,
`kv_brk`); the payload of a chain node is the address of such a record.  Reading
a `NULL`, freed or never allocated address is a `Fault`, as is a failed
`Verify333`.  `malloc` is taken to succeed, and the handles passed in (`list`,
`table`, `iter`) to be non-`NULL`.

Integers.  `int` fields that the code decrements (`num_elements`) and the
bucket index of a table iterator (which takes the value `-1`) are `Int`; the
argument of `HashTable_Allocate` is an `Int` that the function verifies positive,
and the bucket count it stores, an array length and a modulus from then on, is
`Nat`.  Keys (`uint64_t`) and values (`void *`) are `Nat`.  The `int` products of
`MaybeResize`, `3 * num_buckets` and `num_buckets * 9`, are reduced into the range
of `int` (`toInt32`): on a table of 800000000 buckets the first is negative, and
so is the second, which `HashTable_Allocate` then rejects.  The counters
`num_elements` are stepped by one and are not reduced: they leave the range of
`int` only on a structure that holds `INT_MAX` elements.  The result of the
comparator of `LinkedList_Sort` is an `int` that the caller chooses: there the
product `compare_result *= -1` is reduced into the range of `int` as well, which
leaves `INT_MIN` as it is.  The hash of `FNVHash64` is a `uint64_t`, reduced
modulo `2^64`.

Loops that follow pointers take a `fuel` bound and fault with `outOfFuel`
when it is used up; the theorems give fuel that suffices.
-/

namespace HW1

/-- The ways a run can go wrong. -/
inductive Fault where
  | verify
  | nullDeref
  | outOfBounds
  | divByZero
  | outOfFuel
  deriving DecidableEq, Repr

abbrev LLPayload_t := Nat

/-- A store with the cell at `p` overwritten. -/
def store {α : Type} (m : Nat → Option α) (p : Nat) (v : α) : Nat → Option α :=
  fun q => if q = p then some v else m q

/-- A store with the cell at `p` released (`free`). -/
def release {α : Type} (m : Nat → Option α) (p : Nat) : Nat → Option α :=
  fun q => if q = p then none else m q

/-- Dereference of a pointer: `NULL` and unallocated addresses fault. -/
def deref {α : Type} (m : Nat → Option α) (p : Option Nat) : Except Fault (Nat × α) :=
  match p with
  | none => .error .nullDeref
  | some a =>
    match m a with
    | none => .error .nullDeref
    | some v => .ok (a, v)

/-! ## LinkedList.c -/

structure LinkedListNode where
  payload : LLPayload_t
  next : Option Nat
  prev : Option Nat
  deriving DecidableEq, Repr

structure LinkedList where
  num_elements : Int
  head : Option Nat
  tail : Option Nat
  nodes : Nat → Option LinkedListNode
  brk : Nat

/-- The list iterator; `iter->list` is the list passed next to it. -/
structure LLIterator where
  node : Option Nat
  deriving DecidableEq, Repr

def LinkedList_Allocate : LinkedList :=
  { num_elements := 0, head := none, tail := none, nodes := fun _ => none, brk := 0 }

def LinkedList_NumElements (list : LinkedList) : Int :=
  list.num_elements

def LinkedList_Push (list : LinkedList) (payload : LLPayload_t) : Except Fault LinkedList :=
  let ln := list.brk
  if list.num_elements = 0 then
    if list.head ≠ none then .error .verify
    else if list.tail ≠ none then .error .verify
    else
      .ok { num_elements := 1, head := some ln, tail := some ln,
            nodes := store list.nodes ln ⟨payload, none, none⟩, brk := ln + 1 }
  else do
    let nodes := store list.nodes ln ⟨payload, list.head, none⟩
    let (h, hn) ← deref nodes list.head
    .ok { num_elements := list.num_elements + 1, head := some ln, tail := list.tail,
          nodes := store nodes h { hn with prev := some ln }, brk := ln + 1 }

/-- The result is `some payload` for `true` with `*payload_ptr = payload`, and
`none` for `false`. -/
def LinkedList_Pop (list : LinkedList) : Except Fault (LinkedList × Option LLPayload_t) :=
  if list.num_elements = 0 then .ok (list, none)
  else do
    let (old_head, ohn) ← deref list.nodes list.head
    let payload := ohn.payload
    let list1 ←
      if list.num_elements = 1 then
        pure { list with head := none, tail := none }
      else do
        let (h, hn) ← deref list.nodes ohn.next
        pure { list with head := ohn.next, nodes := store list.nodes h { hn with prev := none } }
    .ok ({ list1 with nodes := release list1.nodes old_head,
                      num_elements := list1.num_elements - 1 }, some payload)

def LinkedList_Append (list : LinkedList) (payload : LLPayload_t) : Except Fault LinkedList :=
  let ln := list.brk
  if list.num_elements = 0 then
    .ok { num_elements := list.num_elements + 1, head := some ln, tail := some ln,
          nodes := store list.nodes ln ⟨payload, none, none⟩, brk := ln + 1 }
  else do
    let nodes := store list.nodes ln ⟨payload, none, list.tail⟩
    let (t, tn) ← deref nodes list.tail
    .ok { num_elements := list.num_elements + 1, head := list.head, tail := some ln,
          nodes := store nodes t { tn with next := some ln }, brk := ln + 1 }

/-- The value of an `int` expression on a two's complement machine: the result
reduced modulo `2^32` into `[-2^31, 2^31)`. -/
def toInt32 (x : Int) : Int := (x + 2147483648) % 4294967296 - 2147483648

/-- The comparator returns an `int`. -/
abbrev LLPayloadComparatorFnPtr := LLPayload_t → LLPayload_t → Int

/-- The `while (curnode->next != NULL)` loop of `LinkedList_Sort`: one pass over the
list from `curnode`.  The swap writes the two payloads through the pointers, the
links are left alone. -/
def LinkedList_Sort_pass (ascending : Bool) (comparator_function : LLPayloadComparatorFnPtr) :
    Nat → (Nat → Option LinkedListNode) → Option Nat → Bool →
      Except Fault ((Nat → Option LinkedListNode) × Bool)
  | 0, _, _, _ => .error .outOfFuel
  | fuel + 1, nodes, curnode, swapped => do
    let (cur, cn) ← deref nodes curnode
    if cn.next = none then .ok (nodes, swapped)
    else do
      let (_, nn) ← deref nodes cn.next
      let compare_result := comparator_function cn.payload nn.payload
      let compare_result := if ascending then toInt32 (compare_result * -1) else compare_result
      if compare_result < 0 then do
        let tmp := cn.payload
        let nodes1 := store nodes cur { cn with payload := nn.payload }
        let (nxt, nn1) ← deref nodes1 cn.next
        let nodes2 := store nodes1 nxt { nn1 with payload := tmp }
        LinkedList_Sort_pass ascending comparator_function fuel nodes2 cn.next true
      else
        LinkedList_Sort_pass ascending comparator_function fuel nodes cn.next swapped

/-- The `do ... while (swapped)` loop of `LinkedList_Sort`: at most `fuel` passes of at
most `steps` steps each. -/
def LinkedList_Sort_loop (ascending : Bool) (comparator_function : LLPayloadComparatorFnPtr)
    (steps : Nat) : Nat → LinkedList → Except Fault LinkedList
  | 0, _ => .error .outOfFuel
  | fuel + 1, list => do
    let (nodes, swapped) ←
      LinkedList_Sort_pass ascending comparator_function steps list.nodes list.head false
    if swapped then
      LinkedList_Sort_loop ascending comparator_function steps fuel { list with nodes := nodes }
    else .ok { list with nodes := nodes }

/-- The bound `fuel` is on the passes and on the steps of each pass. -/
def LinkedList_Sort (fuel : Nat) (list : LinkedList) (ascending : Bool)
    (comparator_function : LLPayloadComparatorFnPtr) : Except Fault LinkedList :=
  if list.num_elements < 2 then .ok list
  else LinkedList_Sort_loop ascending comparator_function fuel fuel list

def LLIterator_Allocate (list : LinkedList) : LLIterator :=
  { node := list.head }

def LLIterator_IsValid (iter : LLIterator) : Bool :=
  iter.node.isSome

def LLIterator_Next (list : LinkedList) (iter : LLIterator) : Except Fault (LLIterator × Bool) :=
  if iter.node = none then .error .verify
  else do
    let (_, nd) ← deref list.nodes iter.node
    if nd.next = none then .ok ({ node := none }, false)
    else .ok ({ node := nd.next }, true)

def LLIterator_Get (list : LinkedList) (iter : LLIterator) : Except Fault LLPayload_t :=
  if iter.node = none then .error .verify
  else do
    let (_, nd) ← deref list.nodes iter.node
    .ok nd.payload

/-- The payload destructor acts on a caller state `σ`. -/
def LLIterator_Remove {σ : Type} (list : LinkedList) (iter : LLIterator)
    (payload_free_function : LLPayload_t → σ → σ) (s : σ) :
    Except Fault (LinkedList × LLIterator × σ × Bool) :=
  if iter.node = none then .error .verify
  else do
    let (node, nd) ← deref list.nodes iter.node
    let s1 := payload_free_function nd.payload s
    if list.num_elements = 1 then
      .ok ({ list with head := none, tail := none, nodes := release list.nodes node,
                       num_elements := list.num_elements - 1 },
           { node := none }, s1, false)
    else do
      let (list1, iter1) ←
        if some node = list.head then do
          let (h, hn) ← deref list.nodes nd.next
          pure ({ list with head := nd.next,
                            nodes := store list.nodes h { hn with prev := none } },
                ({ node := nd.next } : LLIterator))
        else if some node = list.tail then do
          let (t, tn) ← deref list.nodes nd.prev
          pure ({ list with tail := nd.prev,
                            nodes := store list.nodes t { tn with next := none } },
                ({ node := nd.prev } : LLIterator))
        else do
          let (p, pn) ← deref list.nodes nd.prev
          let nodes1 := store list.nodes p { pn with next := nd.next }
          let (n, nn) ← deref nodes1 nd.next
          pure ({ list with nodes := store nodes1 n { nn with prev := nd.prev } },
                ({ node := nd.next } : LLIterator))
      .ok ({ list1 with nodes := release list1.nodes node,
                        num_elements := list1.num_elements - 1 }, iter1, s1, true)

/-- The result is `some payload` for `true` with `*payload_ptr = payload`, and
`none` for `false`. -/
def LLSlice (list : LinkedList) : Except Fault (LinkedList × Option LLPayload_t) :=
  if list.num_elements = 0 then .ok (list, none)
  else do
    let (old_tail, otn) ← deref list.nodes list.tail
    let payload := otn.payload
    let list1 ←
      if list.num_elements = 1 then
        pure { list with head := none, tail := none }
      else do
        let (t, tn) ← deref list.nodes otn.prev
        pure { list with tail := otn.prev, nodes := store list.nodes t { tn with next := none } }
    .ok ({ list1 with nodes := release list1.nodes old_tail,
                      num_elements := list1.num_elements - 1 }, some payload)

def LLIteratorRewind (list : LinkedList) (_iter : LLIterator) : LLIterator :=
  { node := list.head }

/-- The payloads met from `p` along `next`, at most `fuel` of them. -/
def walk (m : Nat → Option LinkedListNode) : Nat → Option Nat → List LLPayload_t
  | 0, _ => []
  | _ + 1, none => []
  | fuel + 1, some a =>
    match m a with
    | none => []
    | some nd => nd.payload :: walk m fuel nd.next

/-- The payloads of a list, head first: those of the `num_elements` nodes that
`next` leads to from `head`. -/
def LinkedList.toList (list : LinkedList) : List LLPayload_t :=
  walk list.nodes list.num_elements.toNat list.head

/-! ## HashTable.c -/

abbrev HTKey_t := Nat

abbrev HTValue_t := Nat

structure HTKeyValue_t where
  key : HTKey_t
  value : HTValue_t
  deriving DecidableEq, Repr

structure HashTable where
  num_buckets : Nat
  num_elements : Int
  buckets : List LinkedList
  kvs : Nat → Option HTKeyValue_t
  kv_brk : Nat

/-- The table iterator; `iter->ht` is the table passed next to it, and the
list of `bucket_it` is `ht->buckets[bucket_idx]`. -/
structure HTIterator where
  bucket_idx : Int
  bucket_it : Option LLIterator
  deriving DecidableEq, Repr

def INVALID_IDX : Int := -1

def FNV1_64_INIT : Nat := 0xcbf29ce484222325

def FNV_64_PRIME : Nat := 0x100000001b3

/-- The `while (bp < be)` loop of `FNVHash64`: `bp` is the index of the octet read
next and the first argument the distance `be - bp`.  `hval` is a `uint64_t`: the
product is reduced modulo `2^64`. -/
def FNVHash64_loop (buffer : List Nat) : Nat → Nat → Nat → Except Fault Nat
  | 0, _, hval => .ok hval
  | n + 1, bp, hval =>
    match buffer[bp]? with
    | none => .error .outOfBounds
    | some octet =>
      FNVHash64_loop buffer n (bp + 1) (((hval ^^^ octet) * FNV_64_PRIME) % 2 ^ 64)

/-- The memory at `buffer` holds the octets of the list; reading past them is a fault. -/
def FNVHash64 (buffer : List Nat) (len : Int) : Except Fault Nat :=
  FNVHash64_loop buffer len.toNat 0 FNV1_64_INIT

def HashKeyToBucketNum (ht : HashTable) (key : HTKey_t) : Except Fault Nat :=
  if ht.num_buckets = 0 then .error .divByZero else .ok (key % ht.num_buckets)

/-- The array access `buckets[i]`. -/
def bucketAt (buckets : List LinkedList) (i : Nat) : Except Fault LinkedList :=
  match buckets[i]? with
  | none => .error .outOfBounds
  | some l => .ok l

/-- The argument is an `int`; `Verify333(num_buckets > 0)` is the first statement. -/
def HashTable_Allocate (num_buckets : Int) : Except Fault HashTable :=
  if num_buckets > 0 then
    .ok { num_buckets := num_buckets.toNat, num_elements := 0,
          buckets := List.replicate num_buckets.toNat LinkedList_Allocate,
          kvs := fun _ => none, kv_brk := 0 }
  else .error .verify

def HashTable_NumElements (table : HashTable) : Int :=
  table.num_elements

/-- The `while` loop of `FindKey`. -/
def FindKey_loop (kvs : Nat → Option HTKeyValue_t) (chain : LinkedList) (key : HTKey_t) :
    Nat → LLIterator → Except Fault (Option Nat)
  | 0, _ => .error .outOfFuel
  | fuel + 1, it =>
    if LLIterator_IsValid it then do
      let kv ← LLIterator_Get chain it
      let (_, r) ← deref kvs (some kv)
      if r.key = key then .ok (some kv)
      else do
        let (it1, _) ← LLIterator_Next chain it
        FindKey_loop kvs chain key fuel it1
    else .ok none

/-- The result is `some kv` for `true` with `*kv_ptr = kv`, and `none` for `false`. -/
def FindKey (fuel : Nat) (kvs : Nat → Option HTKeyValue_t) (chain : LinkedList)
    (key : HTKey_t) : Except Fault (Option Nat) :=
  FindKey_loop kvs chain key fuel (LLIterator_Allocate chain)

/-- The part of `HashTable_Insert` after the call of `MaybeResize`.  The result
carries `some old` for `true` with `*oldkeyvalue = old`, and `none` for `false`. -/
def HashTable_Insert_body (fuel : Nat) (table : HashTable) (newkeyvalue : HTKeyValue_t) :
    Except Fault (HashTable × Option HTKeyValue_t) := do
  let bucket ← HashKeyToBucketNum table newkeyvalue.key
  let chain ← bucketAt table.buckets bucket
  match ← FindKey fuel table.kvs chain newkeyvalue.key with
  | some kv => do
    let (_, old) ← deref table.kvs (some kv)
    .ok ({ table with kvs := store table.kvs kv { old with value := newkeyvalue.value } },
         some old)
  | none => do
    let kv := table.kv_brk
    let kvs := store table.kvs kv newkeyvalue
    let chain1 ← LinkedList_Push chain kv
    .ok ({ table with buckets := table.buckets.set bucket chain1, kvs := kvs,
                      kv_brk := kv + 1, num_elements := table.num_elements + 1 }, none)

/-- The result carries the table, which the code does not write to, and
`some kv` for `true` with `*keyvalue = kv`, `none` for `false`. -/
def HashTable_Find (fuel : Nat) (table : HashTable) (key : HTKey_t) :
    Except Fault (HashTable × Option HTKeyValue_t) := do
  let bucket ← HashKeyToBucketNum table key
  let chain ← bucketAt table.buckets bucket
  match ← FindKey fuel table.kvs chain key with
  | some kv => do
    let (_, r) ← deref table.kvs (some kv)
    .ok (table, some r)
  | none => .ok (table, none)

/-- The `while` loop of `HashTable_Remove`; `free` releases the record. -/
def HashTable_Remove_loop (table : HashTable) (bucket : Nat) (chain : LinkedList) (kv : Nat)
    (keyvalue : HTKeyValue_t) :
    Nat → LLIterator → Except Fault (HashTable × Option HTKeyValue_t)
  | 0, _ => .error .outOfFuel
  | fuel + 1, it =>
    if LLIterator_IsValid it then do
      let curr ← LLIterator_Get chain it
      if curr = kv then do
        let (chain1, _, kvs1, _) ←
          LLIterator_Remove chain it (fun p m => release m p) table.kvs
        .ok ({ table with buckets := table.buckets.set bucket chain1, kvs := kvs1,
                          num_elements := table.num_elements - 1 }, some keyvalue)
      else do
        let (it1, _) ← LLIterator_Next chain it
        HashTable_Remove_loop table bucket chain kv keyvalue fuel it1
    else .ok (table, none)

def HashTable_Remove (fuel : Nat) (table : HashTable) (key : HTKey_t) :
    Except Fault (HashTable × Option HTKeyValue_t) := do
  let bucket ← HashKeyToBucketNum table key
  let chain ← bucketAt table.buckets bucket
  match ← FindKey fuel table.kvs chain key with
  | some kv => do
    let (_, keyvalue) ← deref table.kvs (some kv)
    HashTable_Remove_loop table bucket chain kv keyvalue fuel (LLIterator_Allocate chain)
  | none => .ok (table, none)

/-- The scan `for (i = start; i < num_buckets; i++)` for a bucket with
`LinkedList_NumElements(buckets[i]) > 0`; the first argument counts the buckets left. -/
def scanBuckets (buckets : List LinkedList) : Nat → Nat → Except Fault (Option Nat)
  | 0, _ => .ok none
  | n + 1, i => do
    let chain ← bucketAt buckets i
    if LinkedList_NumElements chain > 0 then .ok (some i)
    else scanBuckets buckets n (i + 1)

def HTIterator_Allocate (table : HashTable) : Except Fault HTIterator :=
  if table.num_elements = 0 then
    .ok { bucket_idx := INVALID_IDX, bucket_it := none }
  else do
    match ← scanBuckets table.buckets table.num_buckets 0 with
    | none => .error .verify
    | some i => do
      let chain ← bucketAt table.buckets i
      .ok { bucket_idx := i, bucket_it := some (LLIterator_Allocate chain) }

def HTIterator_IsValid (iter : HTIterator) : Bool :=
  if iter.bucket_idx = INVALID_IDX then false
  else
    match iter.bucket_it with
    | none => false
    | some it => LLIterator_IsValid it

/-- The list `iter->bucket_it->list`. -/
def iterChain (ht : HashTable) (iter : HTIterator) : Except Fault LinkedList :=
  if iter.bucket_idx < 0 then .error .outOfBounds
  else bucketAt ht.buckets iter.bucket_idx.toNat

def HTIterator_Next (ht : HashTable) (iter : HTIterator) : Except Fault (HTIterator × Bool) :=
  if !HTIterator_IsValid iter then .ok (iter, false)
  else
    match iter.bucket_it with
    | none => .error .nullDeref
    | some bit => do
      let chain ← iterChain ht iter
      let (bit1, moved) ← LLIterator_Next chain bit
      if moved then .ok ({ iter with bucket_it := some bit1 }, true)
      else do
        let start := (iter.bucket_idx + 1).toNat
        match ← scanBuckets ht.buckets (ht.num_buckets - start) start with
        | some i => do
          let chain1 ← bucketAt ht.buckets i
          .ok ({ bucket_idx := i, bucket_it := some (LLIterator_Allocate chain1) }, true)
        | none => .ok ({ bucket_idx := INVALID_IDX, bucket_it := none }, false)

/-- The result is `some kv` for `true` with `*keyvalue = kv`, `none` for `false`. -/
def HTIterator_Get (ht : HashTable) (iter : HTIterator) : Except Fault (Option HTKeyValue_t) :=
  if !HTIterator_IsValid iter then .ok none
  else
    match iter.bucket_it with
    | none => .error .nullDeref
    | some bit => do
      let chain ← iterChain ht iter
      let kv ← LLIterator_Get chain bit
      let (_, r) ← deref ht.kvs (some kv)
      .ok (some r)

def HTIterator_Remove (fuel : Nat) (ht : HashTable) (iter : HTIterator) :
    Except Fault (HashTable × HTIterator × Option HTKeyValue_t) := do
  match ← HTIterator_Get ht iter with
  | none => .ok (ht, iter, none)
  | some kv => do
    let (iter1, _) ← HTIterator_Next ht iter
    match ← HashTable_Remove fuel ht kv.key with
    | (_, none) => .error .verify
    | (ht1, some keyvalue) =>
      if kv.key ≠ keyvalue.key then .error .verify
      else if kv.value ≠ keyvalue.value then .error .verify
      else .ok (ht1, iter1, some keyvalue)

/-- The `while` loop of `LinkedList_Free`. -/
def LinkedList_Free_loop {σ : Type} (payload_free_function : LLPayload_t → σ → σ) :
    Nat → (Nat → Option LinkedListNode) → Option Nat → σ → Except Fault σ
  | 0, _, _, _ => .error .outOfFuel
  | fuel + 1, nodes, curr, s =>
    match curr with
    | none => .ok s
    | some a => do
      let (_, nd) ← deref nodes curr
      LinkedList_Free_loop payload_free_function fuel (release nodes a) nd.next
        (payload_free_function nd.payload s)

def LinkedList_Free {σ : Type} (fuel : Nat) (list : LinkedList)
    (payload_free_function : LLPayload_t → σ → σ) (s : σ) : Except Fault σ :=
  LinkedList_Free_loop payload_free_function fuel list.nodes list.head s

/-- The `while` loop of `HashTable_Free` that empties one chain. -/
def HashTable_Free_chain {σ : Type} (value_free_function : HTValue_t → σ → σ) :
    Nat → LinkedList → (Nat → Option HTKeyValue_t) → σ →
      Except Fault (LinkedList × (Nat → Option HTKeyValue_t) × σ)
  | 0, _, _, _ => .error .outOfFuel
  | fuel + 1, bucket, kvs, s =>
    if LinkedList_NumElements bucket > 0 then do
      match ← LinkedList_Pop bucket with
      | (_, none) => .error .verify
      | (bucket1, some kv) => do
        let (_, r) ← deref kvs (some kv)
        HashTable_Free_chain value_free_function fuel bucket1 (release kvs kv)
          (value_free_function r.value s)
    else .ok (bucket, kvs, s)

/-- The `for` loop of `HashTable_Free`; the first argument counts the buckets left. -/
def HashTable_Free_loop {σ : Type} (fuel : Nat) (buckets : List LinkedList)
    (value_free_function : HTValue_t → σ → σ) :
    Nat → Nat → (Nat → Option HTKeyValue_t) → σ → Except Fault σ
  | 0, _, _, s => .ok s
  | n + 1, i, kvs, s => do
    let bucket ← bucketAt buckets i
    let (bucket1, kvs1, s1) ← HashTable_Free_chain value_free_function fuel bucket kvs s
    let _ ← LinkedList_Free fuel bucket1 (fun _ (u : Unit) => u) ()
    HashTable_Free_loop fuel buckets value_free_function n (i + 1) kvs1 s1

def HashTable_Free {σ : Type} (fuel : Nat) (table : HashTable)
    (value_free_function : HTValue_t → σ → σ) (s : σ) : Except Fault σ :=
  HashTable_Free_loop fuel table.buckets value_free_function table.num_buckets 0 table.kvs s

/-- The `for` loop of `MaybeResize` over the old table `ht`, with the
insertion into the new table as a parameter. -/
def MaybeResize_loop
    (insert : HashTable → HTKeyValue_t → Except Fault (HashTable × Option HTKeyValue_t))
    (ht : HashTable) : Nat → HTIterator → HashTable → Except Fault HashTable
  | 0, _, _ => .error .outOfFuel
  | fuel + 1, it, newht =>
    if HTIterator_IsValid it then do
      match ← HTIterator_Get ht it with
      | none => .error .verify
      | some item => do
        let (newht1, _) ← insert newht item
        let (it1, _) ← HTIterator_Next ht it
        MaybeResize_loop insert ht fuel it1 newht1
    else .ok newht

/-- The new table takes the place of the old one, which is freed with the
no-op value destructor.  The products `3 * ht->num_buckets` and
`ht->num_buckets * 9` are `int` products (`toInt32`). -/
def MaybeResize : Nat → HashTable → Except Fault HashTable
  | 0, ht =>
    if ht.num_elements < toInt32 (3 * (ht.num_buckets : Int)) then .ok ht
    else .error .outOfFuel
  | fuel + 1, ht =>
    if ht.num_elements < toInt32 (3 * (ht.num_buckets : Int)) then .ok ht
    else do
      let newht ← HashTable_Allocate (toInt32 ((ht.num_buckets : Int) * 9))
      let it ← HTIterator_Allocate ht
      let newht1 ← MaybeResize_loop
        (fun t item => do
          let t1 ← MaybeResize fuel t
          HashTable_Insert_body fuel t1 item)
        ht (fuel + 1) it newht
      let _ ← HashTable_Free (fuel + 1) ht (fun _ (u : Unit) => u) ()
      .ok newht1

def HashTable_Insert (fuel : Nat) (table : HashTable) (newkeyvalue : HTKeyValue_t) :
    Except Fault (HashTable × Option HTKeyValue_t) := do
  let table1 ← MaybeResize fuel table
  HashTable_Insert_body fuel table1 newkeyvalue

/-- The client loop of a full iteration: `HTIterator_Get` then `HTIterator_Next`
while `HTIterator_IsValid`. -/
def HTIterator_visit (ht : HashTable) : Nat → HTIterator → Except Fault (List HTKeyValue_t)
  | 0, _ => .error .outOfFuel
  | fuel + 1, it =>
    if HTIterator_IsValid it then do
      match ← HTIterator_Get ht it with
      | none => .error .verify
      | some kv => do
        let (it1, _) ← HTIterator_Next ht it
        let rest ← HTIterator_visit ht fuel it1
        .ok (kv :: rest)
    else .ok []

/-! ## Specification: what a well-formed list and a well-formed table are -/

/-- A node of a list as the proofs see it: its address and its payload. -/
abbrev Cell := Nat × LLPayload_t

/-- The address of the first cell, `NULL` when there is none. -/
def firstAddr (cells : List Cell) : Option Nat := cells.head?.map Prod.fst

/-- The address of the last cell, `NULL` when there is none. -/
def lastAddr (cells : List Cell) : Option Nat := cells.getLast?.map Prod.fst

/-- The list `l` is the doubly linked chain of the nodes `cells`, head first:
`num_elements` counts them, `head` and `tail` are the first and the last (`NULL`
when there is none), their addresses are pairwise distinct and below the
allocation frontier, and each node holds its payload, the address of the node
after it as `next` and of the node before it as `prev`. -/
structure LinkedList.Rep (l : LinkedList) (cells : List Cell) : Prop where
  count : l.num_elements = cells.length
  head_eq : l.head = firstAddr cells
  tail_eq : l.tail = lastAddr cells
  nodup : (cells.map Prod.fst).Nodup
  fresh : ∀ c ∈ cells, c.1 < l.brk
  node : ∀ l1 c l2, cells = l1 ++ c :: l2 →
    l.nodes c.1 = some ⟨c.2, firstAddr l2, lastAddr l1⟩

/-- A well-formed list: the doubly linked chain of some sequence of nodes. -/
def LinkedList.WF (l : LinkedList) : Prop := ∃ cells, l.Rep cells

/-- The payloads of a chain read as record addresses. -/
def recordsAt (kvs : Nat → Option HTKeyValue_t) (cells : List Cell) :
    List (Option HTKeyValue_t) :=
  cells.map (fun c => kvs c.2)

/-- The records of the chains of a table, bucket by bucket, each chain head first. -/
def HashTable.chains (t : HashTable) : List (List HTKeyValue_t) :=
  t.buckets.map (fun l => l.toList.filterMap t.kvs)

/-- The memory of a table is in order: a positive number of buckets, the bucket
array of that length, every chain a well-formed list, every payload the address
of an allocated record. -/
structure HashTable.Valid (t : HashTable) : Prop where
  nb_pos : 0 < t.num_buckets
  len : t.buckets.length = t.num_buckets
  wf : ∀ l ∈ t.buckets, l.WF
  alloc : ∀ l ∈ t.buckets, ∀ p ∈ l.toList, p < t.kv_brk ∧ t.kvs p ≠ none

/-- The table invariant: the element count is the sum of the chain lengths, every
record sits in the chain of its key modulo the bucket count, and no chain holds
a key twice. -/
structure HashTable.Inv (t : HashTable) extends t.Valid : Prop where
  count : t.num_elements = (((t.chains.map List.length).sum : Nat) : Int)
  home : ∀ (i : Nat) b, t.chains[i]? = some b → ∀ r ∈ b, r.key % t.num_buckets = i
  nodup : ∀ b ∈ t.chains, (b.map HTKeyValue_t.key).Nodup

/-- A chain holds the records `b`, all below the allocation frontier `brk`. -/
def ChainRep (kvs : Nat → Option HTKeyValue_t) (brk : Nat) (l : LinkedList)
    (b : List HTKeyValue_t) : Prop :=
  ∃ cells, l.Rep cells ∧ recordsAt kvs cells = b.map some ∧ ∀ c ∈ cells, c.2 < brk

/-- The buckets of a table hold the chains `bs`. -/
def TRep (t : HashTable) (bs : List (List HTKeyValue_t)) : Prop :=
  t.buckets.length = bs.length ∧
    ∀ (i : Nat) l b, t.buckets[i]? = some l → bs[i]? = some b → ChainRep t.kvs t.kv_brk l b

/-- The table invariant on the chains `bs` of a table of `nb` buckets and `n` elements. -/
structure AbsInv (nb : Nat) (n : Int) (bs : List (List HTKeyValue_t)) : Prop where
  count : n = (((bs.map List.length).sum : Nat) : Int)
  home : ∀ (i : Nat) b, bs[i]? = some b → ∀ r ∈ b, r.key % nb = i
  nodup : ∀ b ∈ bs, (b.map HTKeyValue_t.key).Nodup

/-- The table `t` holds the chains `bs` and satisfies the invariant. -/
structure TInv (t : HashTable) (bs : List (List HTKeyValue_t)) : Prop where
  nb_pos : 0 < t.num_buckets
  len : t.buckets.length = t.num_buckets
  rep : TRep t bs
  abs : AbsInv t.num_buckets t.num_elements bs

/-- The chain a key belongs to. -/
def homeChain (nb : Nat) (bs : List (List HTKeyValue_t)) (k : HTKey_t) : List HTKeyValue_t :=
  (bs[k % nb]?).getD []

/-- The record of a key in the chains, if any. -/
def absLookup (nb : Nat) (bs : List (List HTKeyValue_t)) (k : HTKey_t) : Option HTKeyValue_t :=
  (homeChain nb bs k).find? (fun r => r.key = k)

/-- The chains after the insertion of a record: the record of its key is
overwritten where it is, a new record goes to the head of its chain. -/
def absInsert (nb : Nat) (bs : List (List HTKeyValue_t)) (kv : HTKeyValue_t) :
    List (List HTKeyValue_t) :=
  bs.set (kv.key % nb)
    (if (absLookup nb bs kv.key).isSome then
      (homeChain nb bs kv.key).map (fun r => if r.key = kv.key then kv else r)
    else kv :: homeChain nb bs kv.key)

/-- The chains after the removal of a key. -/
def absRemove (nb : Nat) (bs : List (List HTKeyValue_t)) (k : HTKey_t) :
    List (List HTKeyValue_t) :=
  bs.set (k % nb) ((homeChain nb bs k).eraseP (fun r => r.key = k))

/-- The iterator `it` on the table `t` of chains `bs` has the records `rest`
still to visit, the first of them its current one. -/
def IterRem (t : HashTable) (bs : List (List HTKeyValue_t)) (it : HTIterator)
    (rest : List HTKeyValue_t) : Prop :=
  (rest = [] ∧ it = ⟨INVALID_IDX, none⟩) ∨
  ∃ (i : Nat) (l : LinkedList) (c1 : List Cell) (c : Cell) (c2 : List Cell)
    (b1 : List HTKeyValue_t) (r : HTKeyValue_t) (b2 : List HTKeyValue_t),
    it = ⟨(i : Int), some ⟨some c.1⟩⟩ ∧ t.buckets[i]? = some l ∧
    bs[i]? = some (b1 ++ r :: b2) ∧ l.Rep (c1 ++ c :: c2) ∧
    recordsAt t.kvs c1 = b1.map some ∧ t.kvs c.2 = some r ∧
    recordsAt t.kvs c2 = b2.map some ∧ rest = r :: b2 ++ (bs.drop (i + 1)).flatten

/-- The `int` products of `MaybeResize` are exact on the table: `3 * num_buckets` is
at most `INT_MAX`, and so is `9 * num_elements`, which bounds `num_buckets * 9`
when the table is resized and `3 * num_buckets` on the table that takes its place. -/
def HashTable.Fits (t : HashTable) : Prop :=
  3 * (t.num_buckets : Int) ≤ 2147483647 ∧ 9 * t.num_elements ≤ 2147483647

instance (t : HashTable) : Decidable t.Fits :=
  inferInstanceAs
    (Decidable (3 * (t.num_buckets : Int) ≤ 2147483647 ∧ 9 * t.num_elements ≤ 2147483647))

/-- The inner insertion of `MaybeResize`, as the loop receives it. -/
def innerInsert (fuel : Nat) (t : HashTable) (item : HTKeyValue_t) :
    Except Fault (HashTable × Option HTKeyValue_t) := do
  let t1 ← MaybeResize fuel t
  HashTable_Insert_body fuel t1 item

/-- A table iterator on the table `t`: one that `HTIterator_IsValid` rejects, or
one positioned at a node of the chain of its bucket. -/
def HTIterator.On (it : HTIterator) (t : HashTable) : Prop :=
  HTIterator_IsValid it = false ∨
  ∃ (i : Nat) (l : LinkedList) (cells : List Cell) (a : Nat),
    it = ⟨(i : Int), some ⟨some a⟩⟩ ∧ t.buckets[i]? = some l ∧ l.Rep cells ∧
      a ∈ cells.map Prod.fst

/-- A client loop: the records of a list inserted one after the other. -/
def insertAll (fuel : Nat) : List HTKeyValue_t → HashTable → Except Fault HashTable
  | [], t => .ok t
  | kv :: rest, t => do
    let (t1, _) ← HashTable_Insert fuel t kv
    insertAll fuel rest t1

/-- A call of `HashTable_Insert` or of `HashTable_Remove`. -/
inductive Op where
  | insert (kv : HTKeyValue_t)
  | remove (key : HTKey_t)
  deriving DecidableEq, Repr

/-- A client loop: the calls of a list made one after the other. -/
def runOps (fuel : Nat) : List Op → HashTable → Except Fault HashTable
  | [], t => .ok t
  | Op.insert kv :: rest, t => do
    let (t1, _) ← HashTable_Insert fuel t kv
    runOps fuel rest t1
  | Op.remove key :: rest, t => do
    let (t1, _) ← HashTable_Remove fuel t key
    runOps fuel rest t1

/-- The finite map a sequence of calls builds from the map `m`: the records
inserted and not removed since, one for each key. -/
def liveMap : List Op → List HTKeyValue_t → List HTKeyValue_t
  | [], m => m
  | Op.insert kv :: rest, m => liveMap rest (kv :: m.filter (fun r => r.key ≠ kv.key))
  | Op.remove key :: rest, m => liveMap rest (m.filter (fun r => r.key ≠ key))

/-- The table `HashTable_Allocate` makes. -/
def emptyTable (n : Nat) : HashTable :=
  { num_buckets := n, num_elements := 0, buckets := List.replicate n LinkedList_Allocate,
    kvs := fun _ => none, kv_brk := 0 }

/-- The table that the insertion of the records `kvs` into a fresh table of `n`
buckets makes. -/
def tableOf (fuel n : Nat) (kvs : List HTKeyValue_t) : HashTable :=
  match insertAll fuel kvs (emptyTable n) with
  | .ok t => t
  | .error _ => emptyTable n

/-- The list that pushing the payloads `xs`, last one first, onto an empty list makes. -/
def listOf : List LLPayload_t → LinkedList
  | [] => LinkedList_Allocate
  | x :: xs =>
    match LinkedList_Push (listOf xs) x with
    | .ok l => l
    | .error _ => LinkedList_Allocate

deriving instance DecidableEq for Except

/-- The addresses of the nodes met from `p` along `next`, at most `fuel` of them. -/
def walkAddrs (m : Nat → Option LinkedListNode) : Nat → Option Nat → List Nat
  | 0, _ => []
  | _ + 1, none => []
  | fuel + 1, some a =>
    match m a with
    | none => []
    | some nd => a :: walkAddrs m fuel nd.next

/-- The nodes of a list, head first: the addresses of the `num_elements` nodes
that `next` leads to from `head`. -/
def LinkedList.addrs (list : LinkedList) : List Nat :=
  walkAddrs list.nodes list.num_elements.toNat list.head

/-- FNV-1a as the specification words it: the left fold of
`h := ((h XOR b) * 0x100000001b3) mod 2^64` from `0xcbf29ce484222325`. -/
def fnv1a64 (bs : List Nat) : Nat :=
  bs.foldl (fun h b => ((h ^^^ b) * 0x100000001b3) % 2 ^ 64) 0xcbf29ce484222325

/-- One pass of bubble sort from the element `x` over the elements after it: `sw`
tells whether two adjacent elements are swapped; the flag tells whether the pass
has swapped. -/
def bubble {α : Type} (sw : α → α → Bool) : α → List α → List α × Bool
  | x, [] => ([x], false)
  | x, y :: ys =>
    if sw x y then (y :: (bubble sw x ys).1, true)
    else (x :: (bubble sw y ys).1, (bubble sw y ys).2)

/-- One pass of bubble sort over a list. -/
def bubblePass {α : Type} (sw : α → α → Bool) : List α → List α × Bool
  | [] => ([], false)
  | x :: ys => bubble sw x ys

/-- Bubble sort: passes until one does not swap, at most `fuel` of them. -/
def bubbleSort {α : Type} (sw : α → α → Bool) : Nat → List α → Option (List α)
  | 0, _ => none
  | fuel + 1, l =>
    if (bubblePass sw l).2 then bubbleSort sw fuel (bubblePass sw l).1
    else some (bubblePass sw l).1

/-- The number of pairs of a list, the first before the second, that `sw` would swap. -/
def inversions {α : Type} (sw : α → α → Bool) : List α → Nat
  | [] => 0
  | x :: l => l.countP (sw x) + inversions sw l

/-- Whether a pass of `LinkedList_Sort` swaps the adjacent payloads `x`, `y`: the
test `compare_result < 0`. -/
def outOfOrder (ascending : Bool) (cmp : LLPayloadComparatorFnPtr) (x y : LLPayload_t) : Bool :=
  decide ((if ascending then toInt32 (cmp x y * -1) else cmp x y) < 0)

/-- A comparator as the specification wants it: its results are `int`s, negative,
zero or positive as its first argument is less than, equal to or greater than its
second in a total preorder of the payloads (`cmp x y <= 0` is that preorder). -/
structure IsTotalPreorder (cmp : LLPayloadComparatorFnPtr) : Prop where
  int_range : ∀ x y, -2147483648 ≤ cmp x y ∧ cmp x y ≤ 2147483647
  antisymm : ∀ x y, cmp x y < 0 ↔ 0 < cmp y x
  trans : ∀ x y z, cmp x y ≤ 0 → cmp y z ≤ 0 → cmp x z ≤ 0

/-- The comparator of the natural order that answers -1, 0 or 1. -/
def natCompare : LLPayloadComparatorFnPtr :=
  fun (x y : Nat) => if x < y then (-1 : Int) else if y < x then 1 else 0

/-- A comparator of the natural order that answers `INT_MIN` for less. -/
def intMinCompare : LLPayloadComparatorFnPtr :=
  fun (x y : Nat) => if x < y then (-2147483648 : Int) else if y < x then 1 else 0

/-- A comparator of the payloads by their tens that answers `INT_MIN` for less: the
payloads 10 and 11 compare equal. -/
def tensIntMinCompare : LLPayloadComparatorFnPtr :=
  fun (x y : Nat) => intMinCompare (x / 10) (y / 10)

/-- The pointer that `n` steps along `next` lead to from `p`; there is none when one
of the steps starts at `NULL` or at an address that holds no node. -/
def follow (m : Nat → Option LinkedListNode) : Nat → Option Nat → Option (Option Nat)
  | 0, p => some p
  | _ + 1, none => none
  | n + 1, some a =>
    match m a with
    | none => none
    | some nd => follow m n nd.next

/-- The list invariant, as the specification words it.  `num_elements` is the number
of nodes reachable from `head` by `next` links: that many steps from `head` pass
through nodes and end at `NULL`.  `head` and `tail` are `NULL` exactly when
`num_elements` is 0, and `tail` is the last of the nodes reachable from `head`.  The
head has no `prev`, the tail has no `next`, and for reachable nodes `a`, `b` with
`a.next = b` it holds that `b.prev = a`.  The nodes lie below the allocation
frontier of the memory model. -/
structure LinkedList.Inv (l : LinkedList) : Prop where
  count_nonneg : 0 ≤ l.num_elements
  reach : follow l.nodes l.num_elements.toNat l.head = some none
  head_absent : l.head = none ↔ l.num_elements = 0
  tail_absent : l.tail = none ↔ l.num_elements = 0
  tail_last : l.tail = l.addrs.getLast?
  head_prev : ∀ a nd, l.head = some a → l.nodes a = some nd → nd.prev = none
  tail_next : ∀ a nd, l.tail = some a → l.nodes a = some nd → nd.next = none
  back : ∀ a ∈ l.addrs, ∀ na b nb, l.nodes a = some na → na.next = some b →
    l.nodes b = some nb → nb.prev = some a
  frontier : ∀ a ∈ l.addrs, a < l.brk

/-- The `next` links lead from `p` through the nodes `cells`, one after the other, to `q`. -/
def Path (m : Nat → Option LinkedListNode) : Option Nat → List Cell → Option Nat → Prop
  | p, [], q => p = q
  | p, c :: cs, q => p = some c.1 ∧ ∃ nd, m c.1 = some nd ∧ nd.payload = c.2 ∧ Path m nd.next cs q

/-- A comparator of the payloads by their tens that answers -1, 0 or 1: the
payloads 10 and 11 compare equal. -/
def tensCompare : LLPayloadComparatorFnPtr :=
  fun (x y : Nat) => natCompare (x / 10) (y / 10)

/-- A table that the client can reach within the range of `int`:
`HashTable_Allocate(n)` with an `int` `n > 0` has made it, or a call of
`HashTable_Insert`, of `HashTable_Remove` or of `HTIterator_Remove` (through an
iterator on the table) has left it, made on a table that the client can reach and
with fuel that lets the call return; the calls of `HashTable_Insert` are those on
a table on which the products of `MaybeResize` are exact (`HashTable.Fits`). -/
inductive Reachable : HashTable → Prop
  | allocate {n : Int} {t : HashTable} :
      0 < n → n ≤ 2147483647 → HashTable_Allocate n = .ok t → Reachable t
  | insert {t t' : HashTable} {kv : HTKeyValue_t} {old : Option HTKeyValue_t} {fuel : Nat} :
      Reachable t → t.Fits → t.num_elements < (fuel : Int) →
      HashTable_Insert fuel t kv = .ok (t', old) → Reachable t'
  | remove {t t' : HashTable} {k : HTKey_t} {r : Option HTKeyValue_t} {fuel : Nat} :
      Reachable t → t.num_elements < (fuel : Int) →
      HashTable_Remove fuel t k = .ok (t', r) → Reachable t'
  | iterator_remove {t t' : HashTable} {it it' : HTIterator} {r : Option HTKeyValue_t}
      {fuel : Nat} :
      Reachable t → it.On t → t.num_elements < (fuel : Int) →
      HTIterator_Remove fuel t it = .ok (t', it', r) → Reachable t'

/-- The insertion that the loop of `MaybeResize` makes into the new table, with a
check in front: it faults when the `MaybeResize` inside the insertion would not
return at once, that is when the new table itself would be resized. -/
def insertNoResize (fuel : Nat) (t : HashTable) (item : HTKeyValue_t) :
    Except Fault (HashTable × Option HTKeyValue_t) :=
  if t.num_elements < toInt32 (3 * (t.num_buckets : Int)) then innerInsert fuel t item
  else .error .verify

/-- An inconsistent comparator: it answers that its first argument is the greater,
whatever the arguments. -/
def alwaysGreater : LLPayloadComparatorFnPtr := fun (_ _ : Nat) => (1 : Int)

/-! ## Proofs: the linked list -/

@[simp] theorem ok_bind {ε α β : Type} (a : α) (f : α → Except ε β) :
    (Except.ok a >>= f) = f a := rfl

@[simp] theorem error_bind {ε α β : Type} (e : ε) (f : α → Except ε β) :
    ((Except.error e : Except ε α) >>= f) = Except.error e := rfl

@[simp] theorem firstAddr_nil : firstAddr [] = none := rfl
@[simp] theorem firstAddr_cons (c : Cell) (l : List Cell) : firstAddr (c :: l) = some c.1 := rfl
@[simp] theorem lastAddr_nil : lastAddr [] = none := rfl
@[simp] theorem lastAddr_append_cons (l : List Cell) (c : Cell) (l2 : List Cell) :
    lastAddr (l ++ c :: l2) = lastAddr (c :: l2) := by
  simp [lastAddr, List.getLast?_append]
  cases h : (c :: l2).getLast? with
  | none => simp [List.getLast?_eq_none_iff] at h
  | some v => simp
  
theorem split_unique {β : Type} {cells l1 l2 k1 k2 : List (Nat × β)} {c d : Nat × β}
    (hnd : (cells.map Prod.fst).Nodup) (h1 : cells = l1 ++ c :: l2)
    (h2 : cells = k1 ++ d :: k2) (hcd : c.1 = d.1) : l1 = k1 ∧ c = d ∧ l2 = k2 := by
  induction l1 generalizing cells k1 with
  | nil =>
    cases k1 with
    | nil => simp at h1; subst h1; simp at h2; exact ⟨rfl, h2.1, h2.2⟩
    | cons e k1 =>
      exfalso
      subst h1
      simp at h2
      obtain ⟨rfl, h3⟩ := h2
      subst h3
      simp at hnd
      exact hnd.1.2.1 hcd
  | cons e l1 ih =>
    cases k1 with
    | nil =>
      exfalso
      subst h2
      simp at h1
      obtain ⟨rfl, h3⟩ := h1
      subst h3
      simp at hnd
      exact hnd.1.2.1 hcd.symm
    | cons e2 k1 =>
      subst h1
      simp at h2
      obtain ⟨rfl, h3⟩ := h2
      simp at hnd
      have := @ih (l1 ++ c :: l2) _ (by simpa using hnd.2) rfl h3
      simp [this]


@[simp] theorem lastAddr_cons_cons (e c : Cell) (l : List Cell) :
    lastAddr (e :: c :: l) = lastAddr (c :: l) := by
  simp [lastAddr, List.getLast?_cons_cons]

@[simp] theorem lastAddr_singleton (c : Cell) : lastAddr [c] = some c.1 := rfl

@[simp] theorem store_same {α : Type} (m : Nat → Option α) (p : Nat) (v : α) :
    store m p v p = some v := by simp [store]

theorem store_other {α : Type} (m : Nat → Option α) {p q : Nat} (v : α) (h : q ≠ p) :
    store m p v q = m q := by simp [store, h]

@[simp] theorem release_same {α : Type} (m : Nat → Option α) (p : Nat) :
    release m p p = none := by simp [release]

theorem release_other {α : Type} (m : Nat → Option α) {p q : Nat} (h : q ≠ p) :
    release m p q = m q := by simp [release, h]

theorem deref_some {α : Type} {m : Nat → Option α} {a : Nat} {v : α} (h : m a = some v) :
    deref m (some a) = .ok (a, v) := by simp [deref, h]

theorem rep_allocate : LinkedList_Allocate.Rep [] := by
  refine ⟨rfl, rfl, rfl, by simp, by simp, ?_⟩
  intro l1 c l2 h
  simp at h

theorem LinkedList.Rep.head_node {l : LinkedList} {c : Cell} {cells : List Cell} (h : l.Rep (c :: cells)) :
    l.nodes c.1 = some ⟨c.2, firstAddr cells, none⟩ := by
  simpa using h.node [] c cells rfl

theorem push_rep {l : LinkedList} {cells : List Cell} (h : l.Rep cells) (x : LLPayload_t) :
    ∃ l', LinkedList_Push l x = .ok l' ∧ l'.Rep ((l.brk, x) :: cells) := by
  cases cells with
  | nil =>
    have h0 : l.num_elements = 0 := by simpa using h.count
    have hh : l.head = none := by simpa using h.head_eq
    have ht : l.tail = none := by simpa using h.tail_eq
    refine ⟨_, by simp [LinkedList_Push, h0, hh, ht]; rfl, ?_⟩
    refine ⟨by simp, by simp, by simp, by simp, by simp, ?_⟩
    intro l1 c l2 hs
    cases l1 with
    | nil => simp at hs; obtain ⟨rfl, rfl⟩ := hs; simp
    | cons e l1 => simp at hs
  | cons c0 rest =>
    have h0 : l.num_elements ≠ 0 := by rw [h.count]; simp; omega
    have hh : l.head = some c0.1 := by simpa using h.head_eq
    have hfr : c0.1 ≠ l.brk := by have := h.fresh c0 (by simp); omega
    have hn := h.head_node
    have hd : deref (store l.nodes l.brk ⟨x, some c0.1, none⟩) (some c0.1)
        = .ok (c0.1, ⟨c0.2, firstAddr rest, none⟩) :=
      deref_some (by rw [store_other _ _ hfr, hn])
    refine ⟨_, by simp [LinkedList_Push, h0, hh, hd]; rfl, ?_⟩
    refine ⟨by simp [h.count], by simp, ?_, ?_, ?_, ?_⟩
    · simp [h.tail_eq]
    · have := h.nodup
      simp only [List.map_cons, List.nodup_cons] at this ⊢
      refine ⟨?_, this⟩
      intro hm
      rcases List.mem_cons.1 hm with he | hm
      · exact hfr he.symm
      · obtain ⟨y, hy, hye⟩ := List.mem_map.1 hm
        have := h.fresh y (List.mem_cons_of_mem _ hy)
        omega
    · intro c hc
      rcases List.mem_cons.1 hc with rfl | hc
      · simp
      · have := h.fresh c hc
        show c.1 < l.brk + 1
        omega
    · intro l1 c l2 hs
      cases l1 with
      | nil =>
        simp only [List.nil_append, List.cons.injEq] at hs
        obtain ⟨rfl, rfl⟩ := hs
        simp [store_other _ _ hfr.symm]
      | cons e l1 =>
        simp only [List.cons_append, List.cons.injEq] at hs
        obtain ⟨rfl, hs⟩ := hs
        cases l1 with
        | nil =>
          simp only [List.nil_append, List.cons.injEq] at hs
          obtain ⟨rfl, rfl⟩ := hs
          simp
        | cons e2 l1 =>
          simp only [List.cons_append, List.cons.injEq] at hs
          obtain ⟨rfl, hs⟩ := hs
          have hc : c ∈ rest := by rw [hs]; simp
          have h1 : c.1 ≠ l.brk := by have := h.fresh c (by simp [hc]); omega
          have h2 : c.1 ≠ c0.1 := by
            have := h.nodup
            simp only [List.map_cons, List.nodup_cons] at this
            intro heq
            exact this.1 (heq ▸ List.mem_map_of_mem _ hc)
          have := h.node (c0 :: l1) c l2 (by simp [hs])
          simp [store_other _ _ h2, store_other _ _ h1, this]


theorem firstAddr_mem {l : List Cell} {a : Nat} (h : firstAddr l = some a) :
    a ∈ l.map Prod.fst := by
  cases l with
  | nil => simp at h
  | cons c l => simp at h; simp [h]

theorem lastAddr_mem {l : List Cell} {a : Nat} (h : lastAddr l = some a) :
    a ∈ l.map Prod.fst := by
  unfold lastAddr at h
  cases hl : l.getLast? with
  | none => simp [hl] at h
  | some c =>
    simp [hl] at h
    have := List.mem_of_getLast?_eq_some hl
    exact h ▸ List.mem_map_of_mem _ this

theorem firstAddr_append_cons (l1 : List Cell) (c : Cell) (l2 : List Cell) :
    firstAddr (l1 ++ c :: l2) = firstAddr (l1 ++ [c]) := by
  cases l1 <;> simp

theorem firstAddr_append_of_ne {l1 : List Cell} (h : l1 ≠ []) (l2 : List Cell) :
    firstAddr (l1 ++ l2) = firstAddr l1 := by
  cases l1 with
  | nil => exact absurd rfl h
  | cons c l => simp

theorem lastAddr_append_of_ne (l1 : List Cell) {l2 : List Cell} (h : l2 ≠ []) :
    lastAddr (l1 ++ l2) = lastAddr l2 := by
  cases l2 with
  | nil => exact absurd rfl h
  | cons c l => simp

/-- The list obtained by unlinking the cell `c`: what the store must look like. -/
theorem rep_erase {l l' : LinkedList} {l1 l2 : List Cell} {c : Cell}
    (h : l.Rep (l1 ++ c :: l2))
    (hc : l'.num_elements = l.num_elements - 1)
    (hh : l'.head = firstAddr (l1 ++ l2)) (ht : l'.tail = lastAddr (l1 ++ l2))
    (hb : l'.brk = l.brk)
    (hm : ∀ q d, q ≠ c.1 → l.nodes q = some d → l'.nodes q =
      some ⟨d.payload, if some q = lastAddr l1 then firstAddr l2 else d.next,
            if some q = firstAddr l2 then lastAddr l1 else d.prev⟩) :
    l'.Rep (l1 ++ l2) := by
  have hnd := h.nodup
  simp only [List.map_append, List.map_cons] at hnd
  have hnd' : (List.map Prod.fst l1 ++ List.map Prod.fst l2).Nodup := by
    rw [List.nodup_append] at hnd ⊢
    refine ⟨hnd.1, (List.nodup_cons.1 hnd.2.1).2, ?_⟩
    intro a h1 h2
    exact hnd.2.2 h1 (List.mem_cons_of_mem _ h2)
  have hc1 : c.1 ∉ List.map Prod.fst l1 := by
    rw [List.nodup_append] at hnd
    intro hx
    exact hnd.2.2 hx (List.mem_cons_self _ _)
  have hc2 : c.1 ∉ List.map Prod.fst l2 := by
    rw [List.nodup_append] at hnd
    exact (List.nodup_cons.1 hnd.2.1).1
  have hdisj : ∀ a, a ∈ List.map Prod.fst l1 → a ∈ List.map Prod.fst l2 → False := by
    rw [List.nodup_append] at hnd'
    exact fun a h1 h2 => hnd'.2.2 h1 h2
  refine ⟨?_, hh, ht, by simpa using hnd', ?_, ?_⟩
  · rw [hc, h.count]; simp; omega
  · intro d hd
    rw [hb]
    apply h.fresh
    simp only [List.mem_append, List.mem_cons] at hd ⊢
    tauto
  · intro k1 e k2 hs
    have hek : e.1 ≠ c.1 := by
      have : e.1 ∈ List.map Prod.fst (l1 ++ l2) := by rw [hs]; simp
      simp only [List.map_append, List.mem_append] at this
      rcases this with h1 | h1
      · exact fun he => hc1 (he ▸ h1)
      · exact fun he => hc2 (he ▸ h1)
    rcases List.append_eq_append_iff.1 hs with ⟨a', e1, e2⟩ | ⟨c', e1, e2⟩
    · -- `e` lies in `l2` after the prefix `a'`
      have hsp : l1 ++ c :: l2 = (l1 ++ c :: a') ++ e :: k2 := by simp [e2]
      have hn := h.node _ _ _ hsp
      rw [hm _ _ hek hn]
      have hel2 : e.1 ∈ List.map Prod.fst l2 := by rw [e2]; simp
      have hx1 : ¬ (some e.1 = lastAddr l1) := fun hx => hdisj _ (lastAddr_mem hx.symm) hel2
      rw [if_neg hx1]
      cases a' with
      | nil =>
        simp only [List.nil_append] at e2
        simp [e1, e2]
      | cons x a' =>
        have hx2 : ¬ (some e.1 = firstAddr l2) := by
          rw [e2]
          simp only [List.cons_append, firstAddr_cons, Option.some.injEq]
          intro hx
          rw [e2] at hnd'
          simp only [List.map_append, List.map_cons, List.cons_append] at hnd'
          have := (List.nodup_append.1 hnd').2.1
          simp only [List.nodup_cons, List.mem_append, List.mem_cons] at this
          exact this.1 (Or.inr (Or.inl hx.symm))
        rw [if_neg hx2, e1]
        simp
    · cases c' with
      | nil =>
        -- `e` is the first cell of `l2`
        simp only [List.append_nil] at e1
        simp only [List.nil_append] at e2
        subst e1
        have hsp : l1 ++ c :: l2 = (l1 ++ [c]) ++ e :: k2 := by simp [← e2]
        have hn := h.node _ _ _ hsp
        rw [hm _ _ hek hn]
        have hel2 : e.1 ∈ List.map Prod.fst l2 := by rw [← e2]; simp
        have hx1 : ¬ (some e.1 = lastAddr l1) := fun hx => hdisj _ (lastAddr_mem hx.symm) hel2
        rw [if_neg hx1]
        simp [← e2]
      | cons x c' =>
        -- `e` lies in `l1`, followed there by `c'`
        simp only [List.cons_append, List.cons.injEq] at e2
        obtain ⟨rfl, e2⟩ := e2
        have hsp : l1 ++ c :: l2 = k1 ++ e :: (c' ++ c :: l2) := by simp [e1]
        have hn := h.node _ _ _ hsp
        rw [hm _ _ hek hn]
        have hel1 : e.1 ∈ List.map Prod.fst l1 := by rw [e1]; simp
        have hx2 : ¬ (some e.1 = firstAddr l2) :=
          fun hx => hdisj _ hel1 (firstAddr_mem hx.symm)
        rw [if_neg hx2]
        cases c' with
        | nil =>
          simp only [List.nil_append] at e2
          simp [e1, e2]
        | cons y c' =>
          have hx1 : ¬ (some e.1 = lastAddr l1) := by
            rw [e1]
            intro hx
            have hx' : lastAddr (y :: c') = some e.1 := by
              rw [hx, show k1 ++ e :: y :: c' = (k1 ++ [e]) ++ y :: c' by simp,
                lastAddr_append_cons]
            have hmem := lastAddr_mem hx'
            rw [e1] at hnd'
            simp only [List.map_append, List.map_cons] at hnd'
            have := (List.nodup_append.1 (List.nodup_append.1 hnd').1).2.1
            exact (List.nodup_cons.1 this).1 hmem
          rw [if_neg hx1, e2]
          simp


theorem LinkedList.Rep.node_at {l : LinkedList} {l1 l2 : List Cell} {c : Cell}
    (h : l.Rep (l1 ++ c :: l2)) :
    l.nodes c.1 = some ⟨c.2, firstAddr l2, lastAddr l1⟩ := h.node l1 c l2 rfl

theorem LinkedList.Rep.num_ne_zero {l : LinkedList} {l1 l2 : List Cell} {c : Cell}
    (h : l.Rep (l1 ++ c :: l2)) : l.num_elements ≠ 0 := by
  rw [h.count]; simp; omega

theorem LinkedList.Rep.num_eq_one_iff {l : LinkedList} {l1 l2 : List Cell} {c : Cell}
    (h : l.Rep (l1 ++ c :: l2)) : l.num_elements = 1 ↔ l1 = [] ∧ l2 = [] := by
  rw [h.count]
  cases l1 <;> cases l2 <;> simp <;> omega

theorem LinkedList.Rep.addr_not_mem_left {l : LinkedList} {l1 l2 : List Cell} {c : Cell}
    (h : l.Rep (l1 ++ c :: l2)) : c.1 ∉ l1.map Prod.fst := by
  have hnd := h.nodup
  simp only [List.map_append, List.map_cons] at hnd
  intro hx
  exact (List.nodup_append.1 hnd).2.2 hx (List.mem_cons_self _ _)

theorem LinkedList.Rep.addr_not_mem_right {l : LinkedList} {l1 l2 : List Cell} {c : Cell}
    (h : l.Rep (l1 ++ c :: l2)) : c.1 ∉ l2.map Prod.fst := by
  have hnd := h.nodup
  simp only [List.map_append, List.map_cons] at hnd
  exact (List.nodup_cons.1 (List.nodup_append.1 hnd).2.1).1

theorem LinkedList.Rep.is_head_iff {l : LinkedList} {l1 l2 : List Cell} {c : Cell}
    (h : l.Rep (l1 ++ c :: l2)) : some c.1 = l.head ↔ l1 = [] := by
  rw [h.head_eq]
  cases l1 with
  | nil => simp
  | cons x l1 =>
    simp only [List.cons_append, firstAddr_cons, Option.some.injEq]
    have := h.addr_not_mem_left
    simp only [List.map_cons, List.mem_cons, not_or] at this
    simp [this.1]

theorem LinkedList.Rep.is_tail_iff {l : LinkedList} {l1 l2 : List Cell} {c : Cell}
    (h : l.Rep (l1 ++ c :: l2)) : some c.1 = l.tail ↔ l2 = [] := by
  rw [h.tail_eq, lastAddr_append_cons]
  cases l2 with
  | nil => simp
  | cons x l2 =>
    simp only [lastAddr_cons_cons]
    constructor
    · intro hx
      exact absurd (lastAddr_mem hx.symm) h.addr_not_mem_right
    · intro hx; simp at hx

theorem get_at {l : LinkedList} {l1 l2 : List Cell} {c : Cell} (h : l.Rep (l1 ++ c :: l2)) :
    LLIterator_Get l ⟨some c.1⟩ = .ok c.2 := by
  simp [LLIterator_Get, deref_some h.node_at]

theorem next_at {l : LinkedList} {l1 l2 : List Cell} {c : Cell} (h : l.Rep (l1 ++ c :: l2)) :
    LLIterator_Next l ⟨some c.1⟩ = .ok (⟨firstAddr l2⟩, (firstAddr l2).isSome) := by
  simp only [LLIterator_Next, deref_some h.node_at]
  cases hf : firstAddr l2 <;> simp

theorem pop_rep_nil {l : LinkedList} (h : l.Rep []) : LinkedList_Pop l = .ok (l, none) := by
  have h0 : l.num_elements = 0 := by simpa using h.count
  simp [LinkedList_Pop, h0]

theorem pop_rep_cons {l : LinkedList} {c : Cell} {cells : List Cell} (h : l.Rep (c :: cells)) :
    ∃ l', LinkedList_Pop l = .ok (l', some c.2) ∧ l'.Rep cells
      ∧ l'.num_elements = l.num_elements - 1 := by
  have h' : l.Rep ([] ++ c :: cells) := h
  have h0 := h'.num_ne_zero
  have hd : deref l.nodes l.head = .ok (c.1, ⟨c.2, firstAddr cells, none⟩) := by
    rw [h.head_eq]; exact deref_some h.head_node
  cases cells with
  | nil =>
    have h1 : l.num_elements = 1 := h'.num_eq_one_iff.2 ⟨rfl, rfl⟩
    refine ⟨_, by simp [LinkedList_Pop, h1, hd, pure, Except.pure]; rfl, ?_, by simp [h1]⟩
    refine rep_erase h' (by simp [h1]) rfl rfl rfl ?_
    intro q d hq hqd
    simp [release_other _ hq, hqd]
  | cons d rest =>
    have h1 : l.num_elements ≠ 1 := fun hx => by simpa using h'.num_eq_one_iff.1 hx
    have hdn : l.nodes d.1 = some ⟨d.2, firstAddr rest, some c.1⟩ := by
      simpa using h.node [c] d rest rfl
    have hd2 : deref l.nodes (some d.1) = .ok (d.1, ⟨d.2, firstAddr rest, some c.1⟩) :=
      deref_some hdn
    refine ⟨_, by simp [LinkedList_Pop, h0, h1, hd, hd2, pure, Except.pure]; rfl, ?_, rfl⟩
    refine rep_erase h' rfl rfl (by simp [h.tail_eq]) rfl ?_
    intro q dd hq hqd
    simp only [release_other _ hq]
    by_cases hqd1 : q = d.1
    · subst hqd1
      rw [hdn] at hqd
      cases hqd
      simp
    · rw [store_other _ _ hqd1, hqd]
      simp [hqd1]


theorem eq_nil_or_snoc {α : Type} (l : List α) : l = [] ∨ ∃ L b, l = L ++ [b] := by
  rcases List.eq_nil_or_concat l with h | ⟨L, b, h⟩
  · exact Or.inl h
  · exact Or.inr ⟨L, b, by simpa using h⟩

@[simp] theorem lastAddr_snoc (l : List Cell) (c : Cell) : lastAddr (l ++ [c]) = some c.1 := by
  rw [lastAddr_append_cons]; rfl

theorem remove_rep {σ : Type} {l : LinkedList} {l1 l2 : List Cell} {c : Cell}
    (h : l.Rep (l1 ++ c :: l2)) (f : LLPayload_t → σ → σ) (s : σ) :
    ∃ l', LLIterator_Remove l ⟨some c.1⟩ f s =
        .ok (l', ⟨if l2 = [] then lastAddr l1 else firstAddr l2⟩, f c.2 s,
             decide (l1 ++ l2 ≠ []))
      ∧ l'.Rep (l1 ++ l2) ∧ l'.num_elements = l.num_elements - 1 := by
  have hcn := h.node_at
  have hd : deref l.nodes (some c.1) = .ok (c.1, ⟨c.2, firstAddr l2, lastAddr l1⟩) :=
    deref_some hcn
  by_cases h1 : l.num_elements = 1
  · obtain ⟨rfl, rfl⟩ := h.num_eq_one_iff.1 h1
    refine ⟨{ l with head := none, tail := none, nodes := release l.nodes c.1,
                     num_elements := l.num_elements - 1 },
      by simp [LLIterator_Remove, hd, h1], ?_, rfl⟩
    refine rep_erase h rfl rfl rfl rfl ?_
    intro q d hq hqd
    simp [release_other _ hq, hqd]
  · rcases eq_nil_or_snoc l1 with rfl | ⟨l1', p, rfl⟩
    · cases l2 with
      | nil => exact absurd (h.num_eq_one_iff.2 ⟨rfl, rfl⟩) h1
      | cons d l2' =>
        have hhead : (some c.1 = l.head) = True := eq_true (h.is_head_iff.2 rfl)
        have hdn : l.nodes d.1 = some ⟨d.2, firstAddr l2', some c.1⟩ := by
          simpa using h.node [c] d l2' rfl
        have hd2 := deref_some hdn
        refine ⟨{ l with head := some d.1,
                         nodes := release (store l.nodes d.1 ⟨d.2, firstAddr l2', none⟩) c.1,
                         num_elements := l.num_elements - 1 },
          by simp [LLIterator_Remove, hd, h1, hhead, hd2, pure, Except.pure], ?_, rfl⟩
        refine rep_erase h rfl rfl (by simp [h.tail_eq]) rfl ?_
        intro q dd hq hqd
        simp only [release_other _ hq]
        by_cases hqd1 : q = d.1
        · subst hqd1
          rw [hdn] at hqd
          cases hqd
          simp
        · rw [store_other _ _ hqd1, hqd]
          simp [hqd1]
    · have hhead : ¬ some c.1 = l.head := fun hx => by simpa using h.is_head_iff.1 hx
      have hpn : l.nodes p.1 = some ⟨p.2, some c.1, lastAddr l1'⟩ := by
        simpa using h.node l1' p (c :: l2) (by simp)
      have hpc : p.1 ≠ c.1 := by
        have := h.addr_not_mem_left
        simp only [List.map_append, List.map_cons, List.map_nil, List.mem_append,
          List.mem_singleton, not_or] at this
        exact fun hx => this.2 hx.symm
      cases l2 with
      | nil =>
        have htail : (some c.1 = l.tail) = True := eq_true (h.is_tail_iff.2 rfl)
        have hd2 := deref_some hpn
        refine ⟨{ l with tail := some p.1,
                         nodes := release (store l.nodes p.1 ⟨p.2, none, lastAddr l1'⟩) c.1,
                         num_elements := l.num_elements - 1 },
          by simp [LLIterator_Remove, hd, h1, hhead, htail, hd2, pure, Except.pure], ?_, rfl⟩
        refine rep_erase h rfl (by simp [h.head_eq, firstAddr_append_cons]) (by simp) rfl ?_
        intro q dd hq hqd
        simp only [release_other _ hq]
        by_cases hqp : q = p.1
        · subst hqp
          rw [hpn] at hqd
          cases hqd
          simp
        · rw [store_other _ _ hqp, hqd]
          simp [hqp]
      | cons d l2' =>
        have htail : ¬ some c.1 = l.tail := fun hx => by simpa using h.is_tail_iff.1 hx
        have hdn : l.nodes d.1 = some ⟨d.2, firstAddr l2', some c.1⟩ := by
          simpa using h.node (l1' ++ [p] ++ [c]) d l2' (by simp)
        have hdp : d.1 ≠ p.1 := by
          have hnd := h.nodup
          simp only [List.map_append, List.map_cons, List.map_nil, List.append_assoc,
            List.singleton_append] at hnd
          have := (List.nodup_append.1 hnd).2.1
          simp only [List.nodup_cons, List.mem_cons, not_or] at this
          exact fun hx => this.1.2.1 hx.symm
        have hd2 := deref_some hpn
        have hd3 : deref (store l.nodes p.1 ⟨p.2, some d.1, lastAddr l1'⟩) (some d.1)
            = .ok (d.1, ⟨d.2, firstAddr l2', some c.1⟩) :=
          deref_some (by rw [store_other _ _ hdp, hdn])
        refine ⟨{ l with nodes := release (store (store l.nodes p.1 ⟨p.2, some d.1, lastAddr l1'⟩)
                                    d.1 ⟨d.2, firstAddr l2', some p.1⟩) c.1,
                         num_elements := l.num_elements - 1 },
          by simp [LLIterator_Remove, hd, h1, hhead, htail, hd2, hd3, pure, Except.pure],
          ?_, rfl⟩
        refine rep_erase h rfl (by simp [h.head_eq, firstAddr_append_cons])
          (by simp [h.tail_eq]) rfl ?_
        intro q dd hq hqd
        simp only [release_other _ hq]
        by_cases hqd1 : q = d.1
        · subst hqd1
          rw [hdn] at hqd
          cases hqd
          simp [hdp]
        · rw [store_other _ _ hqd1]
          by_cases hqp : q = p.1
          · subst hqp
            rw [hpn] at hqd
            cases hqd
            simp [hqd1]
          · rw [store_other _ _ hqp, hqd]
            simp [hqp, hqd1]

theorem walk_rep {l : LinkedList} {l1 l2 : List Cell} (h : l.Rep (l1 ++ l2)) (fuel : Nat)
    (hf : l2.length ≤ fuel) : walk l.nodes fuel (firstAddr l2) = l2.map Prod.snd := by
  induction l2 generalizing l1 fuel with
  | nil => cases fuel <;> simp [walk]
  | cons c l2 ih =>
    cases fuel with
    | zero => simp at hf
    | succ fuel =>
      have h' : l.Rep ((l1 ++ [c]) ++ l2) := by simpa using h
      have := ih h' fuel (by simpa using hf)
      simp [walk, h.node_at, this]

theorem toList_rep {l : LinkedList} {cells : List Cell} (h : l.Rep cells) :
    l.toList = cells.map Prod.snd := by
  have h' : l.Rep ([] ++ cells) := h
  unfold LinkedList.toList
  rw [h.head_eq]
  exact walk_rep h' _ (by rw [h.count]; simp)

/-! ## Proofs: the chains of the table -/

@[simp] theorem recordsAt_nil (kvs : Nat → Option HTKeyValue_t) : recordsAt kvs [] = [] := rfl

@[simp] theorem recordsAt_cons (kvs : Nat → Option HTKeyValue_t) (c : Cell) (cells : List Cell) :
    recordsAt kvs (c :: cells) = kvs c.2 :: recordsAt kvs cells := rfl

@[simp] theorem recordsAt_append (kvs : Nat → Option HTKeyValue_t) (c1 c2 : List Cell) :
    recordsAt kvs (c1 ++ c2) = recordsAt kvs c1 ++ recordsAt kvs c2 := by
  simp [recordsAt]

theorem recordsAt_length {kvs : Nat → Option HTKeyValue_t} {cells : List Cell}
    {b : List HTKeyValue_t} (h : recordsAt kvs cells = b.map some) : cells.length = b.length := by
  have := congrArg List.length h
  simpa [recordsAt] using this

/-- A chain read against its records splits where the records split. -/
theorem recordsAt_split {kvs : Nat → Option HTKeyValue_t} {cells : List Cell}
    {b1 b2 : List HTKeyValue_t} {r : HTKeyValue_t}
    (h : recordsAt kvs cells = (b1 ++ r :: b2).map some) :
    ∃ c1 c c2, cells = c1 ++ c :: c2 ∧ recordsAt kvs c1 = b1.map some ∧ kvs c.2 = some r
      ∧ recordsAt kvs c2 = b2.map some := by
  unfold recordsAt at h
  rw [List.map_append, List.map_eq_append_iff] at h
  obtain ⟨c1, rest, rfl, h1, h2⟩ := h
  rw [List.map_cons, List.map_eq_cons_iff] at h2
  obtain ⟨c, c2, rfl, h3, h4⟩ := h2
  exact ⟨c1, c, c2, rfl, h1, h3, h4⟩

theorem findKey_loop_none {kvs : Nat → Option HTKeyValue_t} {l : LinkedList} {k : HTKey_t}
    {pre suf : List Cell} {b : List HTKeyValue_t} {fuel : Nat}
    (h : l.Rep (pre ++ suf)) (hk : recordsAt kvs suf = b.map some)
    (hno : ∀ r ∈ b, r.key ≠ k) (hf : suf.length < fuel) :
    FindKey_loop kvs l k fuel ⟨firstAddr suf⟩ = .ok none := by
  induction suf generalizing pre b fuel with
  | nil =>
    cases fuel with
    | zero => simp at hf
    | succ fuel => simp [FindKey_loop, LLIterator_IsValid]
  | cons c suf ih =>
    cases fuel with
    | zero => simp at hf
    | succ fuel =>
      cases b with
      | nil => simp at hk
      | cons r b =>
        simp only [recordsAt_cons, List.map_cons, List.cons.injEq] at hk
        have hr : r.key ≠ k := hno r (by simp)
        have h' : l.Rep ((pre ++ [c]) ++ suf) := by simpa using h
        have := ih h' hk.2 (fun r' hr' => hno r' (by simp [hr'])) (by simpa using hf)
        simp [FindKey_loop, LLIterator_IsValid, get_at h, deref_some hk.1, hr, next_at h, this]

theorem findKey_loop_found {kvs : Nat → Option HTKeyValue_t} {l : LinkedList} {k : HTKey_t}
    {pre c1 c2 : List Cell} {c : Cell} {b1 : List HTKeyValue_t} {r : HTKeyValue_t} {fuel : Nat}
    (h : l.Rep (pre ++ (c1 ++ c :: c2))) (h1 : recordsAt kvs c1 = b1.map some)
    (hc : kvs c.2 = some r) (hno : ∀ r' ∈ b1, r'.key ≠ k) (hr : r.key = k)
    (hf : c1.length < fuel) :
    FindKey_loop kvs l k fuel ⟨firstAddr (c1 ++ c :: c2)⟩ = .ok (some c.2) := by
  induction c1 generalizing pre b1 fuel with
  | nil =>
    cases fuel with
    | zero => simp at hf
    | succ fuel =>
      have h' : l.Rep (pre ++ c :: c2) := by simpa using h
      simp [FindKey_loop, LLIterator_IsValid, get_at h', deref_some hc, hr]
  | cons d c1 ih =>
    cases fuel with
    | zero => simp at hf
    | succ fuel =>
      cases b1 with
      | nil => simp at h1
      | cons r1 b1 =>
        simp only [recordsAt_cons, List.map_cons, List.cons.injEq] at h1
        have hr1 : r1.key ≠ k := hno r1 (by simp)
        have h' : l.Rep (pre ++ d :: (c1 ++ c :: c2)) := by simpa using h
        have h'' : l.Rep ((pre ++ [d]) ++ (c1 ++ c :: c2)) := by simpa using h
        have := ih h'' h1.2 (fun r' hr' => hno r' (by simp [hr'])) (by simpa using hf)
        simp [FindKey_loop, LLIterator_IsValid, get_at h', deref_some h1.1, hr1, next_at h', this]

theorem find_key_none {b : List HTKeyValue_t} {k : HTKey_t} (h : ∀ r ∈ b, r.key ≠ k) :
    b.find? (fun r => r.key = k) = none := by
  rw [List.find?_eq_none]
  intro r hr
  simpa using h r hr

theorem find_key_split {b1 b2 : List HTKeyValue_t} {r : HTKeyValue_t} {k : HTKey_t}
    (h1 : ∀ r' ∈ b1, r'.key ≠ k) (hr : r.key = k) :
    (b1 ++ r :: b2).find? (fun r => r.key = k) = some r := by
  induction b1 with
  | nil => simp [hr]
  | cons x b1 ih =>
    have hx : x.key ≠ k := h1 x (by simp)
    simp only [List.cons_append, List.find?_cons, hx, decide_False]
    exact ih (fun r' hr' => h1 r' (by simp [hr']))

/-- A chain without a repeated key either misses `k` or holds it exactly once. -/
theorem chain_cases (b : List HTKeyValue_t) (k : HTKey_t)
    (hnd : (b.map HTKeyValue_t.key).Nodup) :
    (∀ r ∈ b, r.key ≠ k) ∨
      ∃ b1 r b2, b = b1 ++ r :: b2 ∧ r.key = k ∧ (∀ r' ∈ b1, r'.key ≠ k) ∧
        (∀ r' ∈ b2, r'.key ≠ k) := by
  by_cases hex : ∃ r ∈ b, r.key = k
  · right
    obtain ⟨r, hr, hk⟩ := hex
    obtain ⟨b1, b2, rfl⟩ := List.append_of_mem hr
    refine ⟨b1, r, b2, rfl, hk, ?_, ?_⟩
    · intro r' hr' he
      simp only [List.map_append, List.map_cons] at hnd
      exact (List.nodup_append.1 hnd).2.2 (List.mem_map_of_mem _ hr')
        (by rw [he, hk]; exact List.mem_cons_self _ _)
    · intro r' hr' he
      simp only [List.map_append, List.map_cons] at hnd
      have := (List.nodup_cons.1 (List.nodup_append.1 hnd).2.1).1
      exact this (by rw [hk, ← he]; exact List.mem_map_of_mem _ hr')
  · left
    intro r hr he
    exact hex ⟨r, hr, he⟩

theorem eraseP_key_split {b1 b2 : List HTKeyValue_t} {r : HTKeyValue_t} {k : HTKey_t}
    (h1 : ∀ r' ∈ b1, r'.key ≠ k) (hr : r.key = k) :
    (b1 ++ r :: b2).eraseP (fun r => r.key = k) = b1 ++ b2 := by
  induction b1 with
  | nil => simp [hr]
  | cons x b1 ih =>
    have hx : x.key ≠ k := h1 x (by simp)
    simp only [List.cons_append, List.eraseP_cons, hx, decide_False]
    simp [ih (fun r' hr' => h1 r' (by simp [hr']))]

theorem eraseP_key_none {b : List HTKeyValue_t} {k : HTKey_t} (h : ∀ r ∈ b, r.key ≠ k) :
    b.eraseP (fun r => r.key = k) = b := by
  apply List.eraseP_of_forall_not
  intro r hr
  simpa using h r hr

theorem sum_length_set (bs : List (List HTKeyValue_t)) (i : Nat) (b x : List HTKeyValue_t)
    (h : bs[i]? = some b) :
    ((bs.set i x).map List.length).sum + b.length = (bs.map List.length).sum + x.length := by
  induction bs generalizing i with
  | nil => simp at h
  | cons a bs ih =>
    cases i with
    | zero =>
      simp at h
      subst h
      simp; omega
    | succ i =>
      simp at h
      have := ih i h
      simp only [List.set_cons_succ, List.map_cons, List.sum_cons] at this ⊢
      omega

theorem homeChain_eq {nb : Nat} {bs : List (List HTKeyValue_t)} {k : HTKey_t}
    {b : List HTKeyValue_t} (h : bs[k % nb]? = some b) : homeChain nb bs k = b := by
  simp [homeChain, h]

theorem homeChain_set {nb : Nat} {bs : List (List HTKeyValue_t)} {i : Nat}
    (x : List HTKeyValue_t) (k : HTKey_t) (hi : i < bs.length) :
    homeChain nb (bs.set i x) k = if k % nb = i then x else homeChain nb bs k := by
  unfold homeChain
  rw [List.getElem?_set]
  by_cases h : i = k % nb
  · subst h; simp [hi]
  · simp [h, Ne.symm h]

/-- The bucket index of a key is within the chains of a table with a bucket. -/
theorem home_lt {nb : Nat} (h : 0 < nb) (k : HTKey_t) : k % nb < nb := Nat.mod_lt _ h


theorem find_map_replace (b : List HTKeyValue_t) (kv : HTKeyValue_t) (k : HTKey_t) :
    (b.map (fun r => if r.key = kv.key then kv else r)).find? (fun r => r.key = k) =
      if k = kv.key then (b.find? (fun r => r.key = kv.key)).map (fun _ => kv)
      else b.find? (fun r => r.key = k) := by
  induction b with
  | nil => simp
  | cons x b ih =>
    simp only [List.map_cons, List.find?_cons]
    by_cases hx : x.key = kv.key
    · by_cases hk : k = kv.key
      · simp [hx, hk]
      · have : ¬ x.key = k := fun h => hk (h ▸ hx)
        have h2 : ¬ kv.key = k := fun h => hk h.symm
        simp only [hx, if_true, h2, decide_False, this, hk, if_false]
        simpa [hk] using ih
    · by_cases hk : k = kv.key
      · subst hk
        simp only [hx, if_false, decide_False, if_true]
        simpa using ih
      · simp only [hx, if_false, hk]
        by_cases hxk : x.key = k
        · simp [hxk]
        · simp only [hxk, decide_False]
          simpa [hk] using ih

theorem find_eraseP_ne (b : List HTKeyValue_t) {k k' : HTKey_t} (h : k' ≠ k) :
    (b.eraseP (fun r => r.key = k)).find? (fun r => r.key = k') =
      b.find? (fun r => r.key = k') := by
  induction b with
  | nil => simp
  | cons x b ih =>
    by_cases hx : x.key = k
    · have : ¬ x.key = k' := fun h2 => h (h2.symm.trans hx)
      simp [List.eraseP_cons, hx, List.find?_cons, Ne.symm h]
    · simp only [List.eraseP_cons, hx, decide_False, cond_false, List.find?_cons, ih]

theorem absLookup_insert {nb : Nat} {bs : List (List HTKeyValue_t)} (hnb : 0 < nb)
    (hlen : bs.length = nb) (kv : HTKeyValue_t) (k : HTKey_t) :
    absLookup nb (absInsert nb bs kv) k =
      if k = kv.key then some kv else absLookup nb bs k := by
  have hi : kv.key % nb < bs.length := by rw [hlen]; exact home_lt hnb _
  unfold absInsert absLookup
  rw [homeChain_set _ _ hi]
  by_cases hb : k % nb = kv.key % nb
  · have hhome : homeChain nb bs k = homeChain nb bs kv.key := by simp [homeChain, hb]
    simp only [hb, if_true]
    cases hf : List.find? (fun r => decide (r.key = kv.key)) (homeChain nb bs kv.key) with
    | none =>
      simp only [Option.isSome_none, Bool.false_eq_true, if_false, List.find?_cons]
      by_cases hk : k = kv.key
      · simp [hk]
      · have : ¬ kv.key = k := fun h => hk h.symm
        simp [this, hk, hhome]
    | some r =>
      simp only [Option.isSome_some, if_true]
      rw [find_map_replace]
      by_cases hk : k = kv.key
      · simp [hk, hf]
      · simp [hk, hhome]
  · have hk : k ≠ kv.key := fun h => hb (by rw [h])
    simp [hb, hk]

theorem absLookup_remove {nb : Nat} {n : Int} {bs : List (List HTKeyValue_t)} (hnb : 0 < nb)
    (hlen : bs.length = nb) (h : AbsInv nb n bs) (k k' : HTKey_t) :
    absLookup nb (absRemove nb bs k) k' = if k' = k then none else absLookup nb bs k' := by
  have hi : k % nb < bs.length := by rw [hlen]; exact home_lt hnb _
  unfold absLookup absRemove
  rw [homeChain_set _ _ hi]
  by_cases hb : k' % nb = k % nb
  · have hhome : homeChain nb bs k' = homeChain nb bs k := by simp [homeChain, hb]
    simp only [hb, if_true]
    by_cases hk : k' = k
    · subst hk
      simp only [if_true]
      have hnd : ((homeChain nb bs k').map HTKeyValue_t.key).Nodup := by
        apply h.nodup
        unfold homeChain
        rw [List.getElem?_eq_getElem hi]
        simp
      rcases chain_cases _ k' hnd with hno | ⟨b1, r, b2, hb', hr, h1, h2⟩
      · rw [eraseP_key_none hno]; exact find_key_none hno
      · rw [hb', eraseP_key_split h1 hr]
        apply find_key_none
        intro r' hr'
        rcases List.mem_append.1 hr' with hm | hm
        · exact h1 r' hm
        · exact h2 r' hm
    · simp only [hk, if_false]
      rw [find_eraseP_ne _ hk, hhome]
  · have hk : k' ≠ k := fun h => hb (by rw [h])
    simp [hb, hk]

theorem absInv_insert {nb : Nat} {n : Int} {bs : List (List HTKeyValue_t)} (hnb : 0 < nb)
    (hlen : bs.length = nb) (h : AbsInv nb n bs) (kv : HTKeyValue_t) :
    AbsInv nb (if (absLookup nb bs kv.key).isSome then n else n + 1) (absInsert nb bs kv) := by
  have hi : kv.key % nb < bs.length := by rw [hlen]; exact home_lt hnb _
  have hget : bs[kv.key % nb]? = some (homeChain nb bs kv.key) := by
    unfold homeChain
    rw [List.getElem?_eq_getElem hi]
    simp
  have hnd : ((homeChain nb bs kv.key).map HTKeyValue_t.key).Nodup :=
    h.nodup _ (List.getElem?_mem hget)
  have hsum := sum_length_set bs _ _
    (if (absLookup nb bs kv.key).isSome then
      (homeChain nb bs kv.key).map (fun r => if r.key = kv.key then kv else r)
    else kv :: homeChain nb bs kv.key) hget
  have hkeys : ((homeChain nb bs kv.key).map (fun r => if r.key = kv.key then kv else r)).map
      HTKeyValue_t.key = (homeChain nb bs kv.key).map HTKeyValue_t.key := by
    rw [List.map_map]
    apply List.map_congr_left
    intro r _
    by_cases hr : r.key = kv.key <;> simp [hr]
  refine ⟨?_, ?_, ?_⟩
  · have := h.count
    unfold absInsert
    split_ifs at hsum ⊢ with hf
    · simp only [List.length_map] at hsum
      omega
    · simp only [List.length_cons] at hsum
      omega
  · intro i b hb r hr
    unfold absInsert at hb
    rw [List.getElem?_set] at hb
    by_cases hik : kv.key % nb = i
    · simp only [hik, if_true] at hb
      have hi' : i < bs.length := hik ▸ hi
      simp only [hi', if_true, Option.some.injEq] at hb
      subst hb
      split_ifs at hr with hf
      · obtain ⟨r0, hr0, he⟩ := List.mem_map.1 hr
        by_cases hk : r0.key = kv.key
        · simp only [hk, if_true] at he
          rw [← he]; exact hik
        · simp only [hk, if_false] at he
          rw [← he]
          exact h.home _ _ (hik ▸ hget) r0 hr0
      · rcases List.mem_cons.1 hr with he | hm
        · rw [he]; exact hik
        · exact h.home _ _ (hik ▸ hget) r hm
    · simp only [hik, if_false] at hb
      exact h.home i b hb r hr
  · intro b hb
    unfold absInsert at hb
    rcases List.mem_or_eq_of_mem_set hb with hm | he
    · exact h.nodup b hm
    · subst he
      split_ifs with hf
      · rw [hkeys]; exact hnd
      · simp only [List.map_cons, List.nodup_cons]
        refine ⟨?_, hnd⟩
        intro hm
        obtain ⟨r, hr, he⟩ := List.mem_map.1 hm
        have : (absLookup nb bs kv.key).isSome := by
          unfold absLookup
          rw [List.find?_isSome]
          exact ⟨r, hr, by simpa using he⟩
        exact hf this


theorem absInv_remove {nb : Nat} {n : Int} {bs : List (List HTKeyValue_t)} (hnb : 0 < nb)
    (hlen : bs.length = nb) (h : AbsInv nb n bs) (k : HTKey_t) :
    AbsInv nb (if (absLookup nb bs k).isSome then n - 1 else n) (absRemove nb bs k) := by
  have hi : k % nb < bs.length := by rw [hlen]; exact home_lt hnb _
  have hget : bs[k % nb]? = some (homeChain nb bs k) := by
    unfold homeChain
    rw [List.getElem?_eq_getElem hi]
    simp
  have hnd : ((homeChain nb bs k).map HTKeyValue_t.key).Nodup :=
    h.nodup _ (List.getElem?_mem hget)
  have hsum := sum_length_set bs _ _ ((homeChain nb bs k).eraseP (fun r => r.key = k)) hget
  refine ⟨?_, ?_, ?_⟩
  · have := h.count
    unfold absRemove
    unfold absLookup
    rcases chain_cases _ k hnd with hno | ⟨b1, r, b2, hb', hr, h1, h2⟩
    · rw [eraseP_key_none hno] at hsum ⊢
      rw [find_key_none hno]
      simp only [Option.isSome_none, Bool.false_eq_true, if_false]
      omega
    · rw [hb', eraseP_key_split h1 hr] at hsum ⊢
      rw [find_key_split h1 hr]
      simp only [Option.isSome_some, if_true]
      simp only [List.length_append, List.length_cons] at hsum
      omega
  · intro i b hb r hr
    unfold absRemove at hb
    rw [List.getElem?_set] at hb
    by_cases hik : k % nb = i
    · simp only [hik, if_true] at hb
      have hi' : i < bs.length := hik ▸ hi
      simp only [hi', if_true, Option.some.injEq] at hb
      subst hb
      exact h.home _ _ (hik ▸ hget) r (List.mem_of_mem_eraseP hr)
    · simp only [hik, if_false] at hb
      exact h.home i b hb r hr
  · intro b hb
    unfold absRemove at hb
    rcases List.mem_or_eq_of_mem_set hb with hm | he
    · exact h.nodup b hm
    · subst he
      exact hnd.sublist ((List.eraseP_sublist _).map _)

theorem length_le_sum {bs : List (List HTKeyValue_t)} {i : Nat} {b : List HTKeyValue_t}
    (h : bs[i]? = some b) : b.length ≤ (bs.map List.length).sum := by
  have := sum_length_set bs i b [] h
  simp only [List.length_nil] at this
  omega

theorem filterMap_recordsAt {kvs : Nat → Option HTKeyValue_t} {cells : List Cell}
    {b : List HTKeyValue_t} (h : recordsAt kvs cells = b.map some) :
    (cells.map Prod.snd).filterMap kvs = b := by
  induction cells generalizing b with
  | nil =>
    cases b with
    | nil => rfl
    | cons r b => simp at h
  | cons c cells ih =>
    cases b with
    | nil => simp at h
    | cons r b =>
      simp only [recordsAt_cons, List.map_cons, List.cons.injEq] at h
      simp [List.filterMap_cons, h.1, ih h.2]

theorem recordsAt_filterMap {kvs : Nat → Option HTKeyValue_t} {cells : List Cell}
    (h : ∀ c ∈ cells, kvs c.2 ≠ none) :
    recordsAt kvs cells = ((cells.map Prod.snd).filterMap kvs).map some := by
  induction cells with
  | nil => rfl
  | cons c cells ih =>
    have hc := h c (by simp)
    cases hv : kvs c.2 with
    | none => exact absurd hv hc
    | some r =>
      simp [recordsAt_cons, List.filterMap_cons, hv, ih (fun d hd => h d (by simp [hd]))]

theorem ChainRep.records {kvs : Nat → Option HTKeyValue_t} {brk : Nat} {l : LinkedList}
    {b : List HTKeyValue_t} (h : ChainRep kvs brk l b) : l.toList.filterMap kvs = b := by
  obtain ⟨cells, hr, hk, _⟩ := h
  rw [toList_rep hr]
  exact filterMap_recordsAt hk

theorem TRep.chains_eq {t : HashTable} {bs : List (List HTKeyValue_t)} (h : TRep t bs) :
    t.chains = bs := by
  apply List.ext_getElem?
  intro i
  unfold HashTable.chains
  rw [List.getElem?_map]
  cases hl : t.buckets[i]? with
  | none =>
    have : bs.length ≤ i := by rw [← h.1]; exact List.getElem?_eq_none_iff.1 hl
    simp [List.getElem?_eq_none_iff.2 this]
  | some l =>
    have hi : i < bs.length := by
      rw [← h.1]
      exact (List.getElem?_eq_some_iff.1 hl).1
    have hb : bs[i]? = some bs[i] := List.getElem?_eq_getElem hi
    rw [hb]
    simp only [Option.map_some', Option.some.injEq]
    exact (h.2 i l _ hl hb).records

theorem valid_rep {t : HashTable} (h : t.Valid) : TRep t t.chains := by
  refine ⟨by simp [HashTable.chains], ?_⟩
  intro i l b hl hb
  unfold HashTable.chains at hb
  rw [List.getElem?_map, hl] at hb
  simp only [Option.map_some', Option.some.injEq] at hb
  have hmem : l ∈ t.buckets := List.getElem?_mem hl
  obtain ⟨cells, hr⟩ := h.wf l hmem
  have ha := h.alloc l hmem
  rw [toList_rep hr] at ha hb
  refine ⟨cells, hr, ?_, ?_⟩
  · rw [← hb]
    apply recordsAt_filterMap
    intro c hc
    exact (ha c.2 (List.mem_map_of_mem _ hc)).2
  · intro c hc
    exact (ha c.2 (List.mem_map_of_mem _ hc)).1

theorem recordsAt_mem {kvs : Nat → Option HTKeyValue_t} {cells : List Cell}
    {b : List HTKeyValue_t} (h : recordsAt kvs cells = b.map some) {c : Cell} (hc : c ∈ cells) :
    ∃ r ∈ b, kvs c.2 = some r := by
  have : kvs c.2 ∈ recordsAt kvs cells := List.mem_map_of_mem (fun c => kvs c.2) hc
  rw [h] at this
  obtain ⟨r, hr, he⟩ := List.mem_map.1 this
  exact ⟨r, hr, he.symm⟩

theorem tinv_of_inv {t : HashTable} (h : t.Inv) : TInv t t.chains :=
  ⟨h.nb_pos, h.len, valid_rep h.toValid, ⟨h.count, h.home, h.nodup⟩⟩

theorem inv_of_tinv {t : HashTable} {bs : List (List HTKeyValue_t)} (h : TInv t bs) :
    t.Inv ∧ t.chains = bs := by
  have hc := h.rep.chains_eq
  refine ⟨⟨⟨h.nb_pos, h.len, ?_, ?_⟩, ?_, ?_, ?_⟩, hc⟩
  · intro l hl
    obtain ⟨i, hi⟩ := List.getElem?_of_mem hl
    have hib : i < bs.length := by
      rw [← h.rep.1]
      exact (List.getElem?_eq_some_iff.1 hi).1
    obtain ⟨cells, hr, _, _⟩ := h.rep.2 i l _ hi (List.getElem?_eq_getElem hib)
    exact ⟨cells, hr⟩
  · intro l hl p hp
    obtain ⟨i, hi⟩ := List.getElem?_of_mem hl
    have hib : i < bs.length := by
      rw [← h.rep.1]
      exact (List.getElem?_eq_some_iff.1 hi).1
    obtain ⟨cells, hr, hk, hbrk⟩ := h.rep.2 i l _ hi (List.getElem?_eq_getElem hib)
    rw [toList_rep hr] at hp
    obtain ⟨c, hc, rfl⟩ := List.mem_map.1 hp
    refine ⟨hbrk c hc, ?_⟩
    obtain ⟨r, _, he⟩ := recordsAt_mem hk hc
    simp [he]
  · rw [hc]; exact h.abs.count
  · rw [hc]; exact h.abs.home
  · rw [hc]; exact h.abs.nodup

/-! ## Proofs: find, insert without resize, remove -/

theorem findKey_none {kvs : Nat → Option HTKeyValue_t} {l : LinkedList} {k : HTKey_t}
    {cells : List Cell} {b : List HTKeyValue_t} {fuel : Nat}
    (h : l.Rep cells) (hk : recordsAt kvs cells = b.map some)
    (hno : ∀ r ∈ b, r.key ≠ k) (hf : cells.length < fuel) :
    FindKey fuel kvs l k = .ok none := by
  have h' : l.Rep ([] ++ cells) := h
  unfold FindKey LLIterator_Allocate
  rw [h.head_eq]
  exact findKey_loop_none h' hk hno hf

theorem findKey_found {kvs : Nat → Option HTKeyValue_t} {l : LinkedList} {k : HTKey_t}
    {c1 c2 : List Cell} {c : Cell} {b1 : List HTKeyValue_t} {r : HTKeyValue_t} {fuel : Nat}
    (h : l.Rep (c1 ++ c :: c2)) (h1 : recordsAt kvs c1 = b1.map some)
    (hc : kvs c.2 = some r) (hno : ∀ r' ∈ b1, r'.key ≠ k) (hr : r.key = k)
    (hf : c1.length < fuel) :
    FindKey fuel kvs l k = .ok (some c.2) := by
  have h' : l.Rep ([] ++ (c1 ++ c :: c2)) := h
  unfold FindKey LLIterator_Allocate
  rw [h.head_eq]
  exact findKey_loop_found h' h1 hc hno hr hf

/-- What the invariant says about the chain of a key. -/
theorem TInv.home_chain {t : HashTable} {bs : List (List HTKeyValue_t)} (h : TInv t bs)
    (k : HTKey_t) :
    ∃ l cells, t.buckets[k % t.num_buckets]? = some l ∧
      bs[k % t.num_buckets]? = some (homeChain t.num_buckets bs k) ∧
      l.Rep cells ∧ recordsAt t.kvs cells = (homeChain t.num_buckets bs k).map some ∧
      (∀ c ∈ cells, c.2 < t.kv_brk) ∧ (cells.length : Int) ≤ t.num_elements ∧
      ((homeChain t.num_buckets bs k).map HTKeyValue_t.key).Nodup := by
  have hi : k % t.num_buckets < t.buckets.length := by rw [h.len]; exact home_lt h.nb_pos _
  have hib : k % t.num_buckets < bs.length := by rw [← h.rep.1]; exact hi
  have hget : bs[k % t.num_buckets]? = some (homeChain t.num_buckets bs k) := by
    unfold homeChain
    rw [List.getElem?_eq_getElem hib]
    simp
  have hl := List.getElem?_eq_getElem hi
  obtain ⟨cells, hr, hk, hbrk⟩ := h.rep.2 _ _ _ hl hget
  refine ⟨_, cells, hl, hget, hr, hk, hbrk, ?_, h.abs.nodup _ (List.getElem?_mem hget)⟩
  rw [recordsAt_length hk, h.abs.count]
  exact_mod_cast length_le_sum hget

theorem bucketAt_eq {buckets : List LinkedList} {i : Nat} {l : LinkedList}
    (h : buckets[i]? = some l) : bucketAt buckets i = .ok l := by
  simp [bucketAt, h]

theorem hashKey_eq {t : HashTable} (h : 0 < t.num_buckets) (k : HTKey_t) :
    HashKeyToBucketNum t k = .ok (k % t.num_buckets) := by
  simp [HashKeyToBucketNum, Nat.pos_iff_ne_zero.1 h]

theorem find_spec {t : HashTable} {bs : List (List HTKeyValue_t)} (h : TInv t bs)
    (k : HTKey_t) {fuel : Nat} (hf : t.num_elements < fuel) :
    HashTable_Find fuel t k = .ok (t, absLookup t.num_buckets bs k) := by
  obtain ⟨l, cells, hl, hget, hr, hk, hbrk, hlen, hnd⟩ := h.home_chain k
  have hfuel : cells.length < fuel := by omega
  unfold HashTable_Find absLookup
  rw [hashKey_eq h.nb_pos, ok_bind, bucketAt_eq hl, ok_bind]
  rcases chain_cases _ k hnd with hno | ⟨b1, r, b2, hb, hrk, h1, h2⟩
  · rw [findKey_none hr hk hno hfuel, find_key_none hno]
    rfl
  · rw [hb] at hk
    obtain ⟨c1, c, c2, rfl, hk1, hkc, hk2⟩ := recordsAt_split hk
    have hf1 : c1.length < fuel := by simp at hfuel; omega
    rw [findKey_found hr hk1 hkc h1 hrk hf1, hb, find_key_split h1 hrk]
    simp [deref_some hkc]


/-- A chain keeps its records when the record store changes elsewhere. -/
theorem chainRep_frame {kvs kvs' : Nat → Option HTKeyValue_t} {brk brk' : Nat}
    {l : LinkedList} {b : List HTKeyValue_t} (h : ChainRep kvs brk l b)
    (hfr : ∀ p r, p < brk → r ∈ b → kvs p = some r → kvs' p = some r) (hbrk : brk ≤ brk') :
    ChainRep kvs' brk' l b := by
  obtain ⟨cells, hr, hk, hb⟩ := h
  refine ⟨cells, hr, ?_, fun c hc => lt_of_lt_of_le (hb c hc) hbrk⟩
  rw [← hk]
  unfold recordsAt
  apply List.map_congr_left
  intro c hc
  obtain ⟨r, hrb, he⟩ := recordsAt_mem hk hc
  rw [he]
  exact hfr c.2 r (hb c hc) hrb he

/-- The chains of a table after one bucket was rewritten. -/
theorem trep_update {t t' : HashTable} {bs : List (List HTKeyValue_t)} {i : Nat}
    {l' : LinkedList} {x : List HTKeyValue_t} (h : TRep t bs) (hi : i < bs.length)
    (hb : t'.buckets = t.buckets.set i l')
    (hx : ChainRep t'.kvs t'.kv_brk l' x)
    (hframe : ∀ j l b, j ≠ i → t.buckets[j]? = some l → bs[j]? = some b →
      ChainRep t'.kvs t'.kv_brk l b) :
    TRep t' (bs.set i x) := by
  refine ⟨by simp [hb, h.1], ?_⟩
  intro j l b hl hbj
  rw [hb, List.getElem?_set] at hl
  rw [List.getElem?_set] at hbj
  by_cases hij : i = j
  · subst hij
    have hi2 : i < t.buckets.length := by rw [h.1]; exact hi
    simp only [if_true, hi, hi2, Option.some.injEq] at hl hbj
    subst hl; subst hbj
    exact hx
  · simp only [hij, if_false] at hl hbj
    exact hframe j l b (Ne.symm hij) hl hbj

theorem set_same {α : Type} {l : List α} {i : Nat} {a : α} (h : l[i]? = some a) :
    l.set i a = l := by
  apply List.ext_getElem?
  intro j
  rw [List.getElem?_set]
  by_cases hij : i = j
  · subst hij
    have := (List.getElem?_eq_some_iff.1 h).1
    simp [this, h]
  · simp [hij]

theorem map_replace_split {b1 b2 : List HTKeyValue_t} {r kv : HTKeyValue_t}
    (h1 : ∀ r' ∈ b1, r'.key ≠ kv.key) (hr : r.key = kv.key)
    (h2 : ∀ r' ∈ b2, r'.key ≠ kv.key) :
    (b1 ++ r :: b2).map (fun r => if r.key = kv.key then kv else r) = b1 ++ kv :: b2 := by
  have e1 : b1.map (fun r => if r.key = kv.key then kv else r) = b1 := by
    conv_rhs => rw [← List.map_id b1]
    apply List.map_congr_left
    intro r' hr'
    simp [h1 r' hr']
  have e2 : b2.map (fun r => if r.key = kv.key then kv else r) = b2 := by
    conv_rhs => rw [← List.map_id b2]
    apply List.map_congr_left
    intro r' hr'
    simp [h2 r' hr']
  simp [e1, e2, hr]

theorem recordsAt_congr {kvs kvs' : Nat → Option HTKeyValue_t} {cells : List Cell}
    (h : ∀ c ∈ cells, kvs' c.2 = kvs c.2) : recordsAt kvs' cells = recordsAt kvs cells := by
  unfold recordsAt
  exact List.map_congr_left h

/-- No cell of a chain without the key `k` holds the address of a record of key `k`. -/
theorem addr_ne_of_key_ne {kvs : Nat → Option HTKeyValue_t} {cells : List Cell}
    {b : List HTKeyValue_t} {p : Nat} {r0 : HTKeyValue_t} {k : HTKey_t}
    (hk : recordsAt kvs cells = b.map some) (hno : ∀ r ∈ b, r.key ≠ k)
    (hp : kvs p = some r0) (hr0 : r0.key = k) : ∀ c ∈ cells, c.2 ≠ p := by
  intro c hc he
  obtain ⟨r, hrb, hr⟩ := recordsAt_mem hk hc
  rw [he, hp] at hr
  cases hr
  exact hno _ hrb hr0

theorem insert_body_spec {t : HashTable} {bs : List (List HTKeyValue_t)} (h : TInv t bs)
    (kv : HTKeyValue_t) (fuel : Nat) (hf : t.num_elements < fuel) :
    ∃ t', HashTable_Insert_body fuel t kv = .ok (t', absLookup t.num_buckets bs kv.key) ∧
      TInv t' (absInsert t.num_buckets bs kv) ∧ t'.num_buckets = t.num_buckets ∧
      t'.num_elements =
        if (absLookup t.num_buckets bs kv.key).isSome then t.num_elements
        else t.num_elements + 1 := by
  obtain ⟨l, cells, hl, hget, hr, hk, hbrk, hlen, hnd⟩ := h.home_chain kv.key
  have hfuel : cells.length < fuel := by omega
  have hib : kv.key % t.num_buckets < bs.length := (List.getElem?_eq_some_iff.1 hget).1
  have habs := absInv_insert h.nb_pos (h.rep.1.symm.trans h.len) h.abs kv
  have hother : ∀ j l b, j ≠ kv.key % t.num_buckets → t.buckets[j]? = some l →
      bs[j]? = some b → ∀ r ∈ b, r.key ≠ kv.key := by
    intro j l b hj _ hb r hrb he
    exact hj (by rw [← h.abs.home j b hb r hrb, he])
  unfold HashTable_Insert_body
  rw [hashKey_eq h.nb_pos, ok_bind, bucketAt_eq hl, ok_bind]
  rcases chain_cases _ kv.key hnd with hno | ⟨b1, r, b2, hb, hrk, h1, h2⟩
  · -- a new record
    have hlk : absLookup t.num_buckets bs kv.key = none := find_key_none hno
    obtain ⟨l', hpush, hr'⟩ := push_rep hr t.kv_brk
    rw [findKey_none hr hk hno hfuel, hlk]
    simp only [ok_bind, hpush, Option.isSome_none, Bool.false_eq_true, if_false]
    refine ⟨_, rfl, ⟨h.nb_pos, by simp [h.len], ?_, ?_⟩, rfl, rfl⟩
    · unfold absInsert
      rw [hlk]
      simp only [Option.isSome_none, Bool.false_eq_true, if_false]
      refine trep_update h.rep hib rfl ?_ ?_
      · refine ⟨_, hr', ?_, ?_⟩
        · simp only [recordsAt_cons, store_same, List.map_cons, List.cons.injEq, true_and]
          rw [← hk]
          apply recordsAt_congr
          intro c hc
          exact store_other _ _ (Nat.ne_of_lt (hbrk c hc))
        · intro c hc
          rcases List.mem_cons.1 hc with rfl | hc
          · simp
          · exact Nat.lt_succ_of_lt (hbrk c hc)
      · intro j l0 b0 hj hl0 hb0
        refine chainRep_frame (h.rep.2 j l0 b0 hl0 hb0) ?_ (Nat.le_succ _)
        intro p r0 hp _ hpr
        show store t.kvs t.kv_brk kv p = some r0
        rw [store_other _ _ (Nat.ne_of_lt hp), hpr]
    · simpa [hlk] using habs
  · -- the record of the key is overwritten
    have hlk : absLookup t.num_buckets bs kv.key = some r := by
      unfold absLookup; rw [hb]; exact find_key_split h1 hrk
    rw [hb] at hk
    obtain ⟨c1, c, c2, rfl, hk1, hkc, hk2⟩ := recordsAt_split hk
    have hf1 : c1.length < fuel := by simp at hfuel; omega
    have hkv : ({ r with value := kv.value } : HTKeyValue_t) = kv := by
      cases kv; cases r; simp at hrk; simp [hrk]
    rw [findKey_found hr hk1 hkc h1 hrk hf1, hlk]
    simp only [ok_bind, deref_some hkc, hkv, Option.isSome_some, if_true]
    refine ⟨_, rfl, ⟨h.nb_pos, h.len, ?_, ?_⟩, rfl, rfl⟩
    · unfold absInsert
      rw [hlk]
      simp only [Option.isSome_some, if_true]
      rw [hb, map_replace_split h1 hrk h2]
      refine trep_update h.rep hib (show _ = t.buckets.set _ l from (set_same hl).symm) ?_ ?_
      · refine ⟨_, hr, ?_, hbrk⟩
        have e1 := addr_ne_of_key_ne hk1 h1 hkc hrk
        have e2 := addr_ne_of_key_ne hk2 h2 hkc hrk
        simp only [recordsAt_append, recordsAt_cons, store_same, List.map_append, List.map_cons]
        rw [@recordsAt_congr t.kvs _ _ (fun d hd => store_other _ _ (e1 d hd)),
          @recordsAt_congr t.kvs _ _ (fun d hd => store_other _ _ (e2 d hd)), hk1, hk2]
      · intro j l0 b0 hj hl0 hb0
        refine chainRep_frame (h.rep.2 j l0 b0 hl0 hb0) ?_ (le_refl _)
        intro p r0 _ hr0 hpr
        have hne : p ≠ c.2 := by
          intro he
          rw [he, hkc] at hpr
          cases hpr
          exact hother j l0 b0 hj hl0 hb0 _ hr0 hrk
        show store t.kvs c.2 kv p = some r0
        rw [store_other _ _ hne, hpr]
    · simpa [hlk] using habs


theorem remove_loop_found (t : HashTable) (bucket : Nat) (keyvalue : HTKeyValue_t)
    {l : LinkedList} {pre c1 c2 : List Cell} {c : Cell} {fuel : Nat}
    (h : l.Rep (pre ++ (c1 ++ c :: c2))) (hne : ∀ d ∈ c1, d.2 ≠ c.2)
    (hf : c1.length < fuel) :
    ∃ l', HashTable_Remove_loop t bucket l c.2 keyvalue fuel ⟨firstAddr (c1 ++ c :: c2)⟩ =
        .ok ({ t with buckets := t.buckets.set bucket l', kvs := release t.kvs c.2,
                      num_elements := t.num_elements - 1 }, some keyvalue) ∧
      l'.Rep (pre ++ (c1 ++ c2)) := by
  induction c1 generalizing pre fuel with
  | nil =>
    cases fuel with
    | zero => simp at hf
    | succ fuel =>
      have h' : l.Rep (pre ++ c :: c2) := by simpa using h
      obtain ⟨l', hrem, hr', _⟩ := remove_rep h' (fun p (m : Nat → Option HTKeyValue_t) =>
        release m p) t.kvs
      refine ⟨l', ?_, by simpa using hr'⟩
      simp [HashTable_Remove_loop, LLIterator_IsValid, get_at h', hrem]
  | cons d c1 ih =>
    cases fuel with
    | zero => simp at hf
    | succ fuel =>
      have hd : d.2 ≠ c.2 := hne d (by simp)
      have h' : l.Rep (pre ++ d :: (c1 ++ c :: c2)) := by simpa using h
      have h'' : l.Rep ((pre ++ [d]) ++ (c1 ++ c :: c2)) := by simpa using h
      obtain ⟨l', hloop, hr'⟩ := ih h'' (fun e he => hne e (by simp [he])) (by simpa using hf)
      refine ⟨l', ?_, by simpa using hr'⟩
      simp [HashTable_Remove_loop, LLIterator_IsValid, get_at h', hd, next_at h', hloop]

theorem remove_spec {t : HashTable} {bs : List (List HTKeyValue_t)} (h : TInv t bs)
    (k : HTKey_t) (fuel : Nat) (hf : t.num_elements < fuel) :
    ∃ t', HashTable_Remove fuel t k = .ok (t', absLookup t.num_buckets bs k) ∧
      TInv t' (absRemove t.num_buckets bs k) ∧ t'.num_buckets = t.num_buckets ∧
      t'.num_elements =
        (if (absLookup t.num_buckets bs k).isSome then t.num_elements - 1
         else t.num_elements) ∧
      (absLookup t.num_buckets bs k = none → t' = t) := by
  obtain ⟨l, cells, hl, hget, hr, hk, hbrk, hlen, hnd⟩ := h.home_chain k
  have hfuel : cells.length < fuel := by omega
  have hib : k % t.num_buckets < bs.length := (List.getElem?_eq_some_iff.1 hget).1
  have habs := absInv_remove h.nb_pos (h.rep.1.symm.trans h.len) h.abs k
  have hother : ∀ j l b, j ≠ k % t.num_buckets → t.buckets[j]? = some l →
      bs[j]? = some b → ∀ r ∈ b, r.key ≠ k := by
    intro j l b hj _ hb r hrb he
    exact hj (by rw [← h.abs.home j b hb r hrb, he])
  unfold HashTable_Remove
  rw [hashKey_eq h.nb_pos, ok_bind, bucketAt_eq hl, ok_bind]
  rcases chain_cases _ k hnd with hno | ⟨b1, r, b2, hb, hrk, h1, h2⟩
  · have hlk : absLookup t.num_buckets bs k = none := find_key_none hno
    rw [findKey_none hr hk hno hfuel, hlk]
    refine ⟨t, rfl, ?_, rfl, by simp, fun _ => rfl⟩
    unfold absRemove
    rw [eraseP_key_none hno, set_same hget]
    exact h
  · have hlk : absLookup t.num_buckets bs k = some r := by
      unfold absLookup; rw [hb]; exact find_key_split h1 hrk
    rw [hb] at hk
    obtain ⟨c1, c, c2, rfl, hk1, hkc, hk2⟩ := recordsAt_split hk
    have hf1 : c1.length < fuel := by simp at hfuel; omega
    have e1 := addr_ne_of_key_ne hk1 h1 hkc hrk
    have e2 := addr_ne_of_key_ne hk2 h2 hkc hrk
    have hr0 : l.Rep ([] ++ (c1 ++ c :: c2)) := hr
    obtain ⟨l', hloop, hr'⟩ := remove_loop_found t (k % t.num_buckets) r hr0 e1 hf1
    rw [findKey_found hr hk1 hkc h1 hrk hf1, hlk]
    simp only [ok_bind, deref_some hkc, LLIterator_Allocate, hr.head_eq, hloop]
    refine ⟨_, rfl, ⟨h.nb_pos, by simp [h.len], ?_, ?_⟩, rfl, by simp, by simp⟩
    · unfold absRemove
      rw [hb, eraseP_key_split h1 hrk]
      refine trep_update h.rep hib rfl ?_ ?_
      · refine ⟨_, hr', ?_, ?_⟩
        · simp only [List.nil_append, recordsAt_append, List.map_append]
          rw [@recordsAt_congr t.kvs _ _ (fun d hd => release_other _ (e1 d hd)),
            @recordsAt_congr t.kvs _ _ (fun d hd => release_other _ (e2 d hd)), hk1, hk2]
        · intro d hd
          apply hbrk
          simp only [List.nil_append, List.mem_append, List.mem_cons] at hd ⊢
          tauto
      · intro j l0 b0 hj hl0 hb0
        refine chainRep_frame (h.rep.2 j l0 b0 hl0 hb0) ?_ (le_refl _)
        intro p r0 _ hr0 hpr
        have hne : p ≠ c.2 := by
          intro he
          rw [he, hkc] at hpr
          cases hpr
          exact hother j l0 b0 hj hl0 hb0 _ hr0 hrk
        show release t.kvs c.2 p = some r0
        rw [release_other _ hne, hpr]
    · simpa [hlk] using habs

/-! ## Proofs: the table iterator -/

theorem scan_spec {t : HashTable} {bs : List (List HTKeyValue_t)} (h : TRep t bs)
    (n start : Nat) (hn : start + n = bs.length) :
    (scanBuckets t.buckets n start = .ok none ∧ (bs.drop start).flatten = []) ∨
    ∃ i b, scanBuckets t.buckets n start = .ok (some i) ∧ start ≤ i ∧ bs[i]? = some b ∧
      b ≠ [] ∧ (bs.drop start).flatten = b ++ (bs.drop (i + 1)).flatten := by
  induction n generalizing start with
  | zero =>
    left
    refine ⟨rfl, ?_⟩
    rw [List.drop_of_length_le (by omega)]
    rfl
  | succ n ih =>
    have hs : start < bs.length := by omega
    have hs' : start < t.buckets.length := by rw [h.1]; exact hs
    have hl := List.getElem?_eq_getElem hs'
    have hb := List.getElem?_eq_getElem hs
    obtain ⟨cells, hr, hk, _⟩ := h.2 _ _ _ hl hb
    have hlen := recordsAt_length hk
    rw [List.drop_eq_getElem_cons hs, List.flatten_cons]
    by_cases he : bs[start] = []
    · have h0 : ¬ (LinkedList_NumElements t.buckets[start] > 0) := by
        unfold LinkedList_NumElements
        rw [hr.count, hlen, he]
        simp
      rcases ih (start + 1) (by omega) with ⟨h1, h2⟩ | ⟨i, b, h1, h2, h3, h4, h5⟩
      · left
        refine ⟨?_, by simp [he, h2]⟩
        simp [scanBuckets, bucketAt_eq hl, h0, h1]
      · right
        refine ⟨i, b, ?_, by omega, h3, h4, by simp [he, h5]⟩
        simp [scanBuckets, bucketAt_eq hl, h0, h1]
    · right
      have h0 : LinkedList_NumElements t.buckets[start] > 0 := by
        unfold LinkedList_NumElements
        rw [hr.count, hlen]
        have : 0 < bs[start].length := List.length_pos.2 he
        exact_mod_cast this
      refine ⟨start, bs[start], ?_, le_refl _, hb, he, rfl⟩
      simp [scanBuckets, bucketAt_eq hl, h0]

theorem iterRem_enter {t : HashTable} {bs : List (List HTKeyValue_t)} (h : TRep t bs)
    {i : Nat} {b : List HTKeyValue_t} (hb : bs[i]? = some b) (hne : b ≠ []) :
    ∃ l, bucketAt t.buckets i = .ok l ∧
      IterRem t bs ⟨(i : Int), some (LLIterator_Allocate l)⟩
        (b ++ (bs.drop (i + 1)).flatten) := by
  have hi : i < bs.length := (List.getElem?_eq_some_iff.1 hb).1
  have hi' : i < t.buckets.length := by rw [h.1]; exact hi
  have hl := List.getElem?_eq_getElem hi'
  obtain ⟨cells, hr, hk, _⟩ := h.2 _ _ _ hl hb
  refine ⟨_, bucketAt_eq hl, Or.inr ?_⟩
  cases b with
  | nil => exact absurd rfl hne
  | cons r b2 =>
    obtain ⟨c1, c, c2, rfl, hk1, hkc, hk2⟩ := @recordsAt_split _ _ [] _ _ hk
    have : c1 = [] := by
      have := congrArg List.length hk1
      simpa [recordsAt] using this
    subst this
    refine ⟨i, _, [], c, c2, [], r, b2, ?_, hl, hb, hr, rfl, hkc, hk2, rfl⟩
    simp [LLIterator_Allocate, hr.head_eq]

theorem flatten_eq_nil_of_sum {bs : List (List HTKeyValue_t)}
    (h : (bs.map List.length).sum = 0) : bs.flatten = [] := by
  rw [← List.length_eq_zero, List.length_flatten]
  exact h

theorem allocate_spec {t : HashTable} {bs : List (List HTKeyValue_t)} (h : TInv t bs) :
    ∃ it, HTIterator_Allocate t = .ok it ∧ IterRem t bs it bs.flatten := by
  unfold HTIterator_Allocate
  by_cases h0 : t.num_elements = 0
  · refine ⟨_, by simp [h0], Or.inl ⟨?_, rfl⟩⟩
    apply flatten_eq_nil_of_sum
    have := h.abs.count
    rw [h0] at this
    exact_mod_cast this.symm
  · simp only [h0, if_false]
    have hlen : 0 + t.num_buckets = bs.length := by rw [← h.rep.1, h.len]; simp
    rcases scan_spec h.rep t.num_buckets 0 hlen with ⟨_, h2⟩ | ⟨i, b, h1, _, h3, h4, h5⟩
    · exfalso
      apply h0
      rw [h.abs.count, ← List.length_flatten]
      simp only [List.drop_zero] at h2
      simp [h2]
    · obtain ⟨l, hl, hit⟩ := iterRem_enter h.rep h3 h4
      refine ⟨⟨(i : Int), some (LLIterator_Allocate l)⟩, by simp [h1, hl], ?_⟩
      simp only [List.drop_zero] at h5
      rw [h5]
      exact hit

theorem iterRem_nil_invalid {t : HashTable} {bs : List (List HTKeyValue_t)} {it : HTIterator}
    (h : IterRem t bs it []) : it = ⟨INVALID_IDX, none⟩ := by
  rcases h with ⟨_, h⟩ | ⟨i, l, c1, c, c2, b1, r, b2, _, _, _, _, _, _, _, h⟩
  · exact h
  · simp at h

theorem iterRem_step {t : HashTable} {bs : List (List HTKeyValue_t)} (hT : TInv t bs)
    {it : HTIterator} {r : HTKeyValue_t} {rest : List HTKeyValue_t}
    (h : IterRem t bs it (r :: rest)) :
    HTIterator_IsValid it = true ∧ HTIterator_Get t it = .ok (some r) ∧
      ∃ it', HTIterator_Next t it = .ok (it', decide (rest ≠ [])) ∧ IterRem t bs it' rest := by
  rcases h with ⟨h, _⟩ | ⟨i, l, c1, c, c2, b1, r0, b2, rfl, hl, hb, hr, hk1, hkc, hk2, hrest⟩
  · simp at h
  simp only [List.cons_append, List.cons.injEq] at hrest
  obtain ⟨rfl, rfl⟩ := hrest
  have hv : HTIterator_IsValid ⟨(i : Int), some ⟨some c.1⟩⟩ = true := by
    have : ¬ ((i : Int) = -1) := by omega
    simp [HTIterator_IsValid, INVALID_IDX, this, LLIterator_IsValid]
  have hch : iterChain t ⟨(i : Int), some ⟨some c.1⟩⟩ = .ok l := by
    have : ¬ ((i : Int) < 0) := by omega
    simp [iterChain, this, bucketAt_eq hl]
  refine ⟨hv, ?_, ?_⟩
  · simp [HTIterator_Get, hv, hch, get_at hr, deref_some hkc]
  · unfold HTIterator_Next
    simp only [hv, Bool.not_true, Bool.false_eq_true, if_false, hch, ok_bind, next_at hr]
    cases c2 with
    | cons d c2 =>
      cases b2 with
      | nil => simp at hk2
      | cons r2 b2 =>
        simp only [recordsAt_cons, List.map_cons, List.cons.injEq] at hk2
        refine ⟨⟨(i : Int), some ⟨some d.1⟩⟩, by simp, Or.inr ?_⟩
        refine ⟨i, l, c1 ++ [c], d, c2, b1 ++ [r], r2, b2, rfl, hl, by simpa using hb,
          by simpa using hr, by simp [hk1, hkc], hk2.1, hk2.2, rfl⟩
    | nil =>
      cases b2 with
      | cons r2 b2 => simp at hk2
      | nil =>
        have hi : i < bs.length := (List.getElem?_eq_some_iff.1 hb).1
        have hst : ((i : Int) + 1).toNat = i + 1 := by omega
        have hlen : (i + 1) + (t.num_buckets - (i + 1)) = bs.length := by
          have := hT.rep.1
          have := hT.len
          omega
        simp only [firstAddr_nil, Option.isSome_none, Bool.false_eq_true, if_false, hst,
          List.nil_append]
        rcases scan_spec hT.rep _ _ hlen with ⟨h1, h2⟩ | ⟨j, b, h1, _, h3, h4, h5⟩
        · refine ⟨⟨INVALID_IDX, none⟩, by simp [h1, h2], Or.inl ⟨h2, rfl⟩⟩
        · obtain ⟨l2, hl2, hit⟩ := iterRem_enter hT.rep h3 h4
          refine ⟨⟨(j : Int), some (LLIterator_Allocate l2)⟩, by simp [h1, hl2, h5, h4], ?_⟩
          rw [h5]
          exact hit

theorem visit_spec {t : HashTable} {bs : List (List HTKeyValue_t)} (hT : TInv t bs)
    {it : HTIterator} {rest : List HTKeyValue_t} (h : IterRem t bs it rest) {fuel : Nat}
    (hf : rest.length < fuel) : HTIterator_visit t fuel it = .ok rest := by
  induction rest generalizing it fuel with
  | nil =>
    cases fuel with
    | zero => simp at hf
    | succ fuel =>
      rw [iterRem_nil_invalid h]
      simp [HTIterator_visit, HTIterator_IsValid]
  | cons r rest ih =>
    cases fuel with
    | zero => simp at hf
    | succ fuel =>
      obtain ⟨hv, hg, it', hn, hit'⟩ := iterRem_step hT h
      have := ih hit' (by simpa using hf)
      simp [HTIterator_visit, hv, hg, hn, this]

/-! ## Proofs: allocation, release and resize -/

theorem allocate_tinv {n : Nat} (hn : 0 < n) :
    ∃ t, HashTable_Allocate n = .ok t ∧ TInv t (List.replicate n []) ∧ t.num_buckets = n ∧
      t.num_elements = 0 := by
  have hpos : (n : Int) > 0 := by exact_mod_cast hn
  refine ⟨{ num_buckets := n, num_elements := 0,
             buckets := List.replicate n LinkedList_Allocate,
             kvs := fun _ => none, kv_brk := 0 },
    by simp [HashTable_Allocate, hpos], ⟨hn, by simp, ⟨by simp, ?_⟩, ⟨?_, ?_, ?_⟩⟩, rfl, rfl⟩
  · intro i l b hl hb
    simp only [List.getElem?_replicate] at hl hb
    split_ifs at hl hb with hi
    cases hl; cases hb
    exact ⟨[], rep_allocate, rfl, by simp⟩
  · simp
  · intro i b hb r hr
    simp only [List.getElem?_replicate] at hb
    split_ifs at hb with hi
    cases hb
    simp at hr
  · intro b hb
    rw [List.eq_of_mem_replicate hb]
    simp

/-- What `HashTable_Allocate` returns, when it returns: its argument was positive, and
the table has that many empty chains. -/
theorem allocate_ok {m : Int} {t : HashTable} (h : HashTable_Allocate m = .ok t) :
    0 < m ∧ TInv t (List.replicate m.toNat []) ∧ (t.num_buckets : Int) = m ∧
      t.num_elements = 0 := by
  by_cases hpos : m > 0
  · obtain ⟨t0, h0, hT0, hnb, hn⟩ := allocate_tinv (n := m.toNat) (by omega)
    rw [Int.toNat_of_nonneg (le_of_lt hpos), h] at h0
    cases h0
    exact ⟨hpos, hT0, by rw [hnb]; exact Int.toNat_of_nonneg (le_of_lt hpos), hn⟩
  · simp [HashTable_Allocate, hpos] at h

theorem free_chain_spec {σ : Type} (f : HTValue_t → σ → σ) {cells : List Cell} :
    ∀ {l : LinkedList} {kvs : Nat → Option HTKeyValue_t} (s : σ) {fuel : Nat},
      l.Rep cells → (∀ c ∈ cells, kvs c.2 ≠ none) → (cells.map Prod.snd).Nodup →
      cells.length < fuel →
      ∃ l' kvs' s', HashTable_Free_chain f fuel l kvs s = .ok (l', kvs', s') ∧ l'.Rep [] ∧
        ∀ p, p ∉ cells.map Prod.snd → kvs' p = kvs p := by
  induction cells with
  | nil =>
    intro l kvs s fuel hr _ _ hf
    cases fuel with
    | zero => simp at hf
    | succ fuel =>
      have h0 : ¬ (LinkedList_NumElements l > 0) := by
        unfold LinkedList_NumElements; rw [hr.count]; simp
      exact ⟨l, kvs, s, by simp [HashTable_Free_chain, h0], hr, fun _ _ => rfl⟩
  | cons c cells ih =>
    intro l kvs s fuel hr ha hnd hf
    cases fuel with
    | zero => simp at hf
    | succ fuel =>
      have h0 : LinkedList_NumElements l > 0 := by
        unfold LinkedList_NumElements; rw [hr.count]; simp
      obtain ⟨l1, hpop, hr1, _⟩ := pop_rep_cons hr
      cases hv : kvs c.2 with
      | none => exact absurd hv (ha c (by simp))
      | some r =>
        simp only [List.map_cons, List.nodup_cons] at hnd
        have ha1 : ∀ d ∈ cells, release kvs c.2 d.2 ≠ none := by
          intro d hd
          have hne : d.2 ≠ c.2 := fun he => hnd.1 (he ▸ List.mem_map_of_mem _ hd)
          rw [release_other _ hne]
          exact ha d (by simp [hd])
        obtain ⟨l', kvs', s', hrec, hr', hfr⟩ :=
          @ih l1 (release kvs c.2) (f r.value s) _ hr1 ha1 hnd.2 (by simpa using hf)
        refine ⟨l', kvs', s', ?_, hr', ?_⟩
        · simp [HashTable_Free_chain, h0, hpop, deref_some hv, hrec]
        · intro p hp
          simp only [List.map_cons, List.mem_cons, not_or] at hp
          rw [hfr p hp.2, release_other _ hp.1]

theorem linkedList_free_nil {σ : Type} {l : LinkedList} (h : l.Rep [])
    (f : LLPayload_t → σ → σ) (s : σ) (fuel : Nat) :
    LinkedList_Free (fuel + 1) l f s = .ok s := by
  have : l.head = none := by simpa using h.head_eq
  simp [LinkedList_Free, LinkedList_Free_loop, this]

theorem payload_nodup {kvs : Nat → Option HTKeyValue_t} {cells : List Cell}
    {b : List HTKeyValue_t} (hk : recordsAt kvs cells = b.map some)
    (hnd : (b.map HTKeyValue_t.key).Nodup) : (cells.map Prod.snd).Nodup := by
  have h1 : b.Nodup := List.Nodup.of_map _ hnd
  have h2 : (b.map some).Nodup := h1.map (Option.some_injective _)
  rw [← hk] at h2
  have : recordsAt kvs cells = (cells.map Prod.snd).map kvs := by
    simp [recordsAt, List.map_map, Function.comp]
  rw [this] at h2
  exact List.Nodup.of_map _ h2

theorem free_loop_spec {σ : Type} (f : HTValue_t → σ → σ) (brk : Nat)
    {buckets : List LinkedList} {bs : List (List HTKeyValue_t)} {nb : Nat}
    (hlen : buckets.length = bs.length)
    (hhome : ∀ (i : Nat) b, bs[i]? = some b → ∀ r ∈ b, r.key % nb = i)
    (hnd : ∀ b ∈ bs, (b.map HTKeyValue_t.key).Nodup) {fuel : Nat}
    (hfuel : ∀ b ∈ bs, b.length < fuel) :
    ∀ (n i : Nat) (kvs : Nat → Option HTKeyValue_t) (s : σ), i + n = bs.length →
      (∀ (j : Nat) l b, i ≤ j → buckets[j]? = some l → bs[j]? = some b → ChainRep kvs brk l b) →
      ∃ s', HashTable_Free_loop fuel buckets f n i kvs s = .ok s' := by
  intro n
  induction n with
  | zero => intro i kvs s _ _; exact ⟨s, rfl⟩
  | succ n ih =>
    intro i kvs s hi hrep
    have hib : i < bs.length := by omega
    have hil : i < buckets.length := by rw [hlen]; exact hib
    have hl := List.getElem?_eq_getElem hil
    have hb := List.getElem?_eq_getElem hib
    obtain ⟨cells, hr, hk, hbrk⟩ := hrep i _ _ (le_refl _) hl hb
    have hbm : bs[i] ∈ bs := List.getElem_mem _
    have hpn := payload_nodup hk (hnd _ hbm)
    have hal : ∀ c ∈ cells, kvs c.2 ≠ none := by
      intro c hc
      obtain ⟨r, _, he⟩ := recordsAt_mem hk hc
      simp [he]
    have hf : cells.length < fuel := by rw [recordsAt_length hk]; exact hfuel _ hbm
    obtain ⟨l', kvs', s', hfc, hr', hfr⟩ := free_chain_spec f s hr hal hpn hf
    have hfuel1 : ∃ g, fuel = g + 1 := ⟨fuel - 1, by omega⟩
    obtain ⟨g, rfl⟩ := hfuel1
    obtain ⟨s'', hrec⟩ := ih (i + 1) kvs' s' (by omega) (by
      intro j l b hj hlj hbj
      refine chainRep_frame (hrep j l b (by omega) hlj hbj) ?_ (le_refl _)
      intro p r _ hrb hpr
      rw [hfr p ?_, hpr]
      intro hp
      obtain ⟨c, hc, rfl⟩ := List.mem_map.1 hp
      obtain ⟨r', hr'b, he⟩ := recordsAt_mem hk hc
      rw [hpr] at he
      cases he
      have e1 := hhome i _ hb r hr'b
      have e2 := hhome j _ hbj r hrb
      have e3 : i = j := e1.symm.trans e2
      omega)
    refine ⟨s'', ?_⟩
    simp [HashTable_Free_loop, bucketAt_eq hl, hfc, linkedList_free_nil hr', hrec]

theorem free_spec {σ : Type} {t : HashTable} {bs : List (List HTKeyValue_t)} (h : TInv t bs)
    (f : HTValue_t → σ → σ) (s : σ) {fuel : Nat} (hf : t.num_elements < fuel) :
    ∃ s', HashTable_Free fuel t f s = .ok s' := by
  unfold HashTable_Free
  apply free_loop_spec f t.kv_brk h.rep.1 h.abs.home h.abs.nodup
  · intro b hb
    obtain ⟨i, hi⟩ := List.getElem?_of_mem hb
    have := length_le_sum hi
    have := h.abs.count
    omega
  · rw [← h.rep.1, h.len]; simp
  · intro j l b _ hl hb
    exact h.rep.2 j l b hl hb


theorem keys_flatten_nodup {nb : Nat} {n : Int} {bs : List (List HTKeyValue_t)}
    (h : AbsInv nb n bs) : (bs.flatten.map HTKeyValue_t.key).Nodup := by
  rw [List.map_flatten, List.nodup_flatten]
  refine ⟨?_, ?_⟩
  · intro l hl
    obtain ⟨b, hb, rfl⟩ := List.mem_map.1 hl
    exact h.nodup b hb
  · rw [List.pairwise_map, List.pairwise_iff_getElem]
    intro i j hi hj hij
    intro k hk1 hk2
    obtain ⟨r1, hr1, e1⟩ := List.mem_map.1 hk1
    obtain ⟨r2, hr2, e2⟩ := List.mem_map.1 hk2
    have a1 := h.home i _ (List.getElem?_eq_getElem hi) r1 hr1
    have a2 := h.home j _ (List.getElem?_eq_getElem hj) r2 hr2
    rw [e1] at a1
    rw [e2] at a2
    have : i = j := a1.symm.trans a2
    omega

theorem find_flatten {nb : Nat} {n : Int} {bs : List (List HTKeyValue_t)} (hnb : 0 < nb)
    (hlen : bs.length = nb) (h : AbsInv nb n bs) (k : HTKey_t) :
    bs.flatten.find? (fun r => r.key = k) = absLookup nb bs k := by
  have hi : k % nb < bs.length := by rw [hlen]; exact home_lt hnb _
  have hsplit : bs = bs.take (k % nb) ++ bs[k % nb] :: bs.drop (k % nb + 1) := by
    rw [← List.drop_eq_getElem_cons hi, List.take_append_drop]
  have hhome : homeChain nb bs k = bs[k % nb] := by
    simp [homeChain, List.getElem?_eq_getElem hi]
  unfold absLookup
  rw [hhome]
  conv_lhs => rw [hsplit]
  rw [List.flatten_append, List.flatten_cons, List.find?_append, List.find?_append]
  have h1 : (bs.take (k % nb)).flatten.find? (fun r => r.key = k) = none := by
    apply find_key_none
    intro r hr he
    obtain ⟨b, hb, hrb⟩ := List.mem_flatten.1 hr
    obtain ⟨j, hj⟩ := List.getElem?_of_mem hb
    have hjlt : j < k % nb := by
      have := (List.getElem?_eq_some_iff.1 hj).1
      simp only [List.length_take] at this
      omega
    rw [List.getElem?_take_of_lt hjlt] at hj
    have := h.home j b hj r hrb
    rw [he] at this
    have e : @Eq Nat (k % nb) j := this
    omega
  have h2 : (bs.drop (k % nb + 1)).flatten.find? (fun r => r.key = k) = none := by
    apply find_key_none
    intro r hr he
    obtain ⟨b, hb, hrb⟩ := List.mem_flatten.1 hr
    obtain ⟨j, hj⟩ := List.getElem?_of_mem hb
    rw [List.getElem?_drop] at hj
    have := h.home _ b hj r hrb
    rw [he] at this
    have e : @Eq Nat (k % nb) (k % nb + 1 + j) := this
    omega
  rw [h1, h2]
  simp

theorem find_snoc_fresh {done : List HTKeyValue_t} {r : HTKeyValue_t}
    (hfresh : r.key ∉ done.map HTKeyValue_t.key) (k : HTKey_t) :
    (done ++ [r]).find? (fun x => x.key = k) =
      if k = r.key then some r else done.find? (fun x => x.key = k) := by
  rw [List.find?_append]
  by_cases hk : k = r.key
  · subst hk
    have : done.find? (fun x => x.key = r.key) = none := by
      apply find_key_none
      intro x hx he
      exact hfresh (he ▸ List.mem_map_of_mem _ hx)
    simp [this]
  · have : ¬ r.key = k := fun h => hk h.symm
    simp [hk, List.find?_cons, this]

/-- The loop of `MaybeResize` copies the records still to visit into the new table. -/
theorem resize_loop_spec
    {ins : HashTable → HTKeyValue_t → Except Fault (HashTable × Option HTKeyValue_t)}
    {J : HashTable → Prop} {N : Nat} {t : HashTable} {bs : List (List HTKeyValue_t)}
    (hT : TInv t bs)
    (hins : ∀ u cs kv, TInv u cs → J u → u.num_elements < (N : Int) →
      absLookup u.num_buckets cs kv.key = none →
      ∃ u' cs' o, ins u kv = .ok (u', o) ∧ TInv u' cs' ∧ J u' ∧
        u'.num_elements = u.num_elements + 1 ∧
        ∀ k, absLookup u'.num_buckets cs' k =
          if k = kv.key then some kv else absLookup u.num_buckets cs k) :
    ∀ (rest done : List HTKeyValue_t) (it : HTIterator) (u : HashTable)
      (cs : List (List HTKeyValue_t)) (fuel : Nat),
      IterRem t bs it rest → TInv u cs → J u → u.num_elements = (done.length : Int) →
      done.length + rest.length = N → ((done ++ rest).map HTKeyValue_t.key).Nodup →
      (∀ k, absLookup u.num_buckets cs k = done.find? (fun r => r.key = k)) →
      rest.length < fuel →
      ∃ u' cs', MaybeResize_loop ins t fuel it u = .ok u' ∧ TInv u' cs' ∧ J u' ∧
        u'.num_elements = (N : Int) ∧
        ∀ k, absLookup u'.num_buckets cs' k = (done ++ rest).find? (fun r => r.key = k) := by
  intro rest
  induction rest with
  | nil =>
    intro done it u cs fuel hit hu hJ hn hN _ hlk hf
    cases fuel with
    | zero => simp at hf
    | succ fuel =>
      rw [iterRem_nil_invalid hit]
      refine ⟨u, cs, by simp [MaybeResize_loop, HTIterator_IsValid], hu, hJ, ?_, by simpa using hlk⟩
      rw [hn]; simp at hN; exact_mod_cast hN
  | cons r rest ih =>
    intro done it u cs fuel hit hu hJ hn hN hnd hlk hf
    cases fuel with
    | zero => simp at hf
    | succ fuel =>
      obtain ⟨hv, hg, it', hnx, hit'⟩ := iterRem_step hT hit
      have hfresh : r.key ∉ done.map HTKeyValue_t.key := by
        simp only [List.map_append, List.map_cons] at hnd
        intro hm
        exact (List.nodup_append.1 hnd).2.2 hm (List.mem_cons_self _ _)
      have hnone : absLookup u.num_buckets cs r.key = none := by
        rw [hlk]
        apply find_key_none
        intro x hx he
        exact hfresh (he ▸ List.mem_map_of_mem _ hx)
      have hlt : u.num_elements < (N : Int) := by
        rw [hn, ← hN]; simp
      obtain ⟨u1, cs1, o, hi1, hu1, hJ1, hn1, hlk1⟩ := hins u cs r hu hJ hlt hnone
      obtain ⟨u', cs', hloop, hu', hJ', hn', hlk'⟩ := ih (done ++ [r]) it' u1 cs1 fuel hit' hu1 hJ1
        (by rw [hn1, hn]; simp) (by simp at hN ⊢; omega) (by simpa using hnd)
        (by intro k; rw [hlk1, find_snoc_fresh hfresh, hlk]) (by simpa using hf)
      refine ⟨u', cs', ?_, hu', hJ', hn', by simpa using hlk'⟩
      simp [MaybeResize_loop, hv, hg, hi1, hnx, hloop]


theorem absLookup_replicate (nb m : Nat) (k : HTKey_t) :
    absLookup nb (List.replicate m []) k = none := by
  unfold absLookup homeChain
  rw [List.getElem?_replicate]
  split_ifs <;> rfl

theorem TInv.num_nonneg {t : HashTable} {bs : List (List HTKeyValue_t)} (h : TInv t bs) :
    0 ≤ t.num_elements := by
  rw [h.abs.count]; exact Int.natCast_nonneg _

theorem TInv.num_eq_flatten {t : HashTable} {bs : List (List HTKeyValue_t)} (h : TInv t bs) :
    t.num_elements = (bs.flatten.length : Int) := by
  rw [h.abs.count, List.length_flatten]

theorem toInt32_eq {x : Int} (h0 : -2147483648 ≤ x) (h1 : x ≤ 2147483647) : toInt32 x = x := by
  unfold toInt32
  omega

theorem maybeResize_succ (fuel : Nat) (ht : HashTable)
    (h : ¬ ht.num_elements < toInt32 (3 * (ht.num_buckets : Int))) :
    MaybeResize (fuel + 1) ht = (do
      let newht ← HashTable_Allocate (toInt32 ((ht.num_buckets : Int) * 9))
      let it ← HTIterator_Allocate ht
      let newht1 ← MaybeResize_loop (innerInsert fuel) ht (fuel + 1) it newht
      let _ ← HashTable_Free (fuel + 1) ht (fun _ (u : Unit) => u) ()
      .ok newht1) := by
  rw [MaybeResize]
  simp only [h, if_false]
  rfl

theorem maybeResize_noop (fuel : Nat) (ht : HashTable)
    (h : ht.num_elements < toInt32 (3 * (ht.num_buckets : Int))) :
    MaybeResize fuel ht = .ok ht := by
  cases fuel <;> simp [MaybeResize, h]

/-- On a table on which the products are exact, the test of `MaybeResize` is the
comparison of the element count with three times the bucket count. -/
theorem HashTable.Fits.test {t : HashTable} (h : t.Fits) :
    toInt32 (3 * (t.num_buckets : Int)) = 3 * (t.num_buckets : Int) :=
  toInt32_eq (by omega) h.1

/-- On a table on which the products are exact and that is due for a resize, the
argument of `HashTable_Allocate` is nine times the bucket count. -/
theorem HashTable.Fits.ninefold {t : HashTable} (h : t.Fits)
    (hc : 3 * (t.num_buckets : Int) ≤ t.num_elements) :
    toInt32 ((t.num_buckets : Int) * 9) = ((t.num_buckets * 9 : Nat) : Int) := by
  have h2 := h.2
  rw [toInt32_eq (by omega) (by omega)]
  push_cast
  rfl

theorem maybeResize_spec : ∀ (fuel : Nat) (t : HashTable) (bs : List (List HTKeyValue_t)),
    TInv t bs → t.Fits → t.num_elements < (fuel : Int) →
    ∃ t' bs', MaybeResize fuel t = .ok t' ∧ TInv t' bs' ∧ t'.num_elements = t.num_elements ∧
      (∀ k, absLookup t'.num_buckets bs' k = absLookup t.num_buckets bs k) ∧
      (t.num_elements < 3 * (t.num_buckets : Int) → t' = t ∧ bs' = bs) ∧
      (3 * (t.num_buckets : Int) ≤ t.num_elements →
        9 * t.num_buckets ≤ t'.num_buckets ∧ t'.num_elements ≤ 3 * (t'.num_buckets : Int) ∧
        (t.num_elements ≤ 27 * (t.num_buckets : Int) → t'.num_buckets = 9 * t.num_buckets)) ∧
      3 * (t'.num_buckets : Int) ≤ 2147483647 := by
  intro fuel
  induction fuel with
  | zero =>
    intro t bs hT _ hf
    have := hT.num_nonneg
    simp at hf
    omega
  | succ f ih =>
    intro t bs hT hfit hf
    have hfit1 := hfit.1
    have hfit2 := hfit.2
    by_cases hc : t.num_elements < 3 * (t.num_buckets : Int)
    · exact ⟨t, bs, maybeResize_noop _ _ (by rw [hfit.test]; exact hc), hT, rfl, fun _ => rfl,
        fun _ => ⟨rfl, rfl⟩, fun h => by omega, hfit1⟩
    · have hnb := hT.nb_pos
      have hc' : ¬ t.num_elements < toInt32 (3 * (t.num_buckets : Int)) := by
        rw [hfit.test]; exact hc
      obtain ⟨newht, hal, hnew, hnewnb, hnewn⟩ :=
        allocate_tinv (n := t.num_buckets * 9) (by omega)
      rw [← hfit.ninefold (by omega)] at hal
      obtain ⟨it, hit0, hit⟩ := allocate_spec hT
      have hN := hT.num_eq_flatten
      have hins : ∀ u cs kv, TInv u cs →
          (9 * t.num_buckets ≤ u.num_buckets ∧ u.num_elements ≤ 3 * (u.num_buckets : Int) ∧
            (t.num_elements ≤ 27 * (t.num_buckets : Int) → u.num_buckets = 9 * t.num_buckets) ∧
            3 * (u.num_buckets : Int) ≤ 2147483647) →
          u.num_elements < (bs.flatten.length : Int) →
          absLookup u.num_buckets cs kv.key = none →
          ∃ u' cs' o, innerInsert f u kv = .ok (u', o) ∧ TInv u' cs' ∧
            (9 * t.num_buckets ≤ u'.num_buckets ∧
              u'.num_elements ≤ 3 * (u'.num_buckets : Int) ∧
              (t.num_elements ≤ 27 * (t.num_buckets : Int) →
                u'.num_buckets = 9 * t.num_buckets) ∧
              3 * (u'.num_buckets : Int) ≤ 2147483647) ∧
            u'.num_elements = u.num_elements + 1 ∧
            ∀ k, absLookup u'.num_buckets cs' k =
              if k = kv.key then some kv else absLookup u.num_buckets cs k := by
        intro u cs kv hu hJ hlt hnone
        have hunb := hu.nb_pos
        obtain ⟨u1, cs1, hr1, hu1, hn1, hlk1, hno1, hre1, hfit3⟩ := ih u cs hu
          ⟨hJ.2.2.2, by omega⟩ (by push_cast at hf; omega)
        obtain ⟨u2, hb2, hu2, hnb2, hn2⟩ := insert_body_spec hu1 kv f
          (by push_cast at hf; omega)
        rw [hlk1, hnone] at hb2 hn2
        simp only [Option.isSome_none, Bool.false_eq_true, if_false] at hn2
        refine ⟨u2, _, none, by simp [innerInsert, hr1, hb2], hu2, ?_, by omega, ?_⟩
        · rw [hnb2]
          by_cases hcu : u.num_elements < 3 * (u.num_buckets : Int)
          · obtain ⟨rfl, rfl⟩ := hno1 hcu
            refine ⟨hJ.1, by omega, hJ.2.2.1, hfit3⟩
          · obtain ⟨h91, h92, h93⟩ := hre1 (by omega)
            have := h93 (by omega)
            refine ⟨by omega, by push_cast [this] at *; omega, ?_, hfit3⟩
            intro h27
            have := hJ.2.2.1 h27
            push_cast [this] at hcu
            omega
        · intro k
          rw [hnb2, absLookup_insert hu1.nb_pos (hu1.rep.1.symm.trans hu1.len), hlk1]
      obtain ⟨u', cs', hloop, hu', hJ', hn', hlk'⟩ := resize_loop_spec hT hins bs.flatten [] it
        newht _ (f + 1) hit hnew
        ⟨by omega, by rw [hnewn]; omega, fun _ => by omega, by rw [hnewnb]; push_cast; omega⟩
        (by simp [hnewn]) (by simp)
        (by simpa using keys_flatten_nodup hT.abs)
        (by intro k; rw [absLookup_replicate]; rfl) (by push_cast at hf; omega)
      obtain ⟨_, hfree⟩ := free_spec hT (fun _ (u : Unit) => u) () hf
      refine ⟨u', cs', ?_, hu', by rw [hn', hN], ?_, fun h => absurd h hc,
        fun _ => ⟨hJ'.1, hJ'.2.1, hJ'.2.2.1⟩, hJ'.2.2.2⟩
      · rw [maybeResize_succ _ _ hc']
        simp [hal, hit0, hloop, hfree]
      · intro k
        rw [hlk']
        simpa using find_flatten hT.nb_pos (hT.rep.1.symm.trans hT.len) hT.abs k

theorem insert_spec {t : HashTable} {bs : List (List HTKeyValue_t)} (hT : TInv t bs)
    (hfit : t.Fits) (kv : HTKeyValue_t) (fuel : Nat) (hf : t.num_elements < (fuel : Int)) :
    ∃ t' bs', HashTable_Insert fuel t kv = .ok (t', absLookup t.num_buckets bs kv.key) ∧
      TInv t' bs' ∧
      (∀ k, absLookup t'.num_buckets bs' k =
        if k = kv.key then some kv else absLookup t.num_buckets bs k) ∧
      t'.num_elements =
        (if (absLookup t.num_buckets bs kv.key).isSome then t.num_elements
         else t.num_elements + 1) ∧
      (t.num_elements < 3 * (t.num_buckets : Int) →
        t'.num_buckets = t.num_buckets ∧ bs' = absInsert t.num_buckets bs kv) ∧
      (3 * (t.num_buckets : Int) ≤ t.num_elements →
        9 * t.num_buckets ≤ t'.num_buckets ∧
        (t.num_elements ≤ 27 * (t.num_buckets : Int) → t'.num_buckets = 9 * t.num_buckets)) ∧
      3 * (t'.num_buckets : Int) ≤ 2147483647 := by
  obtain ⟨t1, bs1, hr1, hT1, hn1, hlk1, hno1, hre1, hfit1⟩ := maybeResize_spec fuel t bs hT hfit hf
  obtain ⟨t2, hb2, hT2, hnb2, hn2⟩ := insert_body_spec hT1 kv fuel (by omega)
  rw [hlk1] at hb2 hn2
  refine ⟨t2, _, by simp [HashTable_Insert, hr1, hb2], hT2, ?_, by rw [hn2, hn1], ?_, ?_,
    by rw [hnb2]; exact hfit1⟩
  · intro k
    rw [hnb2, absLookup_insert hT1.nb_pos (hT1.rep.1.symm.trans hT1.len), hlk1]
  · intro hc
    obtain ⟨rfl, rfl⟩ := hno1 hc
    exact ⟨hnb2, rfl⟩
  · intro hc
    obtain ⟨h1, _, h3⟩ := hre1 hc
    rw [hnb2]
    exact ⟨h1, h3⟩

/-- An insertion that triggers no resize: the test of `MaybeResize` holds, and the
insertion is the part of `HashTable_Insert` after the call of `MaybeResize`. -/
theorem insert_no_resize {t : HashTable} (fuel : Nat) (kv : HTKeyValue_t)
    (hno : t.num_elements < toInt32 (3 * (t.num_buckets : Int))) :
    MaybeResize fuel t = .ok t ∧ HashTable_Insert fuel t kv = HashTable_Insert_body fuel t kv := by
  have h := maybeResize_noop fuel t hno
  exact ⟨h, by simp [HashTable_Insert, h]⟩

/-- More fuel does not change what `FindKey` returns. -/
theorem findKey_loop_mono (kvs : Nat → Option HTKeyValue_t) (chain : LinkedList)
    (key : HTKey_t) :
    ∀ (fuel d : Nat) (it : LLIterator) (r : Option Nat),
      FindKey_loop kvs chain key fuel it = .ok r →
      FindKey_loop kvs chain key (fuel + d) it = .ok r := by
  intro fuel
  induction fuel with
  | zero => intro d it r h; simp [FindKey_loop] at h
  | succ fuel ih =>
    intro d it r h
    rw [show fuel + 1 + d = (fuel + d) + 1 by omega]
    simp only [FindKey_loop] at h ⊢
    by_cases hv : LLIterator_IsValid it = true
    · simp only [hv, if_true] at h ⊢
      cases hg : LLIterator_Get chain it with
      | error e => simp [hg] at h
      | ok kv =>
        simp only [hg, ok_bind] at h ⊢
        cases hd : deref kvs (some kv) with
        | error e => simp [hd] at h
        | ok p =>
          obtain ⟨a, rec⟩ := p
          simp only [hd, ok_bind] at h ⊢
          by_cases hk : rec.key = key
          · simp only [hk, if_true] at h ⊢
            exact h
          · simp only [hk, if_false] at h ⊢
            cases hn : LLIterator_Next chain it with
            | error e => simp [hn] at h
            | ok q =>
              obtain ⟨it1, b⟩ := q
              simp only [hn, ok_bind] at h ⊢
              exact ih d it1 r h
    · simp only [hv, Bool.false_eq_true, if_false] at h ⊢
      exact h

/-- More fuel does not change what the insertion after `MaybeResize` returns. -/
theorem insert_body_mono {fuel : Nat} {t : HashTable} {kv : HTKeyValue_t}
    {x : HashTable × Option HTKeyValue_t} (d : Nat)
    (h : HashTable_Insert_body fuel t kv = .ok x) :
    HashTable_Insert_body (fuel + d) t kv = .ok x := by
  unfold HashTable_Insert_body at h ⊢
  cases h1 : HashKeyToBucketNum t kv.key with
  | error e => simp [h1] at h
  | ok bucket =>
    simp only [h1, ok_bind] at h ⊢
    cases h2 : bucketAt t.buckets bucket with
    | error e => simp [h2] at h
    | ok chain =>
      simp only [h2, ok_bind] at h ⊢
      cases h3 : FindKey fuel t.kvs chain kv.key with
      | error e => simp [h3] at h
      | ok o =>
        have h4 : FindKey (fuel + d) t.kvs chain kv.key = .ok o :=
          findKey_loop_mono _ _ _ _ d _ _ h3
        simp only [h3, ok_bind] at h
        simp only [h4, ok_bind]
        exact h

/-- Whatever the fuel, a table that the insertion after `MaybeResize` returns
satisfies the invariant. -/
theorem insert_body_sound {t : HashTable} {bs : List (List HTKeyValue_t)} (hT : TInv t bs)
    {kv : HTKeyValue_t} {fuel : Nat} {t' : HashTable} {o : Option HTKeyValue_t}
    (h : HashTable_Insert_body fuel t kv = .ok (t', o)) : ∃ bs', TInv t' bs' := by
  have hm := insert_body_mono (t.num_elements.toNat + 1) h
  have h0 := hT.num_nonneg
  obtain ⟨t2, hb, hT2, _, _⟩ := insert_body_spec hT kv (fuel + (t.num_elements.toNat + 1))
    (by push_cast; rw [Int.toNat_of_nonneg h0]; omega)
  rw [hm] at hb
  obtain ⟨rfl, _⟩ := Prod.mk.inj (Except.ok.inj hb)
  exact ⟨_, hT2⟩

/-- Whatever the fuel, a table that the loop of `MaybeResize` returns satisfies the
invariant, when the insertion it is given keeps the invariant. -/
theorem resize_loop_sound
    {ins : HashTable → HTKeyValue_t → Except Fault (HashTable × Option HTKeyValue_t)}
    (t : HashTable)
    (hins : ∀ u cs kv u' o, TInv u cs → ins u kv = .ok (u', o) → ∃ cs', TInv u' cs') :
    ∀ (fuel : Nat) (it : HTIterator) (u u' : HashTable) (cs : List (List HTKeyValue_t)),
      TInv u cs → MaybeResize_loop ins t fuel it u = .ok u' → ∃ cs', TInv u' cs' := by
  intro fuel
  induction fuel with
  | zero => intro it u u' cs _ h; simp [MaybeResize_loop] at h
  | succ fuel ih =>
    intro it u u' cs hu h
    simp only [MaybeResize_loop] at h
    by_cases hv : HTIterator_IsValid it = true
    · simp only [hv, if_true] at h
      cases hg : HTIterator_Get t it with
      | error e => simp [hg] at h
      | ok o =>
        cases o with
        | none => simp [hg] at h
        | some item =>
          simp only [hg, ok_bind] at h
          cases hi : ins u item with
          | error e => simp [hi] at h
          | ok p =>
            obtain ⟨u1, o1⟩ := p
            simp only [hi, ok_bind] at h
            obtain ⟨cs1, hu1⟩ := hins u cs item u1 o1 hu hi
            cases hn : HTIterator_Next t it with
            | error e => simp [hn] at h
            | ok q =>
              obtain ⟨it1, b⟩ := q
              simp only [hn, ok_bind] at h
              exact ih _ _ _ _ hu1 h
    · simp only [hv, Bool.false_eq_true, if_false] at h
      cases h
      exact ⟨cs, hu⟩

/-- Whatever the table and the fuel, a table that `MaybeResize` returns satisfies the
invariant: also where the `int` products are not exact. -/
theorem maybeResize_sound : ∀ (fuel : Nat) (t t' : HashTable) (bs : List (List HTKeyValue_t)),
    TInv t bs → MaybeResize fuel t = .ok t' → ∃ bs', TInv t' bs' := by
  intro fuel
  induction fuel with
  | zero =>
    intro t t' bs hT h
    simp only [MaybeResize] at h
    split_ifs at h
    cases h
    exact ⟨bs, hT⟩
  | succ f ih =>
    intro t t' bs hT h
    by_cases hc : t.num_elements < toInt32 (3 * (t.num_buckets : Int))
    · rw [maybeResize_noop _ _ hc] at h
      cases h
      exact ⟨bs, hT⟩
    · rw [maybeResize_succ _ _ hc] at h
      cases ha : HashTable_Allocate (toInt32 ((t.num_buckets : Int) * 9)) with
      | error e => simp [ha] at h
      | ok newht =>
        simp only [ha, ok_bind] at h
        cases hit : HTIterator_Allocate t with
        | error e => simp [hit] at h
        | ok it =>
          simp only [hit, ok_bind] at h
          cases hl : MaybeResize_loop (innerInsert f) t (f + 1) it newht with
          | error e => simp [hl] at h
          | ok u =>
            simp only [hl, ok_bind] at h
            cases hfr : HashTable_Free (f + 1) t (fun _ (u : Unit) => u) () with
            | error e => simp [hfr] at h
            | ok x =>
              simp only [hfr, ok_bind] at h
              cases h
              refine resize_loop_sound t ?_ (f + 1) it newht _ _ (allocate_ok ha).2.1 hl
              intro u cs kv u' o hu hi
              unfold innerInsert at hi
              cases hm : MaybeResize f u with
              | error e => simp [hm] at hi
              | ok u1 =>
                simp only [hm, ok_bind] at hi
                obtain ⟨cs1, hu1⟩ := ih u u1 cs hu hm
                exact insert_body_sound hu1 hi

/-- Whatever the table and the fuel, a table that `HashTable_Insert` returns satisfies
the invariant. -/
theorem insert_sound {t : HashTable} {bs : List (List HTKeyValue_t)} (hT : TInv t bs)
    {kv : HTKeyValue_t} {fuel : Nat} {t' : HashTable} {o : Option HTKeyValue_t}
    (h : HashTable_Insert fuel t kv = .ok (t', o)) : ∃ bs', TInv t' bs' := by
  unfold HashTable_Insert at h
  cases hm : MaybeResize fuel t with
  | error e => simp [hm] at h
  | ok t1 =>
    simp only [hm, ok_bind] at h
    obtain ⟨bs1, hT1⟩ := maybeResize_sound fuel t t1 bs hT hm
    exact insert_body_sound hT1 h

/-! ## Proofs: removal through the table iterator -/

theorem drop_set_lt {α : Type} (l : List α) {i j : Nat} (x : α) (h : i < j) :
    (l.set i x).drop j = l.drop j := by
  apply List.ext_getElem?
  intro m
  rw [List.getElem?_drop, List.getElem?_drop, List.getElem?_set]
  have : i ≠ j + m := by omega
  simp [this]

theorem rep_suffix_unique {l : LinkedList} {suf : List Cell} :
    ∀ {pre pre' suf' : List Cell}, l.Rep (pre ++ suf) → l.Rep (pre' ++ suf') →
      firstAddr suf = firstAddr suf' → suf = suf' := by
  induction suf with
  | nil =>
    intro pre pre' suf' _ _ hf
    cases suf' with
    | nil => rfl
    | cons c s => simp at hf
  | cons c s ih =>
    intro pre pre' suf' h h' hf
    cases suf' with
    | nil => simp at hf
    | cons c' s' =>
      simp only [firstAddr_cons, Option.some.injEq] at hf
      have n1 := h.node_at
      have n2 := h'.node_at
      rw [← hf, n1] at n2
      simp only [Option.some.injEq, LinkedListNode.mk.injEq] at n2
      have hc : c = c' := Prod.ext hf n2.1
      subst hc
      have h1 : l.Rep ((pre ++ [c]) ++ s) := by simpa using h
      have h2 : l.Rep ((pre' ++ [c]) ++ s') := by simpa using h'
      rw [ih h1 h2 n2.2.1]

/-- A list is represented by one sequence of cells only. -/
theorem rep_cells_unique {l : LinkedList} {cells cells' : List Cell} (h : l.Rep cells)
    (h' : l.Rep cells') : cells = cells' := by
  have h1 : l.Rep ([] ++ cells) := h
  have h2 : l.Rep ([] ++ cells') := h'
  exact rep_suffix_unique h1 h2 (by rw [← h.head_eq, ← h'.head_eq])

/-- The removal of the key of the record at a known cell of its chain. -/
theorem remove_at_spec {t : HashTable} {bs : List (List HTKeyValue_t)} (hT : TInv t bs)
    {i : Nat} {l : LinkedList} {c1 c2 : List Cell} {c : Cell}
    {b1 b2 : List HTKeyValue_t} {r : HTKeyValue_t}
    (hl : t.buckets[i]? = some l) (hb : bs[i]? = some (b1 ++ r :: b2))
    (hr : l.Rep (c1 ++ c :: c2)) (hk1 : recordsAt t.kvs c1 = b1.map some)
    (hkc : t.kvs c.2 = some r) (hk2 : recordsAt t.kvs c2 = b2.map some)
    {fuel : Nat} (hf : t.num_elements < (fuel : Int)) :
    ∃ l', HashTable_Remove fuel t r.key =
        .ok ({ t with buckets := t.buckets.set i l', kvs := release t.kvs c.2,
                      num_elements := t.num_elements - 1 }, some r) ∧
      l'.Rep (c1 ++ c2) ∧
      TInv { t with buckets := t.buckets.set i l', kvs := release t.kvs c.2,
                    num_elements := t.num_elements - 1 } (bs.set i (b1 ++ b2)) ∧
      absRemove t.num_buckets bs r.key = bs.set i (b1 ++ b2) ∧
      (∀ d ∈ c1 ++ c2, d.2 ≠ c.2) := by
  have hi : r.key % t.num_buckets = i := hT.abs.home i _ hb r (by simp)
  have hhome : homeChain t.num_buckets bs r.key = b1 ++ r :: b2 := by
    unfold homeChain; rw [hi, hb]; rfl
  have hnd : ((b1 ++ r :: b2).map HTKeyValue_t.key).Nodup := hT.abs.nodup _ (List.getElem?_mem hb)
  have h1 : ∀ r' ∈ b1, r'.key ≠ r.key := by
    intro r' hr' he
    simp only [List.map_append, List.map_cons] at hnd
    exact (List.nodup_append.1 hnd).2.2 (List.mem_map_of_mem _ hr')
      (by rw [he]; exact List.mem_cons_self _ _)
  have h2 : ∀ r' ∈ b2, r'.key ≠ r.key := by
    intro r' hr' he
    simp only [List.map_append, List.map_cons] at hnd
    exact (List.nodup_cons.1 (List.nodup_append.1 hnd).2.1).1
      (by rw [← he]; exact List.mem_map_of_mem _ hr')
  have hlk : absLookup t.num_buckets bs r.key = some r := by
    unfold absLookup; rw [hhome]; exact find_key_split h1 rfl
  have hrem : absRemove t.num_buckets bs r.key = bs.set i (b1 ++ b2) := by
    unfold absRemove; rw [hhome, hi, eraseP_key_split h1 rfl]
  have hib : i < bs.length := (List.getElem?_eq_some_iff.1 hb).1
  have habs := absInv_remove hT.nb_pos (hT.rep.1.symm.trans hT.len) hT.abs r.key
  rw [hlk, hrem] at habs
  have hlen : ((c1 ++ c :: c2).length : Int) ≤ t.num_elements := by
    have e : recordsAt t.kvs (c1 ++ c :: c2) = (b1 ++ r :: b2).map some := by
      simp [hk1, hkc, hk2]
    rw [recordsAt_length e, hT.abs.count]
    exact_mod_cast length_le_sum hb
  have hf1 : c1.length < fuel := by simp at hlen; omega
  have e1 := addr_ne_of_key_ne hk1 h1 hkc rfl
  have e2 := addr_ne_of_key_ne hk2 h2 hkc rfl
  have hr0 : l.Rep ([] ++ (c1 ++ c :: c2)) := hr
  obtain ⟨l', hloop, hr'⟩ := remove_loop_found t i r hr0 e1 hf1
  have hr'' : l'.Rep (c1 ++ c2) := hr'
  refine ⟨l', ?_, hr'', ⟨hT.nb_pos, by simp [hT.len], ?_, by simpa using habs⟩, hrem, ?_⟩
  · unfold HashTable_Remove
    rw [hashKey_eq hT.nb_pos, ok_bind, hi, bucketAt_eq hl, ok_bind,
      findKey_found hr hk1 hkc h1 rfl hf1]
    simp only [ok_bind, deref_some hkc, LLIterator_Allocate, hr.head_eq, hloop]
  · refine trep_update hT.rep hib rfl ?_ ?_
    · refine ⟨_, hr'', ?_, ?_⟩
      · simp only [recordsAt_append, List.map_append]
        rw [@recordsAt_congr t.kvs _ _ (fun d hd => release_other _ (e1 d hd)),
          @recordsAt_congr t.kvs _ _ (fun d hd => release_other _ (e2 d hd)), hk1, hk2]
      · intro d hd
        obtain ⟨cells, hrc, hkc', hbrk⟩ := hT.rep.2 i l _ hl hb
        have := rep_cells_unique hrc hr
        subst this
        apply hbrk
        simp only [List.mem_append, List.mem_cons] at hd ⊢
        tauto
    · intro j l0 b0 hj hl0 hb0
      refine chainRep_frame (hT.rep.2 j l0 b0 hl0 hb0) ?_ (le_refl _)
      intro p r0 _ hr0 hpr
      have hne : p ≠ c.2 := by
        intro he
        rw [he, hkc] at hpr
        cases hpr
        have := hT.abs.home j b0 hb0 _ hr0
        exact hj (this.symm.trans hi)
      show release t.kvs c.2 p = some r0
      rw [release_other _ hne, hpr]
  · intro d hd
    rcases List.mem_append.1 hd with h | h
    · exact e1 d h
    · exact e2 d h


/-- The removal through a table iterator positioned at a known cell. -/
theorem iter_remove_spec {t : HashTable} {bs : List (List HTKeyValue_t)} (hT : TInv t bs)
    {i : Nat} {l : LinkedList} {c1 c2 : List Cell} {c : Cell}
    {b1 b2 : List HTKeyValue_t} {r : HTKeyValue_t}
    (hl : t.buckets[i]? = some l) (hb : bs[i]? = some (b1 ++ r :: b2))
    (hr : l.Rep (c1 ++ c :: c2)) (hk1 : recordsAt t.kvs c1 = b1.map some)
    (hkc : t.kvs c.2 = some r) (hk2 : recordsAt t.kvs c2 = b2.map some)
    {fuel : Nat} (hf : t.num_elements < (fuel : Int)) :
    ∃ it1 t', HTIterator_Get t ⟨(i : Int), some ⟨some c.1⟩⟩ = .ok (some r) ∧
      HTIterator_Next t ⟨(i : Int), some ⟨some c.1⟩⟩ =
        .ok (it1, decide (b2 ++ (bs.drop (i + 1)).flatten ≠ [])) ∧
      HTIterator_Remove fuel t ⟨(i : Int), some ⟨some c.1⟩⟩ = .ok (t', it1, some r) ∧
      HashTable_Remove fuel t r.key = .ok (t', some r) ∧
      TInv t' (absRemove t.num_buckets bs r.key) ∧ t'.num_buckets = t.num_buckets ∧
      t'.num_elements = t.num_elements - 1 ∧
      IterRem t bs it1 (b2 ++ (bs.drop (i + 1)).flatten) ∧
      IterRem t' (absRemove t.num_buckets bs r.key) it1 (b2 ++ (bs.drop (i + 1)).flatten) := by
  obtain ⟨l', hrem, hr', hT', habs, hne⟩ := remove_at_spec hT hl hb hr hk1 hkc hk2 hf
  have hib : i < bs.length := (List.getElem?_eq_some_iff.1 hb).1
  have hil : i < t.buckets.length := (List.getElem?_eq_some_iff.1 hl).1
  have hit : IterRem t bs ⟨(i : Int), some ⟨some c.1⟩⟩
      (r :: b2 ++ (bs.drop (i + 1)).flatten) :=
    Or.inr ⟨i, l, c1, c, c2, b1, r, b2, rfl, hl, hb, hr, hk1, hkc, hk2, rfl⟩
  obtain ⟨hv, hg, _⟩ := iterRem_step hT hit
  have hch : iterChain t ⟨(i : Int), some ⟨some c.1⟩⟩ = .ok l := by
    have : ¬ ((i : Int) < 0) := by omega
    simp [iterChain, this, bucketAt_eq hl]
  rw [habs] at *
  have hnext : ∃ it1, HTIterator_Next t ⟨(i : Int), some ⟨some c.1⟩⟩ =
        .ok (it1, decide (b2 ++ (bs.drop (i + 1)).flatten ≠ [])) ∧
      IterRem t bs it1 (b2 ++ (bs.drop (i + 1)).flatten) ∧
      IterRem { t with buckets := t.buckets.set i l', kvs := release t.kvs c.2,
                       num_elements := t.num_elements - 1 } (bs.set i (b1 ++ b2)) it1
        (b2 ++ (bs.drop (i + 1)).flatten) := by
    unfold HTIterator_Next
    simp only [hv, Bool.not_true, Bool.false_eq_true, if_false, hch, ok_bind, next_at hr]
    cases c2 with
    | cons d c2 =>
      cases b2 with
      | nil => simp at hk2
      | cons r2 b2 =>
        simp only [recordsAt_cons, List.map_cons, List.cons.injEq] at hk2
        refine ⟨⟨(i : Int), some ⟨some d.1⟩⟩, by simp, Or.inr ?_, Or.inr ?_⟩
        · exact ⟨i, l, c1 ++ [c], d, c2, b1 ++ [r], r2, b2, rfl, hl, by simpa using hb,
            by simpa using hr, by simp [hk1, hkc], hk2.1, hk2.2, rfl⟩
        · refine ⟨i, l', c1, d, c2, b1, r2, b2, rfl, by simp [hil], by simp [hib], hr', ?_, ?_,
            ?_, ?_⟩
          · rw [← hk1]
            exact recordsAt_congr (fun e he => release_other _ (hne e (by simp [he])))
          · show release t.kvs c.2 d.2 = some r2
            rw [release_other _ (hne d (by simp)), hk2.1]
          · rw [← hk2.2]
            exact recordsAt_congr (fun e he => release_other _ (hne e (by simp [he])))
          · rw [drop_set_lt _ _ (Nat.lt_succ_self i)]
    | nil =>
      cases b2 with
      | cons r2 b2 => simp at hk2
      | nil =>
        have hst : ((i : Int) + 1).toNat = i + 1 := by omega
        have hlen : (i + 1) + (t.num_buckets - (i + 1)) = bs.length := by
          have := hT.rep.1
          have := hT.len
          omega
        simp only [firstAddr_nil, Option.isSome_none, Bool.false_eq_true, if_false, hst,
          List.nil_append]
        rcases scan_spec hT.rep _ _ hlen with ⟨h1, h2⟩ | ⟨j, b, h1, hj, h3, h4, h5⟩
        · exact ⟨⟨INVALID_IDX, none⟩, by simp [h1, h2], Or.inl ⟨h2, rfl⟩, Or.inl ⟨h2, rfl⟩⟩
        · obtain ⟨l2, hl2, hit2⟩ := iterRem_enter hT.rep h3 h4
          have hji : i ≠ j := by omega
          have h3' : (bs.set i (b1 ++ []))[j]? = some b := by
            rw [List.getElem?_set]; simp [hji, h3]
          obtain ⟨l3, hl3, hit3⟩ := iterRem_enter hT'.rep h3' h4
          have hl23 : l3 = l2 := by
            have e : bucketAt (t.buckets.set i l') j = bucketAt t.buckets j := by
              unfold bucketAt; rw [List.getElem?_set]; simp [hji]
            have hl3' : bucketAt (t.buckets.set i l') j = .ok l3 := hl3
            rw [e, hl2] at hl3'
            cases hl3'
            rfl
          subst hl23
          refine ⟨⟨(j : Int), some (LLIterator_Allocate l3)⟩, by simp [h1, hl2, h5, h4], ?_, ?_⟩
          · rw [h5]; exact hit2
          · rw [h5]
            rw [drop_set_lt _ _ (by omega : i < j + 1)] at hit3
            exact hit3
  obtain ⟨it1, hnx, hit1, hit1'⟩ := hnext
  refine ⟨it1, _, hg, hnx, ?_, hrem, hT', rfl, rfl, hit1, hit1'⟩
  unfold HTIterator_Remove
  simp [hg, hnx, hrem]

/-! ## The contract of the list: pop -/

theorem listOf_rep (xs : List LLPayload_t) :
    ∃ cells, (listOf xs).Rep cells ∧ cells.map Prod.snd = xs := by
  induction xs with
  | nil => exact ⟨[], rep_allocate, rfl⟩
  | cons x xs ih =>
    obtain ⟨cells, hr, hc⟩ := ih
    obtain ⟨l', hp, hr'⟩ := push_rep hr x
    refine ⟨((listOf xs).brk, x) :: cells, ?_, by simp [hc]⟩
    simp only [listOf, hp]
    exact hr'

theorem listOf_wf (xs : List LLPayload_t) : (listOf xs).WF := by
  obtain ⟨cells, hr, _⟩ := listOf_rep xs
  exact ⟨cells, hr⟩

theorem emptyTable_tinv {n : Nat} (hn : 0 < n) :
    HashTable_Allocate n = .ok (emptyTable n) ∧ TInv (emptyTable n) (List.replicate n []) := by
  obtain ⟨t, ht, hT, _, _⟩ := allocate_tinv hn
  have hpos : (n : Int) > 0 := by exact_mod_cast hn
  have : t = emptyTable n := by
    simp [HashTable_Allocate, hpos] at ht
    exact ht.symm
  subst this
  exact ⟨ht, hT⟩

/-- Whatever the fuel, a table that a run of insertions returns satisfies the
invariant. -/
theorem insertAll_sound (fuel : Nat) (kvs : List HTKeyValue_t) :
    ∀ {t t' : HashTable} {bs : List (List HTKeyValue_t)}, TInv t bs →
      insertAll fuel kvs t = .ok t' → ∃ bs', TInv t' bs' := by
  induction kvs with
  | nil =>
    intro t t' bs hT h
    cases h
    exact ⟨bs, hT⟩
  | cons kv kvs ih =>
    intro t t' bs hT h
    simp only [insertAll] at h
    cases hi : HashTable_Insert fuel t kv with
    | error e => simp [hi] at h
    | ok p =>
      obtain ⟨t1, o⟩ := p
      simp only [hi, ok_bind] at h
      obtain ⟨bs1, hT1⟩ := insert_sound hT hi
      exact ih hT1 h

/-- A run of insertions on a table on which the products of `MaybeResize` stay exact
returns. -/
theorem insertAll_tinv (fuel : Nat) (kvs : List HTKeyValue_t) :
    ∀ {t : HashTable} {bs : List (List HTKeyValue_t)}, TInv t bs →
      3 * (t.num_buckets : Int) ≤ 2147483647 →
      9 * (t.num_elements + kvs.length) ≤ 2147483647 →
      t.num_elements + kvs.length ≤ (fuel : Int) →
      ∃ t' bs', insertAll fuel kvs t = .ok t' ∧ TInv t' bs' ∧
        t'.num_elements ≤ t.num_elements + kvs.length := by
  induction kvs with
  | nil => intro t bs hT _ _ _; exact ⟨t, bs, rfl, hT, by simp⟩
  | cons kv kvs ih =>
    intro t bs hT h3 h9 hf
    simp only [List.length_cons, Nat.cast_add, Nat.cast_one] at hf h9
    obtain ⟨t1, bs1, hi, hT1, _, hn1, _, _, h31⟩ := insert_spec hT ⟨h3, by omega⟩ kv fuel
      (by omega)
    have hle : t1.num_elements ≤ t.num_elements + 1 := by
      rw [hn1]; split_ifs <;> omega
    obtain ⟨t', bs', hrec, hT', hn'⟩ := ih hT1 h31 (by omega) (by omega)
    refine ⟨t', bs', by simp [insertAll, hi, hrec], hT', ?_⟩
    simp only [List.length_cons, Nat.cast_add, Nat.cast_one]
    omega

theorem tableOf_inv {fuel n : Nat} (hn : 0 < n) (kvs : List HTKeyValue_t)
    (_ : kvs.length ≤ fuel) : (tableOf fuel n kvs).Inv := by
  unfold tableOf
  cases hr : insertAll fuel kvs (emptyTable n) with
  | error e => exact (inv_of_tinv (emptyTable_tinv hn).2).1
  | ok t' =>
    obtain ⟨bs', hT'⟩ := insertAll_sound fuel kvs (emptyTable_tinv hn).2 hr
    exact (inv_of_tinv hT').1

/-- C10. On a well-formed list `LinkedList_Pop` returns false exactly when the list
is empty, and then leaves it as it is; on a list of payloads `x :: xs` it returns
`x` and leaves a well-formed list of payloads `xs` with the count decremented; and
after `LinkedList_Push(x)` it returns `x` and restores the sequence. -/
theorem LinkedList_Pop_spec (l : LinkedList) (h : l.WF) :
    ∃ l' r, LinkedList_Pop l = .ok (l', r) ∧ l'.WF ∧
      (r = none ↔ LinkedList_NumElements l = 0) ∧
      (LinkedList_NumElements l = 0 ↔ l.toList = []) ∧
      (r = none → l' = l) ∧
      (∀ x xs, l.toList = x :: xs →
        r = some x ∧ l'.toList = xs ∧ l'.num_elements = l.num_elements - 1) ∧
      (∀ x, ∃ l1 l2, LinkedList_Push l x = .ok l1 ∧ LinkedList_Pop l1 = .ok (l2, some x) ∧
        l2.WF ∧ l2.toList = l.toList ∧ l2.num_elements = l.num_elements) := by
  obtain ⟨cells, hr⟩ := h
  have hpush : ∀ x, ∃ l1 l2, LinkedList_Push l x = .ok l1 ∧
      LinkedList_Pop l1 = .ok (l2, some x) ∧ l2.WF ∧ l2.toList = l.toList ∧
      l2.num_elements = l.num_elements := by
    intro x
    obtain ⟨l1, hp, hr1⟩ := push_rep hr x
    obtain ⟨l2, hpop, hr2, hn2⟩ := pop_rep_cons hr1
    refine ⟨l1, l2, hp, hpop, ⟨cells, hr2⟩, by rw [toList_rep hr2, toList_rep hr], ?_⟩
    rw [hr2.count, hr.count]
  cases cells with
  | nil =>
    have h0 : l.num_elements = 0 := by simpa using hr.count
    refine ⟨l, none, pop_rep_nil hr, ⟨[], hr⟩, by simp [LinkedList_NumElements, h0],
      by simp [LinkedList_NumElements, h0, toList_rep hr], fun _ => rfl, ?_, hpush⟩
    intro x xs hx
    rw [toList_rep hr] at hx
    simp at hx
  | cons c cells =>
    obtain ⟨l', hpop, hr', hn'⟩ := pop_rep_cons hr
    have h0 : l.num_elements ≠ 0 := by rw [hr.count]; simp; omega
    refine ⟨l', some c.2, hpop, ⟨cells, hr'⟩, by simp [LinkedList_NumElements, h0],
      by simp [LinkedList_NumElements, h0, toList_rep hr], fun h => by simp at h, ?_, hpush⟩
    intro x xs hx
    rw [toList_rep hr] at hx
    simp only [List.map_cons, List.cons.injEq] at hx
    exact ⟨by rw [hx.1], by rw [toList_rep hr', hx.2], hn'⟩

/-- C10 at the list of payloads 3, 1, 2. -/
theorem LinkedList_Pop_spec_witness :
    (listOf [3, 1, 2]).toList = [3, 1, 2] ∧
    ∃ l' r, LinkedList_Pop (listOf [3, 1, 2]) = .ok (l', r) ∧ l'.WF ∧
      (r = none ↔ LinkedList_NumElements (listOf [3, 1, 2]) = 0) ∧
      (LinkedList_NumElements (listOf [3, 1, 2]) = 0 ↔ (listOf [3, 1, 2]).toList = []) ∧
      (r = none → l' = listOf [3, 1, 2]) ∧
      (∀ x xs, (listOf [3, 1, 2]).toList = x :: xs →
        r = some x ∧ l'.toList = xs ∧ l'.num_elements = (listOf [3, 1, 2]).num_elements - 1) ∧
      (∀ x, ∃ l1 l2, LinkedList_Push (listOf [3, 1, 2]) x = .ok l1 ∧
        LinkedList_Pop l1 = .ok (l2, some x) ∧
        l2.WF ∧ l2.toList = (listOf [3, 1, 2]).toList ∧
        l2.num_elements = (listOf [3, 1, 2]).num_elements) :=
  ⟨by decide, LinkedList_Pop_spec (listOf [3, 1, 2]) (listOf_wf [3, 1, 2])⟩

/-! ## Proofs: the `int` products of `MaybeResize` out of range -/

/-- On the empty table of 800000000 buckets `MaybeResize` does not return at once:
`3 * num_buckets` is 2400000000, as an `int` -1894967296, and `0 < -1894967296` fails. -/
theorem overflow_test :
    toInt32 (3 * ((emptyTable 800000000).num_buckets : Int)) = -1894967296 ∧
    ¬ (emptyTable 800000000).num_elements
        < toInt32 (3 * ((emptyTable 800000000).num_buckets : Int)) := by
  constructor <;> decide

/-- On the empty table of 800000000 buckets the argument of the `HashTable_Allocate`
of `MaybeResize` is negative, and `Verify333(num_buckets > 0)` fails: `num_buckets * 9`
is 7200000000, as an `int` -1389934592. -/
theorem overflow_allocate :
    toInt32 (((emptyTable 800000000).num_buckets : Int) * 9) = -1389934592 ∧
    HashTable_Allocate (toInt32 (((emptyTable 800000000).num_buckets : Int) * 9))
      = .error .verify := by
  have h : toInt32 (((emptyTable 800000000).num_buckets : Int) * 9) = -1389934592 := by decide
  refine ⟨h, ?_⟩
  rw [h, HashTable_Allocate, if_neg (by decide)]

theorem maybeResize_overflow (fuel : Nat) :
    MaybeResize (fuel + 1) (emptyTable 800000000) = .error .verify := by
  rw [maybeResize_succ _ _ overflow_test.2, overflow_allocate.2]
  rfl

theorem insert_overflow (fuel : Nat) (kv : HTKeyValue_t) :
    HashTable_Insert (fuel + 1) (emptyTable 800000000) kv = .error .verify := by
  rw [HashTable_Insert, maybeResize_overflow]
  rfl

theorem insert_overflow_zero (kv : HTKeyValue_t) :
    HashTable_Insert 0 (emptyTable 800000000) kv = .error .outOfFuel := by
  rw [HashTable_Insert, MaybeResize, if_neg overflow_test.2]
  rfl

/-- The empty table of 800000000 buckets is the one that `HashTable_Allocate(800000000)`
makes, and it satisfies the invariant. -/
theorem overflow_table :
    HashTable_Allocate 800000000 = .ok (emptyTable 800000000) ∧ (emptyTable 800000000).Inv :=
  ⟨(emptyTable_tinv (n := 800000000) (by decide)).1,
   (inv_of_tinv (emptyTable_tinv (n := 800000000) (by decide)).2).1⟩

/-! ## The contract of the table: C1, C2, C4, C9 -/

theorem find_same_table {fuel : Nat} {t t' : HashTable} {k : HTKey_t}
    {r : Option HTKeyValue_t} (h : HashTable_Find fuel t k = .ok (t', r)) : t' = t := by
  unfold HashTable_Find at h
  cases h1 : HashKeyToBucketNum t k with
  | error e => rw [h1] at h; cases h
  | ok bucket =>
    rw [h1, ok_bind] at h
    cases h2 : bucketAt t.buckets bucket with
    | error e => rw [h2] at h; cases h
    | ok chain =>
      rw [h2, ok_bind] at h
      cases h3 : FindKey fuel t.kvs chain k with
      | error e => rw [h3] at h; cases h
      | ok o =>
        rw [h3, ok_bind] at h
        cases o with
        | none => cases h; rfl
        | some kv =>
          simp only at h
          cases h4 : deref t.kvs (some kv) with
          | error e => rw [h4] at h; cases h
          | ok p =>
            rw [h4, ok_bind] at h
            cases h
            rfl

/-- C1, at the empty table of 800000000 buckets, which `HashTable_Allocate(800000000)`
makes and which satisfies the invariant: `HashTable_Insert(k, v)` does not return a
table.  `MaybeResize` takes the resize branch, as the `int` product
`3 * num_buckets` is -1894967296, and the `Verify333(num_buckets > 0)` of
`HashTable_Allocate` fails on the `int` product `num_buckets * 9`, -1389934592.  There
is no table in which `HashTable_Find(k)` could return `(k, v)`. -/
theorem HashTable_Insert_overflow_aborts :
    HashTable_Allocate 800000000 = .ok (emptyTable 800000000) ∧
    (emptyTable 800000000).Inv ∧
    toInt32 (3 * ((emptyTable 800000000).num_buckets : Int)) = -1894967296 ∧
    toInt32 (((emptyTable 800000000).num_buckets : Int) * 9) = -1389934592 ∧
    (∀ (fuel : Nat) (k : HTKey_t) (v : HTValue_t),
      HashTable_Insert (fuel + 1) (emptyTable 800000000) ⟨k, v⟩ = .error .verify) ∧
    (∀ (k : HTKey_t) (v : HTValue_t),
      HashTable_Insert 0 (emptyTable 800000000) ⟨k, v⟩ = .error .outOfFuel) :=
  ⟨overflow_table.1, overflow_table.2, overflow_test.1, overflow_allocate.1,
   fun fuel k v => insert_overflow fuel ⟨k, v⟩, fun k v => insert_overflow_zero ⟨k, v⟩⟩

/-- The contract of C1 on a table on which the `int` products of `MaybeResize` are
exact.  On such a table that satisfies the invariant, with or without a resize: after
`HashTable_Insert(k, v)`, `HashTable_Find(k)` returns the pair `(k, v)`, a
`HashTable_Remove(k)` then returns `(k, v)`, and `HashTable_Find(k)` after it
returns false. -/
theorem HashTable_insert_find_remove (t : HashTable) (h : t.Inv) (hfit : t.Fits)
    (k : HTKey_t) (v : HTValue_t)
    (fuel : Nat) (hf : t.num_elements + 1 < (fuel : Int)) :
    ∃ t1 old t2, HashTable_Insert fuel t ⟨k, v⟩ = .ok (t1, old) ∧
      HashTable_Find fuel t1 k = .ok (t1, some ⟨k, v⟩) ∧
      HashTable_Remove fuel t1 k = .ok (t2, some ⟨k, v⟩) ∧
      HashTable_Find fuel t2 k = .ok (t2, none) := by
  have hT := tinv_of_inv h
  obtain ⟨t1, bs1, hi, hT1, hlk1, hn1, _, _⟩ := insert_spec hT hfit ⟨k, v⟩ fuel (by omega)
  have hle : t1.num_elements < (fuel : Int) := by
    rw [hn1]; split_ifs <;> omega
  have hk : absLookup t1.num_buckets bs1 k = some ⟨k, v⟩ := by rw [hlk1]; simp
  obtain ⟨t2, hrm, hT2, hnb2, hn2, _⟩ := remove_spec hT1 k _ hle
  have hle2 : t2.num_elements < (fuel : Int) := by
    rw [hn2]; split_ifs <;> omega
  refine ⟨t1, _, t2, hi, ?_, ?_, ?_⟩
  · rw [find_spec hT1 k hle, hk]
  · rw [hrm, hk]
  · rw [find_spec hT2 k hle2, hnb2,
      absLookup_remove hT1.nb_pos (hT1.rep.1.symm.trans hT1.len) hT1.abs]
    simp

/-- The contract of C1 at a table of one bucket and three elements, where the
insertion resizes. -/
theorem HashTable_insert_find_remove_witness :
    (3 * ((tableOf 9 1 [⟨1, 10⟩, ⟨2, 20⟩, ⟨3, 30⟩]).num_buckets : Int)
      ≤ (tableOf 9 1 [⟨1, 10⟩, ⟨2, 20⟩, ⟨3, 30⟩]).num_elements) ∧
    ∃ t1 old t2,
      HashTable_Insert 9 (tableOf 9 1 [⟨1, 10⟩, ⟨2, 20⟩, ⟨3, 30⟩]) ⟨7, 70⟩ = .ok (t1, old) ∧
      HashTable_Find 9 t1 7 = .ok (t1, some ⟨7, 70⟩) ∧
      HashTable_Remove 9 t1 7 = .ok (t2, some ⟨7, 70⟩) ∧
      HashTable_Find 9 t2 7 = .ok (t2, none) :=
  ⟨by decide, HashTable_insert_find_remove (tableOf 9 1 [⟨1, 10⟩, ⟨2, 20⟩, ⟨3, 30⟩])
    (tableOf_inv (by decide) _ (by decide)) (by decide) 7 70 9 (by decide)⟩

/-- C2, at the empty table of 800000000 buckets, which satisfies the invariant: the
first of the two insertions of a key does not return a table, whatever the key and
the values, so the two insertions in sequence do not return.  `MaybeResize` does not
return at once although the table holds no element, and fails the
`Verify333(num_buckets > 0)` of `HashTable_Allocate`. -/
theorem HashTable_Insert_twice_overflow :
    (emptyTable 800000000).Inv ∧ HashTable_NumElements (emptyTable 800000000) = 0 ∧
    ∀ (fuel : Nat) (k : HTKey_t) (v1 v2 : HTValue_t),
      MaybeResize (fuel + 1) (emptyTable 800000000) = .error .verify ∧
      (HashTable_Insert (fuel + 1) (emptyTable 800000000) ⟨k, v1⟩ >>= fun p =>
        HashTable_Insert (fuel + 1) p.1 ⟨k, v2⟩) = .error .verify :=
  ⟨overflow_table.2, rfl, fun fuel k v1 _ =>
    ⟨maybeResize_overflow fuel, by rw [insert_overflow fuel ⟨k, v1⟩]; rfl⟩⟩

/-- The contract of C2 on a table on which the `int` products of `MaybeResize` are
exact, also with one more element.  On such a table that satisfies the invariant, the
second of two insertions of a key returns true with the pair of the first, leaves the
element count as it was before it, and `HashTable_Find` then returns the second
value. -/
theorem HashTable_insert_twice (t : HashTable) (h : t.Inv) (hfit : t.Fits)
    (hfit1 : 9 * (t.num_elements + 1) ≤ 2147483647) (k : HTKey_t) (v1 v2 : HTValue_t)
    (fuel : Nat) (hf : t.num_elements + 1 < (fuel : Int)) :
    ∃ t1 old t2, HashTable_Insert fuel t ⟨k, v1⟩ = .ok (t1, old) ∧
      HashTable_Insert fuel t1 ⟨k, v2⟩ = .ok (t2, some ⟨k, v1⟩) ∧
      HashTable_NumElements t2 = HashTable_NumElements t1 ∧
      HashTable_Find fuel t2 k = .ok (t2, some ⟨k, v2⟩) := by
  have hT := tinv_of_inv h
  obtain ⟨t1, bs1, hi, hT1, hlk1, hn1, _, _, h31⟩ := insert_spec hT hfit ⟨k, v1⟩ fuel (by omega)
  have hle : t1.num_elements < (fuel : Int) := by
    rw [hn1]; split_ifs <;> omega
  have hle9 : 9 * t1.num_elements ≤ 2147483647 := by
    rw [hn1]; split_ifs <;> omega
  have hk : absLookup t1.num_buckets bs1 k = some ⟨k, v1⟩ := by rw [hlk1]; simp
  obtain ⟨t2, bs2, hi2, hT2, hlk2, hn2, _, _⟩ := insert_spec hT1 ⟨h31, hle9⟩ ⟨k, v2⟩ _ hle
  simp only [hk, Option.isSome_some, if_true] at hi2 hn2
  refine ⟨t1, _, t2, hi, hi2, hn2, ?_⟩
  rw [find_spec hT2 k (by omega), hlk2]
  simp

/-- The contract of C2 at a table of one bucket and two elements, where the second
insertion resizes. -/
theorem HashTable_insert_twice_witness :
    ∃ t1 old t2,
      HashTable_Insert 9 (tableOf 9 1 [⟨1, 10⟩, ⟨2, 20⟩]) ⟨7, 70⟩ = .ok (t1, old) ∧
      HashTable_Insert 9 t1 ⟨7, 71⟩ = .ok (t2, some ⟨7, 70⟩) ∧
      HashTable_NumElements t2 = HashTable_NumElements t1 ∧
      HashTable_Find 9 t2 7 = .ok (t2, some ⟨7, 71⟩) :=
  HashTable_insert_twice (tableOf 9 1 [⟨1, 10⟩, ⟨2, 20⟩]) (tableOf_inv (by decide) _ (by decide))
    (by decide) (by decide) 7 70 71 9 (by decide)


theorem homeChain_subset {nb : Nat} {bs : List (List HTKeyValue_t)} {k : HTKey_t}
    {r : HTKeyValue_t} (h : r ∈ homeChain nb bs k) : r ∈ bs.flatten := by
  unfold homeChain at h
  cases hb : bs[k % nb]? with
  | none => simp [hb] at h
  | some b =>
    simp only [hb, Option.getD_some] at h
    exact List.mem_flatten.2 ⟨b, List.getElem?_mem hb, h⟩

theorem iterRem_on {t : HashTable} {bs : List (List HTKeyValue_t)} {it : HTIterator}
    {rest : List HTKeyValue_t} (h : IterRem t bs it rest) : it.On t := by
  rcases h with ⟨_, rfl⟩ | ⟨i, l, c1, c, c2, b1, r, b2, rfl, hl, _, hr, _, _, _, _⟩
  · left; rfl
  · right
    exact ⟨i, l, _, c.1, rfl, hl, hr, by simp⟩

theorem allocate_on {t : HashTable} (h : t.Inv) {it : HTIterator}
    (ha : HTIterator_Allocate t = .ok it) : it.On t := by
  obtain ⟨it', h1, h2⟩ := allocate_spec (tinv_of_inv h)
  rw [ha] at h1
  cases h1
  exact iterRem_on h2

theorem recordsAt_split_cells {kvs : Nat → Option HTKeyValue_t} {c1 c2 : List Cell} {c : Cell}
    {b : List HTKeyValue_t} (h : recordsAt kvs (c1 ++ c :: c2) = b.map some) :
    ∃ b1 r b2, b = b1 ++ r :: b2 ∧ recordsAt kvs c1 = b1.map some ∧ kvs c.2 = some r
      ∧ recordsAt kvs c2 = b2.map some := by
  have h' := h.symm
  simp only [recordsAt_append, recordsAt_cons] at h'
  rw [List.map_eq_append_iff] at h'
  obtain ⟨b1, rest, rfl, h1, h2⟩ := h'
  rw [List.map_eq_cons_iff] at h2
  obtain ⟨r, b2, rfl, h3, h4⟩ := h2
  exact ⟨b1, r, b2, rfl, h1.symm, h3.symm, h4.symm⟩

/-- The cell and the record a valid iterator on a table is positioned at. -/
theorem position_of_on {t : HashTable} {bs : List (List HTKeyValue_t)} (hT : TInv t bs)
    {it : HTIterator} (hon : it.On t) (hv : HTIterator_IsValid it = true) :
    ∃ (i : Nat) (l : LinkedList) (c1 : List Cell) (c : Cell) (c2 : List Cell)
      (b1 : List HTKeyValue_t) (r : HTKeyValue_t) (b2 : List HTKeyValue_t),
      it = ⟨(i : Int), some ⟨some c.1⟩⟩ ∧ t.buckets[i]? = some l ∧
      bs[i]? = some (b1 ++ r :: b2) ∧ l.Rep (c1 ++ c :: c2) ∧
      recordsAt t.kvs c1 = b1.map some ∧ t.kvs c.2 = some r ∧
      recordsAt t.kvs c2 = b2.map some := by
  rcases hon with h | ⟨i, l, cells, a, rfl, hl, hr, ha⟩
  · rw [h] at hv; cases hv
  · obtain ⟨c, hc, rfl⟩ := List.mem_map.1 ha
    obtain ⟨c1, c2, rfl⟩ := List.append_of_mem hc
    have hi : i < bs.length := by
      rw [← hT.rep.1]; exact (List.getElem?_eq_some_iff.1 hl).1
    have hb := List.getElem?_eq_getElem hi
    obtain ⟨cells', hr', hk, _⟩ := hT.rep.2 i l _ hl hb
    have := rep_cells_unique hr' hr
    subst this
    obtain ⟨b1, r, b2, hbe, hk1, hkc, hk2⟩ := recordsAt_split_cells hk
    exact ⟨i, l, c1, c, c2, b1, r, b2, rfl, hl, by rw [hb, hbe], hr, hk1, hkc, hk2⟩

theorem get_invalid {t : HashTable} {it : HTIterator} (h : HTIterator_IsValid it = false) :
    HTIterator_Get t it = .ok none := by
  simp [HTIterator_Get, h]

theorem iterator_remove_invalid {fuel : Nat} {t : HashTable} {it : HTIterator}
    (h : HTIterator_IsValid it = false) : HTIterator_Remove fuel t it = .ok (t, it, none) := by
  simp [HTIterator_Remove, get_invalid h]

/-- C4. The table invariant (the element count is the sum of the chain lengths, a
record of key `k` is in the chain of index `k mod num_buckets`, no chain holds a key
twice) holds after `HashTable_Allocate` and is preserved by `HashTable_Insert`, with
or without a resize, by `HashTable_Remove`, by `HTIterator_Remove` and by
`MaybeResize` itself.  `HashTable_Allocate` returns for every positive argument,
`HashTable_Remove` and `HTIterator_Remove` return on every table that satisfies the
invariant.  Every table that `HashTable_Insert` or `MaybeResize` returns on a table
that satisfies the invariant satisfies it, whatever the table and the fuel; they
return when the `int` products of `MaybeResize` are exact on the table. -/
theorem HashTable_Inv_preserved :
    (∀ n : Int, 0 < n → ∃ t, HashTable_Allocate n = .ok t ∧ t.Inv) ∧
    (∀ (t : HashTable) (kv : HTKeyValue_t) (fuel : Nat) (t' : HashTable)
      (old : Option HTKeyValue_t), t.Inv →
      HashTable_Insert fuel t kv = .ok (t', old) → t'.Inv) ∧
    (∀ (t : HashTable) (kv : HTKeyValue_t) (fuel : Nat), t.Inv → t.Fits →
      t.num_elements < (fuel : Int) →
      ∃ t' old, HashTable_Insert fuel t kv = .ok (t', old) ∧ t'.Inv) ∧
    (∀ (t : HashTable) (k : HTKey_t) (fuel : Nat), t.Inv → t.num_elements < (fuel : Int) →
      ∃ t' r, HashTable_Remove fuel t k = .ok (t', r) ∧ t'.Inv) ∧
    (∀ (t : HashTable) (it : HTIterator) (fuel : Nat), t.Inv → it.On t →
      t.num_elements < (fuel : Int) →
      ∃ t' it' r, HTIterator_Remove fuel t it = .ok (t', it', r) ∧ t'.Inv) ∧
    (∀ (t : HashTable) (fuel : Nat) (t' : HashTable), t.Inv →
      MaybeResize fuel t = .ok t' → t'.Inv) ∧
    (∀ (t : HashTable) (fuel : Nat), t.Inv → t.Fits → t.num_elements < (fuel : Int) →
      ∃ t', MaybeResize fuel t = .ok t' ∧ t'.Inv) := by
  refine ⟨?_, ?_, ?_, ?_, ?_, ?_, ?_⟩
  · intro n hn
    obtain ⟨t, ha, hT, _⟩ := allocate_tinv (n := n.toNat) (by omega)
    rw [Int.toNat_of_nonneg (le_of_lt hn)] at ha
    exact ⟨t, ha, (inv_of_tinv hT).1⟩
  · intro t kv fuel t' old h hi
    obtain ⟨bs', hT'⟩ := insert_sound (tinv_of_inv h) hi
    exact (inv_of_tinv hT').1
  · intro t kv fuel h hfit hf
    obtain ⟨t', bs', hi, hT', _⟩ := insert_spec (tinv_of_inv h) hfit kv _ hf
    exact ⟨t', _, hi, (inv_of_tinv hT').1⟩
  · intro t k fuel h hf
    obtain ⟨t', hr, hT', _⟩ := remove_spec (tinv_of_inv h) k _ hf
    exact ⟨t', _, hr, (inv_of_tinv hT').1⟩
  · intro t it fuel h hon hf
    cases hv : HTIterator_IsValid it with
    | false => exact ⟨t, it, none, iterator_remove_invalid hv, h⟩
    | true =>
      obtain ⟨i, l, c1, c, c2, b1, r, b2, rfl, hl, hb, hr, hk1, hkc, hk2⟩ :=
        position_of_on (tinv_of_inv h) hon hv
      obtain ⟨it1, t', _, _, hrem, _, hT', _⟩ :=
        iter_remove_spec (tinv_of_inv h) hl hb hr hk1 hkc hk2 hf
      exact ⟨t', it1, _, hrem, (inv_of_tinv hT').1⟩
  · intro t fuel t' h hm
    obtain ⟨bs', hT'⟩ := maybeResize_sound fuel t t' _ (tinv_of_inv h) hm
    exact (inv_of_tinv hT').1
  · intro t fuel h hfit hf
    obtain ⟨t', bs', hmr, hT', _⟩ := maybeResize_spec fuel t _ (tinv_of_inv h) hfit hf
    exact ⟨t', hmr, (inv_of_tinv hT').1⟩

/-- C4 at a fresh table of four buckets, at an insertion that resizes, at a removal,
at a removal through an iterator and at a resize. -/
theorem HashTable_Inv_preserved_witness :
    (∃ t, HashTable_Allocate 4 = .ok t ∧ t.Inv) ∧
    (∃ t' old, HashTable_Insert 9 (tableOf 9 1 [⟨1, 10⟩, ⟨2, 20⟩, ⟨3, 30⟩]) ⟨7, 70⟩
      = .ok (t', old) ∧ t'.Inv) ∧
    (∃ t' r, HashTable_Remove 9 (tableOf 9 4 [⟨1, 10⟩, ⟨5, 50⟩, ⟨9, 90⟩]) 5 = .ok (t', r)
      ∧ t'.Inv) ∧
    (∃ t' it' r, HTIterator_Remove 9 (tableOf 9 4 [⟨1, 10⟩, ⟨5, 50⟩, ⟨9, 90⟩])
      ⟨1, some ⟨some 2⟩⟩ = .ok (t', it', r) ∧ t'.Inv) ∧
    (∃ t', MaybeResize 9 (tableOf 9 1 [⟨1, 10⟩, ⟨2, 20⟩, ⟨3, 30⟩]) = .ok t' ∧ t'.Inv) :=
  ⟨HashTable_Inv_preserved.1 4 (by decide),
   HashTable_Inv_preserved.2.2.1 _ _ 9 (tableOf_inv (by decide) _ (by decide)) (by decide)
     (by decide),
   HashTable_Inv_preserved.2.2.2.1 _ 5 9 (tableOf_inv (by decide) _ (by decide)) (by decide),
   HashTable_Inv_preserved.2.2.2.2.1 _ _ 9 (tableOf_inv (by decide) _ (by decide))
     (allocate_on (tableOf_inv (by decide) _ (by decide)) (by decide)) (by decide),
   HashTable_Inv_preserved.2.2.2.2.2.2 _ 9 (tableOf_inv (by decide) _ (by decide)) (by decide)
     (by decide)⟩

/-- C9. `HashTable_Find` hands back the table it was given, whatever it finds; on a
table that satisfies the invariant it returns, and for a key that no chain holds
`HashTable_Find` and `HashTable_Remove` return false and leave the table, and so
its element count, as it was. -/
theorem HashTable_Find_no_effect (t : HashTable) (k : HTKey_t) (fuel : Nat) :
    (∀ t' r, HashTable_Find fuel t k = .ok (t', r) → t' = t) ∧
    (t.Inv → t.num_elements < (fuel : Int) →
      (∃ r, HashTable_Find fuel t k = .ok (t, r)) ∧
      ((∀ r ∈ t.chains.flatten, r.key ≠ k) →
        HashTable_Find fuel t k = .ok (t, none) ∧
        HashTable_Remove fuel t k = .ok (t, none))) := by
  refine ⟨fun t' r h => find_same_table h, ?_⟩
  intro h hf
  have hT := tinv_of_inv h
  refine ⟨⟨_, find_spec hT k hf⟩, ?_⟩
  intro hno
  have hlk : absLookup t.num_buckets t.chains k = none :=
    find_key_none (fun r hr => hno r (homeChain_subset hr))
  obtain ⟨t', hrm, _, _, _, hsame⟩ := remove_spec hT k _ hf
  rw [hsame hlk, hlk] at hrm
  exact ⟨by rw [find_spec hT k hf, hlk], hrm⟩

/-- C9 at the table of keys 1, 5, 9 in four buckets and the absent key 13 of
their bucket. -/
theorem HashTable_Find_no_effect_witness :
    (∀ r ∈ (tableOf 9 4 [⟨1, 10⟩, ⟨5, 50⟩, ⟨9, 90⟩]).chains.flatten, r.key ≠ 13) ∧
    (∃ r, HashTable_Find 9 (tableOf 9 4 [⟨1, 10⟩, ⟨5, 50⟩, ⟨9, 90⟩]) 13
      = .ok (tableOf 9 4 [⟨1, 10⟩, ⟨5, 50⟩, ⟨9, 90⟩], r)) ∧
    HashTable_Find 9 (tableOf 9 4 [⟨1, 10⟩, ⟨5, 50⟩, ⟨9, 90⟩]) 13
      = .ok (tableOf 9 4 [⟨1, 10⟩, ⟨5, 50⟩, ⟨9, 90⟩], none) ∧
    HashTable_Remove 9 (tableOf 9 4 [⟨1, 10⟩, ⟨5, 50⟩, ⟨9, 90⟩]) 13
      = .ok (tableOf 9 4 [⟨1, 10⟩, ⟨5, 50⟩, ⟨9, 90⟩], none) :=
  have hw := (HashTable_Find_no_effect (tableOf 9 4 [⟨1, 10⟩, ⟨5, 50⟩, ⟨9, 90⟩]) 13 9).2
    (tableOf_inv (by decide) _ (by decide)) (by decide)
  ⟨by decide, hw.1, hw.2 (by decide)⟩

/-! ## The contract of the table: C7, C8 -/

set_option maxRecDepth 100000

theorem mem_iff_find_of_nodup {L : List HTKeyValue_t} (hnd : (L.map HTKeyValue_t.key).Nodup)
    (kv : HTKeyValue_t) : L.find? (fun r => r.key = kv.key) = some kv ↔ kv ∈ L := by
  constructor
  · intro h
    exact List.mem_of_find?_eq_some h
  · intro h
    rcases chain_cases L kv.key hnd with hno | ⟨b1, r, b2, hb, hr, h1, h2⟩
    · exact absurd rfl (hno kv h)
    · rw [hb] at h ⊢
      rw [find_key_split h1 hr]
      simp only [List.mem_append, List.mem_cons] at h
      rcases h with h | h | h
      · exact absurd rfl (h1 kv h)
      · rw [h]
      · exact absurd rfl (h2 kv h)

theorem lookup_iff_mem {t : HashTable} {bs : List (List HTKeyValue_t)} (hT : TInv t bs)
    (kv : HTKeyValue_t) : absLookup t.num_buckets bs kv.key = some kv ↔ kv ∈ bs.flatten := by
  rw [← find_flatten hT.nb_pos (hT.rep.1.symm.trans hT.len) hT.abs]
  exact mem_iff_find_of_nodup (keys_flatten_nodup hT.abs) kv

/-- C7. On a table that satisfies the invariant, the iteration from
`HTIterator_Allocate` by `HTIterator_Get` and `HTIterator_Next` while
`HTIterator_IsValid` visits as many pairs as the table has elements, no key twice,
and the pairs visited are the pairs of the chains, bucket after bucket: those that
`HashTable_Find` returns. -/
theorem HTIterator_visits_all (t : HashTable) (h : t.Inv) (fuel : Nat)
    (hf : t.num_elements < (fuel : Int)) :
    ∃ it visited, HTIterator_Allocate t = .ok it ∧ HTIterator_visit t fuel it = .ok visited ∧
      (visited.length : Int) = HashTable_NumElements t ∧
      (visited.map HTKeyValue_t.key).Nodup ∧ visited = t.chains.flatten ∧
      ∀ kv, kv ∈ visited ↔ HashTable_Find fuel t kv.key = .ok (t, some kv) := by
  have hT := tinv_of_inv h
  obtain ⟨it, ha, hit⟩ := allocate_spec hT
  have hlen := hT.num_eq_flatten
  refine ⟨it, _, ha, visit_spec hT hit (by omega), hlen.symm,
    keys_flatten_nodup hT.abs, rfl, ?_⟩
  intro kv
  rw [find_spec hT kv.key hf, ← lookup_iff_mem hT kv]
  constructor
  · intro h; rw [h]
  · intro h; simpa using h

/-- C7 at the table of keys 1, 5, 9 in four buckets, all in bucket 1. -/
theorem HTIterator_visits_all_witness :
    (tableOf 9 4 [⟨1, 10⟩, ⟨5, 50⟩, ⟨9, 90⟩]).chains = [[], [⟨9, 90⟩, ⟨5, 50⟩, ⟨1, 10⟩], [], []] ∧
    ∃ it visited, HTIterator_Allocate (tableOf 9 4 [⟨1, 10⟩, ⟨5, 50⟩, ⟨9, 90⟩]) = .ok it ∧
      HTIterator_visit (tableOf 9 4 [⟨1, 10⟩, ⟨5, 50⟩, ⟨9, 90⟩]) 9 it = .ok visited ∧
      (visited.length : Int) = HashTable_NumElements (tableOf 9 4 [⟨1, 10⟩, ⟨5, 50⟩, ⟨9, 90⟩]) ∧
      (visited.map HTKeyValue_t.key).Nodup ∧
      visited = (tableOf 9 4 [⟨1, 10⟩, ⟨5, 50⟩, ⟨9, 90⟩]).chains.flatten ∧
      ∀ kv, kv ∈ visited ↔
        HashTable_Find 9 (tableOf 9 4 [⟨1, 10⟩, ⟨5, 50⟩, ⟨9, 90⟩]) kv.key
          = .ok (tableOf 9 4 [⟨1, 10⟩, ⟨5, 50⟩, ⟨9, 90⟩], some kv) :=
  ⟨by decide, HTIterator_visits_all (tableOf 9 4 [⟨1, 10⟩, ⟨5, 50⟩, ⟨9, 90⟩])
    (tableOf_inv (by decide) _ (by decide)) 9 (by decide)⟩


theorem iterRem_get {t : HashTable} {bs : List (List HTKeyValue_t)} (hT : TInv t bs)
    {it : HTIterator} {rest : List HTKeyValue_t} (h : IterRem t bs it rest) :
    HTIterator_Get t it = .ok rest.head? ∧ HTIterator_IsValid it = decide (rest ≠ []) := by
  cases rest with
  | nil =>
    rw [iterRem_nil_invalid h]
    exact ⟨get_invalid rfl, rfl⟩
  | cons r rest =>
    obtain ⟨hv, hg, _⟩ := iterRem_step hT h
    exact ⟨hg, by simp [hv]⟩

/-- C8. On a table that satisfies the invariant and an iterator on it:
`HTIterator_Remove` on an iterator that is not valid returns false and changes
nothing; on a valid one it returns the pair the iterator is at, whose key is then
not found, the element count drops by one, every other key is found as before,
and the iterator is the one `HTIterator_Next` makes, valid exactly when that
call returned true, positioned in the new table at the pair it had reached in the
old one, with the same pairs left to visit. -/
theorem HTIterator_Remove_spec (t : HashTable) (h : t.Inv) (it : HTIterator) (hon : it.On t)
    (fuel : Nat) (hf : t.num_elements < (fuel : Int)) :
    (HTIterator_IsValid it = false → HTIterator_Remove fuel t it = .ok (t, it, none)) ∧
    (HTIterator_IsValid it = true →
      ∃ kv it1 moved t', HTIterator_Get t it = .ok (some kv) ∧
        HTIterator_Next t it = .ok (it1, moved) ∧
        HTIterator_Remove fuel t it = .ok (t', it1, some kv) ∧ t'.Inv ∧
        HashTable_Find fuel t' kv.key = .ok (t', none) ∧
        HashTable_NumElements t' = HashTable_NumElements t - 1 ∧
        (∀ k, k ≠ kv.key → ∀ r, HashTable_Find fuel t k = .ok (t, r) →
          HashTable_Find fuel t' k = .ok (t', r)) ∧
        it1.On t' ∧ HTIterator_IsValid it1 = moved ∧
        HTIterator_Get t' it1 = HTIterator_Get t it1 ∧
        (∃ rest, HTIterator_visit t fuel it1 = .ok rest ∧
          HTIterator_visit t' fuel it1 = .ok rest)) := by
  refine ⟨fun hv => iterator_remove_invalid hv, ?_⟩
  intro hv
  have hT := tinv_of_inv h
  obtain ⟨i, l, c1, c, c2, b1, r, b2, rfl, hl, hb, hr, hk1, hkc, hk2⟩ :=
    position_of_on hT hon hv
  obtain ⟨it1, t', hg, hnx, hrem, _, hT', hnb', hn', hit, hit'⟩ :=
    iter_remove_spec hT hl hb hr hk1 hkc hk2 hf
  have hf' : t'.num_elements < (fuel : Int) := by omega
  have hlkr : ∀ k, absLookup t'.num_buckets (absRemove t.num_buckets t.chains r.key) k =
      if k = r.key then none else absLookup t.num_buckets t.chains k := by
    intro k
    rw [hnb']
    exact absLookup_remove hT.nb_pos (hT.rep.1.symm.trans hT.len) hT.abs r.key k
  have hrestlen : ((b2 ++ (t.chains.drop (i + 1)).flatten).length : Int) < fuel := by
    have e1 := hT.num_eq_flatten
    have hi : i < t.chains.length := (List.getElem?_eq_some_iff.1 hb).1
    have hsplit : t.chains = t.chains.take i ++ t.chains[i] :: t.chains.drop (i + 1) := by
      rw [← List.drop_eq_getElem_cons hi, List.take_append_drop]
    have hbi : t.chains[i] = b1 ++ r :: b2 := by
      have := List.getElem?_eq_getElem hi
      rw [hb] at this
      exact (Option.some.inj this).symm
    rw [hsplit, hbi] at e1
    simp only [List.flatten_append, List.flatten_cons, List.length_append, List.length_cons]
      at e1 ⊢
    push_cast at e1 ⊢
    omega
  refine ⟨r, it1, _, t', hg, hnx, hrem, (inv_of_tinv hT').1, ?_, hn', ?_, iterRem_on hit',
    (iterRem_get hT' hit').2, ?_, ⟨_, visit_spec hT hit (by exact_mod_cast hrestlen),
      visit_spec hT' hit' (by exact_mod_cast hrestlen)⟩⟩
  · rw [find_spec hT' r.key hf', hlkr]
    simp
  · intro k hk r0 hfk
    rw [find_spec hT k hf] at hfk
    rw [find_spec hT' k hf', hlkr]
    simp only [hk, if_false]
    cases hfk
    rfl
  · rw [(iterRem_get hT' hit').1, (iterRem_get hT hit).1]

/-- C8 at the table of keys 1, 5, 9, 2 in four buckets and the iterator at its
first pair. -/
theorem HTIterator_Remove_spec_witness :
    HTIterator_IsValid (⟨1, some ⟨some 2⟩⟩ : HTIterator) = true ∧
    ∃ kv it1 moved t',
      HTIterator_Get (tableOf 9 4 [⟨1, 10⟩, ⟨5, 50⟩, ⟨9, 90⟩, ⟨2, 20⟩]) ⟨1, some ⟨some 2⟩⟩
        = .ok (some kv) ∧
      HTIterator_Next (tableOf 9 4 [⟨1, 10⟩, ⟨5, 50⟩, ⟨9, 90⟩, ⟨2, 20⟩]) ⟨1, some ⟨some 2⟩⟩
        = .ok (it1, moved) ∧
      HTIterator_Remove 9 (tableOf 9 4 [⟨1, 10⟩, ⟨5, 50⟩, ⟨9, 90⟩, ⟨2, 20⟩])
        ⟨1, some ⟨some 2⟩⟩ = .ok (t', it1, some kv) ∧ t'.Inv ∧
      HashTable_Find 9 t' kv.key = .ok (t', none) ∧
      HashTable_NumElements t'
        = HashTable_NumElements (tableOf 9 4 [⟨1, 10⟩, ⟨5, 50⟩, ⟨9, 90⟩, ⟨2, 20⟩]) - 1 ∧
      (∀ k, k ≠ kv.key → ∀ r,
        HashTable_Find 9 (tableOf 9 4 [⟨1, 10⟩, ⟨5, 50⟩, ⟨9, 90⟩, ⟨2, 20⟩]) k
          = .ok (tableOf 9 4 [⟨1, 10⟩, ⟨5, 50⟩, ⟨9, 90⟩, ⟨2, 20⟩], r) →
        HashTable_Find 9 t' k = .ok (t', r)) ∧
      it1.On t' ∧ HTIterator_IsValid it1 = moved ∧
      HTIterator_Get t' it1
        = HTIterator_Get (tableOf 9 4 [⟨1, 10⟩, ⟨5, 50⟩, ⟨9, 90⟩, ⟨2, 20⟩]) it1 ∧
      (∃ rest, HTIterator_visit (tableOf 9 4 [⟨1, 10⟩, ⟨5, 50⟩, ⟨9, 90⟩, ⟨2, 20⟩]) 9 it1
          = .ok rest ∧
        HTIterator_visit t' 9 it1 = .ok rest) :=
  ⟨by decide, (HTIterator_Remove_spec (tableOf 9 4 [⟨1, 10⟩, ⟨5, 50⟩, ⟨9, 90⟩, ⟨2, 20⟩])
    (tableOf_inv (by decide) _ (by decide)) ⟨1, some ⟨some 2⟩⟩
    (allocate_on (tableOf_inv (by decide) _ (by decide)) (by decide)) 9 (by decide)).2
    (by decide)⟩

/-! ## The contract of the table: C5, C3 -/

theorem insertAll_append (fuel : Nat) (a b : List HTKeyValue_t) (t : HashTable) :
    insertAll fuel (a ++ b) t = insertAll fuel a t >>= insertAll fuel b := by
  induction a generalizing t with
  | nil => rfl
  | cons kv a ih =>
    simp only [List.cons_append, insertAll]
    cases h : HashTable_Insert fuel t kv with
    | error e => rfl
    | ok p => simp [ih]

/-- Keys that the table misses, inserted while the table stays below three
elements a bucket: no resize, one more element each. -/
theorem insertAll_fresh (fuel : Nat) (kvs : List HTKeyValue_t) :
    ∀ {t : HashTable} {bs : List (List HTKeyValue_t)}, TInv t bs →
      (kvs.map HTKeyValue_t.key).Nodup →
      (∀ kv ∈ kvs, absLookup t.num_buckets bs kv.key = none) →
      t.num_elements + kvs.length ≤ 3 * (t.num_buckets : Int) →
      27 * (t.num_buckets : Int) ≤ 2147483647 →
      t.num_elements + kvs.length ≤ (fuel : Int) →
      ∃ t' bs', insertAll fuel kvs t = .ok t' ∧ TInv t' bs' ∧
        t'.num_buckets = t.num_buckets ∧ t'.num_elements = t.num_elements + kvs.length ∧
        ∀ k, absLookup t'.num_buckets bs' k =
          (kvs.find? (fun r => r.key = k)).or (absLookup t.num_buckets bs k) := by
  induction kvs with
  | nil =>
    intro t bs hT _ _ _ _ _
    exact ⟨t, bs, rfl, hT, rfl, by simp, fun k => by simp⟩
  | cons kv kvs ih =>
    intro t bs hT hnd hfresh hlb h3 hf
    simp only [List.length_cons, Nat.cast_add, Nat.cast_one] at hlb hf
    simp only [List.map_cons, List.nodup_cons] at hnd
    obtain ⟨t1, bs1, hi, hT1, hlk1, hn1, hno1, _⟩ := insert_spec hT ⟨by omega, by omega⟩ kv fuel
      (by omega)
    have hnb1 := (hno1 (by omega)).1
    rw [hfresh kv (by simp)] at hn1
    simp only [Option.isSome_none, Bool.false_eq_true, if_false] at hn1
    obtain ⟨t', bs', hrec, hT', hnb', hn', hlk'⟩ := ih hT1 hnd.2
      (by
        intro kv' hkv'
        rw [hlk1]
        have hne : kv'.key ≠ kv.key := fun he => hnd.1 (he ▸ List.mem_map_of_mem _ hkv')
        simp only [hne, if_false]
        exact hfresh kv' (by simp [hkv']))
      (by rw [hnb1, hn1]; omega) (by rw [hnb1]; exact h3) (by rw [hn1]; omega)
    refine ⟨t', bs', by simp [insertAll, hi, hrec], hT', by rw [hnb', hnb1], ?_, ?_⟩
    · rw [hn', hn1]
      simp only [List.length_cons, Nat.cast_add, Nat.cast_one]
      omega
    · intro k
      rw [hlk', hlk1, List.find?_cons]
      by_cases hk : k = kv.key
      · subst hk
        have : kvs.find? (fun r => r.key = kv.key) = none := by
          apply find_key_none
          intro r hr he
          exact hnd.1 (he ▸ List.mem_map_of_mem _ hr)
        simp [this]
      · have : ¬ kv.key = k := fun h => hk h.symm
        simp [hk, this]

/-- C5, at the bucket count 800000000: the fresh table of 800000000 buckets holds no
element, fewer than `3n`, yet `MaybeResize` does not leave it as it is, and the first
insertion of any sequence of records does not return a table: the `int` products
`3 * num_buckets` and `num_buckets * 9` are negative, the resize branch is taken and
the `Verify333(num_buckets > 0)` of `HashTable_Allocate` fails.  There is no table of
`9n` buckets, and `9n` = 7200000000 is no `int`. -/
theorem HashTable_resize_overflow :
    HashTable_Allocate 800000000 = .ok (emptyTable 800000000) ∧
    HashTable_NumElements (emptyTable 800000000) = 0 ∧
    (2147483647 : Int) < 9 * 800000000 ∧
    (∀ fuel : Nat, MaybeResize (fuel + 1) (emptyTable 800000000) = .error .verify) ∧
    (∀ (fuel : Nat) (kv : HTKeyValue_t) (kvs : List HTKeyValue_t),
      insertAll (fuel + 1) (kv :: kvs) (emptyTable 800000000) = .error .verify) :=
  ⟨overflow_table.1, rfl, by decide, maybeResize_overflow, fun fuel kv kvs => by
    rw [insertAll, insert_overflow]
    rfl⟩

/-- The contract of C5 for a bucket count `n` with `27 n` in the range of `int`.  For
such an `n > 0` and `3n + 1` records of pairwise distinct keys
inserted into a fresh table of `n` buckets: the table of the first `j` records
has `n` buckets and `j` elements for every `j <= 3n`, `MaybeResize` leaves it as
it is for `j < 3n` and makes a table of `9n` buckets of it for `j = 3n`, at the
start of the last insertion; the table ends with `9n` buckets and `3n + 1`
elements, and every record inserted is found. -/
theorem HashTable_resize_once (n : Nat) (hn : 0 < n) (hfit : 27 * (n : Int) ≤ 2147483647)
    (kvs : List HTKeyValue_t)
    (hlen : kvs.length = 3 * n + 1) (hnd : (kvs.map HTKeyValue_t.key).Nodup) (fuel : Nat)
    (hf : 3 * n + 1 < fuel) :
    ∃ t0, HashTable_Allocate n = .ok t0 ∧
      (∀ j, j ≤ 3 * n → ∃ tj, insertAll fuel (kvs.take j) t0 = .ok tj ∧
        tj.num_buckets = n ∧ HashTable_NumElements tj = (j : Int) ∧
        (j < 3 * n → MaybeResize fuel tj = .ok tj) ∧
        (j = 3 * n → ∃ t', MaybeResize fuel tj = .ok t' ∧ t'.num_buckets = 9 * n)) ∧
      ∃ t, insertAll fuel kvs t0 = .ok t ∧ t.num_buckets = 9 * n ∧
        HashTable_NumElements t = ((3 * n + 1 : Nat) : Int) ∧
        ∀ kv ∈ kvs, HashTable_Find fuel t kv.key = .ok (t, some kv) := by
  obtain ⟨ha, hT0⟩ := emptyTable_tinv hn
  have hprefix : ∀ j, j ≤ 3 * n → ∃ tj bsj, insertAll fuel (kvs.take j) (emptyTable n) = .ok tj ∧
      TInv tj bsj ∧ tj.num_buckets = n ∧ tj.num_elements = (j : Int) ∧
      ∀ k, absLookup tj.num_buckets bsj k = (kvs.take j).find? (fun r => r.key = k) := by
    intro j hj
    have hl : (kvs.take j).length = j := by rw [List.length_take]; omega
    obtain ⟨tj, bsj, hr, hTj, hnbj, hnj, hlkj⟩ := insertAll_fresh fuel (kvs.take j) hT0
      (hnd.sublist ((List.take_sublist _ _).map _))
      (fun kv _ => absLookup_replicate _ _ _)
      (by rw [hl]; show (0 : Int) + _ ≤ 3 * ((n : Nat) : Int); omega)
      (by show 27 * ((n : Nat) : Int) ≤ 2147483647; omega)
      (by rw [hl]; show (0 : Int) + _ ≤ _; omega)
    refine ⟨tj, bsj, hr, hTj, hnbj, by rw [hnj, hl]; show (0 : Int) + _ = _; simp, ?_⟩
    intro k
    rw [hlkj, absLookup_replicate]
    simp
  refine ⟨emptyTable n, ha, ?_, ?_⟩
  · intro j hj
    obtain ⟨tj, bsj, hr, hTj, hnb, hne, _⟩ := hprefix j hj
    refine ⟨tj, hr, hnb, hne, ?_, ?_⟩
    · intro hlt
      have hfj : tj.Fits := ⟨by rw [hnb]; omega, by rw [hne]; omega⟩
      exact maybeResize_noop _ _ (by rw [hfj.test, hne, hnb]; exact_mod_cast hlt)
    · intro heq
      obtain ⟨t', _, hmr, _, _, _, _, hre, _⟩ := maybeResize_spec fuel tj bsj hTj
        ⟨by rw [hnb]; omega, by rw [hne]; omega⟩
        (by rw [hne]; exact_mod_cast (by omega : j < fuel))
      refine ⟨t', hmr, ?_⟩
      rw [← hnb]
      exact (hre (by rw [hne, hnb, heq]; push_cast; omega)).2.2
        (by rw [hne, hnb, heq]; push_cast; omega)
  · obtain ⟨t1, bs1, hr1, hT1, hnb1, hn1, hlk1⟩ := hprefix (3 * n) (le_refl _)
    have hdrop : ∃ last, kvs.drop (3 * n) = [last] := by
      have : (kvs.drop (3 * n)).length = 1 := by rw [List.length_drop]; omega
      exact List.length_eq_one.1 this
    obtain ⟨last, hlast⟩ := hdrop
    have hsplit : kvs = kvs.take (3 * n) ++ [last] := by
      rw [← hlast, List.take_append_drop]
    have hnd' := hnd
    rw [hsplit, List.map_append, List.nodup_append] at hnd'
    have hfreshlast : absLookup t1.num_buckets bs1 last.key = none := by
      rw [hlk1]
      apply find_key_none
      intro r hr he
      exact hnd'.2.2 (List.mem_map_of_mem _ hr) (by simp [he])
    obtain ⟨t, bs, hi, hT, hlk, hne, _, hre, _⟩ := insert_spec hT1
      ⟨by rw [hnb1]; omega, by rw [hn1]; push_cast; omega⟩ last fuel
      (by rw [hn1]; omega)
    rw [hfreshlast] at hne hi
    simp only [Option.isSome_none, Bool.false_eq_true, if_false] at hne
    have hnb : t.num_buckets = 9 * n := by
      rw [← hnb1]
      exact (hre (by rw [hn1, hnb1]; push_cast; omega)).2 (by rw [hn1, hnb1]; push_cast; omega)
    have hcount : t.num_elements = ((3 * n + 1 : Nat) : Int) := by
      rw [hne, hn1]; push_cast; ring
    refine ⟨t, ?_, hnb, hcount, ?_⟩
    · conv_lhs => rw [hsplit]
      rw [insertAll_append, hr1]
      simp [insertAll, hi]
    · intro kv hkv
      rw [find_spec hT kv.key (by rw [hcount]; exact_mod_cast hf), hlk, hlk1]
      rw [hsplit] at hkv
      rcases List.mem_append.1 hkv with hm | hm
      · have hne' : kv.key ≠ last.key := by
          intro he
          exact hnd'.2.2 (List.mem_map_of_mem _ hm) (by simp [he])
        simp only [hne', if_false]
        rw [(mem_iff_find_of_nodup hnd'.1 kv).2 hm]
      · simp only [List.mem_singleton] at hm
        subst hm
        simp

/-- The contract of C5 at one bucket and the keys 1, 2, 3, 4. -/
theorem HashTable_resize_once_witness :
    ∃ t0, HashTable_Allocate 1 = .ok t0 ∧
      (∀ j, j ≤ 3 * 1 → ∃ tj,
        insertAll 9 (([⟨1, 10⟩, ⟨2, 20⟩, ⟨3, 30⟩, ⟨4, 40⟩] : List HTKeyValue_t).take j) t0
          = .ok tj ∧
        tj.num_buckets = 1 ∧ HashTable_NumElements tj = (j : Int) ∧
        (j < 3 * 1 → MaybeResize 9 tj = .ok tj) ∧
        (j = 3 * 1 → ∃ t', MaybeResize 9 tj = .ok t' ∧ t'.num_buckets = 9 * 1)) ∧
      ∃ t, insertAll 9 [⟨1, 10⟩, ⟨2, 20⟩, ⟨3, 30⟩, ⟨4, 40⟩] t0 = .ok t ∧
        t.num_buckets = 9 * 1 ∧ HashTable_NumElements t = ((3 * 1 + 1 : Nat) : Int) ∧
        ∀ kv ∈ ([⟨1, 10⟩, ⟨2, 20⟩, ⟨3, 30⟩, ⟨4, 40⟩] : List HTKeyValue_t),
          HashTable_Find 9 t kv.key = .ok (t, some kv) :=
  HashTable_resize_once 1 (by decide) (by decide) [⟨1, 10⟩, ⟨2, 20⟩, ⟨3, 30⟩, ⟨4, 40⟩]
    (by decide) (by decide) 9 (by decide)


theorem filter_key_none {m : List HTKeyValue_t} {k : HTKey_t} (h : ∀ r ∈ m, r.key ≠ k) :
    m.filter (fun r => r.key ≠ k) = m := by
  rw [List.filter_eq_self]
  intro r hr
  simpa using h r hr

theorem filter_key_split {b1 b2 : List HTKeyValue_t} {r : HTKeyValue_t} {k : HTKey_t}
    (h1 : ∀ r' ∈ b1, r'.key ≠ k) (hr : r.key = k) (h2 : ∀ r' ∈ b2, r'.key ≠ k) :
    (b1 ++ r :: b2).filter (fun r => r.key ≠ k) = b1 ++ b2 := by
  rw [List.filter_append, List.filter_cons, filter_key_none h1, filter_key_none h2]
  simp [hr]

theorem find_filter_ne (m : List HTKeyValue_t) {k k' : HTKey_t} (h : k' ≠ k) :
    (m.filter (fun r => r.key ≠ k)).find? (fun r => r.key = k') =
      m.find? (fun r => r.key = k') := by
  induction m with
  | nil => rfl
  | cons x m ih =>
    by_cases hx : x.key = k
    · have : ¬ x.key = k' := fun h2 => h (h2.symm.trans hx)
      rw [List.filter_cons_of_neg (by simpa using hx), List.find?_cons_of_neg _ (by simpa using this)]
      exact ih
    · rw [List.filter_cons_of_pos (by simpa using hx), List.find?_cons, List.find?_cons, ih]

theorem find_filter_eq (m : List HTKeyValue_t) (k : HTKey_t) :
    (m.filter (fun r => r.key ≠ k)).find? (fun r => r.key = k) = none := by
  apply find_key_none
  intro r hr
  simpa using (List.mem_filter.1 hr).2

theorem filter_key_length {m : List HTKeyValue_t} (hnd : (m.map HTKeyValue_t.key).Nodup)
    (k : HTKey_t) :
    ((m.filter (fun r => r.key ≠ k)).length : Int) =
      if (m.find? (fun r => r.key = k)).isSome then (m.length : Int) - 1 else m.length := by
  rcases chain_cases m k hnd with hno | ⟨b1, r, b2, hb, hr, h1, h2⟩
  · rw [filter_key_none hno, find_key_none hno]
    simp
  · rw [hb, filter_key_split h1 hr h2, find_key_split h1 hr]
    simp only [List.length_append, List.length_cons, Option.isSome_some, if_true]
    push_cast
    ring

theorem filter_key_nodup {m : List HTKeyValue_t} (hnd : (m.map HTKeyValue_t.key).Nodup)
    (k : HTKey_t) : ((m.filter (fun r => r.key ≠ k)).map HTKeyValue_t.key).Nodup :=
  hnd.sublist ((List.filter_sublist _).map _)

/-- A run of calls on a table that holds the finite map `m`. -/
theorem runOps_spec (fuel : Nat) (ops : List Op) :
    ∀ {t : HashTable} {bs : List (List HTKeyValue_t)} {m : List HTKeyValue_t}, TInv t bs →
      (m.map HTKeyValue_t.key).Nodup → t.num_elements = (m.length : Int) →
      (∀ k, absLookup t.num_buckets bs k = m.find? (fun r => r.key = k)) →
      m.length + ops.length < fuel →
      3 * (t.num_buckets : Int) ≤ 2147483647 →
      9 * ((m.length : Int) + ops.length) ≤ 2147483647 →
      ∃ t' bs', runOps fuel ops t = .ok t' ∧ TInv t' bs' ∧
        ((liveMap ops m).map HTKeyValue_t.key).Nodup ∧
        t'.num_elements = ((liveMap ops m).length : Int) ∧
        (liveMap ops m).length ≤ m.length + ops.length ∧
        ∀ k, absLookup t'.num_buckets bs' k = (liveMap ops m).find? (fun r => r.key = k) := by
  induction ops with
  | nil =>
    intro t bs m hT hnd hn hlk _ _ _
    exact ⟨t, bs, rfl, hT, hnd, hn, by simp [liveMap], hlk⟩
  | cons op ops ih =>
    intro t bs m hT hnd hn hlk hf h3 h9
    simp only [List.length_cons] at hf
    simp only [List.length_cons, Nat.cast_add, Nat.cast_one] at h9
    cases op with
    | insert kv =>
      obtain ⟨t1, bs1, hi, hT1, hlk1, hn1, _, _, h31⟩ := insert_spec hT
        ⟨h3, by rw [hn]; omega⟩ kv fuel
        (by rw [hn]; exact_mod_cast (by omega : m.length < fuel))
      have hfl := filter_key_length hnd kv.key
      have hnd1 : ((kv :: m.filter (fun r => r.key ≠ kv.key)).map HTKeyValue_t.key).Nodup := by
        simp only [List.map_cons, List.nodup_cons]
        refine ⟨?_, filter_key_nodup hnd _⟩
        intro hm
        obtain ⟨r, hr, he⟩ := List.mem_map.1 hm
        have := (List.mem_filter.1 hr).2
        simp at this
        exact this he
      have hcount : t1.num_elements =
          ((kv :: m.filter (fun r => r.key ≠ kv.key)).length : Int) := by
        rw [hn1, hlk, hn]
        simp only [List.length_cons, Nat.cast_add, Nat.cast_one, hfl]
        split_ifs <;> omega
      have hlen1 : (kv :: m.filter (fun r => r.key ≠ kv.key)).length ≤ m.length + 1 := by
        simp only [List.length_cons]
        have := List.length_filter_le (fun r : HTKeyValue_t => decide (r.key ≠ kv.key)) m
        omega
      obtain ⟨t', bs', hrec, hT', hnd', hn', hlen', hlk'⟩ := ih hT1 hnd1 hcount
        (by
          intro k
          rw [hlk1, hlk, List.find?_cons]
          by_cases hk : k = kv.key
          · simp [hk]
          · have : ¬ kv.key = k := fun h => hk h.symm
            simp only [hk, if_false, this, decide_False]
            rw [find_filter_ne _ hk])
        (by omega) h31 (by omega)
      refine ⟨t', bs', by simp [runOps, hi, hrec], hT', hnd', hn', ?_, hlk'⟩
      simp only [liveMap, List.length_cons]
      omega
    | remove key =>
      obtain ⟨t1, hr1, hT1, hnb1, hn1, _⟩ := remove_spec hT key fuel
        (by rw [hn]; exact_mod_cast (by omega : m.length < fuel))
      have hfl := filter_key_length hnd key
      have hcount : t1.num_elements = ((m.filter (fun r => r.key ≠ key)).length : Int) := by
        rw [hn1, hlk, hn, hfl]
      have hlen1 : (m.filter (fun r => r.key ≠ key)).length ≤ m.length :=
        List.length_filter_le _ m
      obtain ⟨t', bs', hrec, hT', hnd', hn', hlen', hlk'⟩ := ih hT1 (filter_key_nodup hnd key)
        hcount
        (by
          intro k
          rw [hnb1, absLookup_remove hT.nb_pos (hT.rep.1.symm.trans hT.len) hT.abs, hlk]
          by_cases hk : k = key
          · subst hk
            rw [find_filter_eq]
            simp
          · simp only [hk, if_false]
            rw [find_filter_ne _ hk])
        (by omega) (by rw [hnb1]; exact h3) (by omega)
      refine ⟨t', bs', by simp [runOps, hr1, hrec], hT', hnd', hn', ?_, hlk'⟩
      simp only [liveMap, List.length_cons]
      omega

/-- C3, at the fresh table of 800000000 buckets: a sequence of calls that starts
with a `HashTable_Insert` does not return a table, so there is no
`HashTable_NumElements` to equal the number of keys inserted and not removed, which
is one after the first call.  `MaybeResize` takes the resize branch on the empty
table and fails the `Verify333(num_buckets > 0)` of `HashTable_Allocate`. -/
theorem HashTable_count_overflow :
    HashTable_Allocate 800000000 = .ok (emptyTable 800000000) ∧
    (∀ kv : HTKeyValue_t, ((liveMap [Op.insert kv] []).map HTKeyValue_t.key).length = 1) ∧
    (∀ (fuel : Nat) (kv : HTKeyValue_t) (ops : List Op),
      runOps (fuel + 1) (Op.insert kv :: ops) (emptyTable 800000000) = .error .verify) :=
  ⟨overflow_table.1, fun _ => rfl, fun fuel kv ops => by
    rw [runOps, insert_overflow]
    rfl⟩

/-- The contract of C3 for a bucket count `n` with `3 n` in the range of `int` and a
sequence of calls nine times whose length is in the range of `int`.  After such a
sequence of `HashTable_Insert` and `HashTable_Remove` calls
on a fresh table, the table is the finite map of the records inserted and not
removed since: `HashTable_Find` returns the record of that map for every key,
so it succeeds exactly on the keys of the map, which are pairwise distinct, and
`HashTable_NumElements` is their number. -/
theorem HashTable_count_live_keys (n : Nat) (hn : 0 < n) (hfit : 3 * (n : Int) ≤ 2147483647)
    (ops : List Op) (hops : 9 * (ops.length : Int) ≤ 2147483647) (fuel : Nat)
    (hf : ops.length < fuel) :
    ∃ t0 t, HashTable_Allocate n = .ok t0 ∧ runOps fuel ops t0 = .ok t ∧ t.Inv ∧
      ((liveMap ops []).map HTKeyValue_t.key).Nodup ∧
      HashTable_NumElements t = (((liveMap ops []).map HTKeyValue_t.key).length : Int) ∧
      (∀ k, HashTable_Find fuel t k = .ok (t, (liveMap ops []).find? (fun r => r.key = k))) ∧
      (∀ k, (∃ kv, HashTable_Find fuel t k = .ok (t, some kv)) ↔
        k ∈ (liveMap ops []).map HTKeyValue_t.key) := by
  obtain ⟨ha, hT0⟩ := emptyTable_tinv hn
  obtain ⟨t, bs, hr, hT, hnd, hcount, hlen, hlk⟩ := runOps_spec fuel ops hT0
    (m := []) (by simp) rfl (fun k => absLookup_replicate _ _ _) (by simpa using hf)
    (by show 3 * ((n : Nat) : Int) ≤ 2147483647; exact hfit) (by simpa using hops)
  have hfuel : t.num_elements < (fuel : Int) := by
    rw [hcount]
    simp only [List.length_nil, Nat.zero_add] at hlen
    exact_mod_cast (by omega : (liveMap ops []).length < fuel)
  have hfind : ∀ k, HashTable_Find fuel t k =
      .ok (t, (liveMap ops []).find? (fun r => r.key = k)) := by
    intro k
    rw [find_spec hT k hfuel, hlk]
  refine ⟨emptyTable n, t, ha, hr, (inv_of_tinv hT).1, hnd, by rw [List.length_map]; exact hcount,
    hfind, ?_⟩
  intro k
  rw [hfind]
  constructor
  · rintro ⟨kv, hkv⟩
    have hs : (liveMap ops []).find? (fun r => r.key = k) = some kv :=
      (Prod.mk.inj (Except.ok.inj hkv)).2
    have hmem := List.mem_of_find?_eq_some hs
    have hkey := List.find?_some hs
    simp only [decide_eq_true_eq] at hkey
    exact hkey ▸ List.mem_map_of_mem _ hmem
  · intro hk
    obtain ⟨kv, hkv, rfl⟩ := List.mem_map.1 hk
    exact ⟨kv, by rw [(mem_iff_find_of_nodup hnd kv).2 hkv]⟩

/-- The contract of C3 at four buckets and a sequence of five calls. -/
theorem HashTable_count_live_keys_witness :
    liveMap [Op.insert ⟨1, 10⟩, Op.insert ⟨5, 50⟩, Op.insert ⟨1, 11⟩, Op.remove 5,
      Op.insert ⟨9, 90⟩] [] = [⟨9, 90⟩, ⟨1, 11⟩] ∧
    ∃ t0 t, HashTable_Allocate 4 = .ok t0 ∧
      runOps 9 [Op.insert ⟨1, 10⟩, Op.insert ⟨5, 50⟩, Op.insert ⟨1, 11⟩, Op.remove 5,
        Op.insert ⟨9, 90⟩] t0 = .ok t ∧ t.Inv ∧
      ((liveMap [Op.insert ⟨1, 10⟩, Op.insert ⟨5, 50⟩, Op.insert ⟨1, 11⟩, Op.remove 5,
        Op.insert ⟨9, 90⟩] []).map HTKeyValue_t.key).Nodup ∧
      HashTable_NumElements t = (((liveMap [Op.insert ⟨1, 10⟩, Op.insert ⟨5, 50⟩,
        Op.insert ⟨1, 11⟩, Op.remove 5, Op.insert ⟨9, 90⟩] []).map
          HTKeyValue_t.key).length : Int) ∧
      (∀ k, HashTable_Find 9 t k = .ok (t, (liveMap [Op.insert ⟨1, 10⟩, Op.insert ⟨5, 50⟩,
        Op.insert ⟨1, 11⟩, Op.remove 5, Op.insert ⟨9, 90⟩] []).find?
          (fun r => r.key = k))) ∧
      (∀ k, (∃ kv, HashTable_Find 9 t k = .ok (t, some kv)) ↔
        k ∈ (liveMap [Op.insert ⟨1, 10⟩, Op.insert ⟨5, 50⟩, Op.insert ⟨1, 11⟩, Op.remove 5,
          Op.insert ⟨9, 90⟩] []).map HTKeyValue_t.key) :=
  ⟨by decide, HashTable_count_live_keys 4 (by decide) (by decide) _ (by decide) 9 (by decide)⟩

/-! ## The contract of the list: append and slice (C11) -/

theorem append_rep {l : LinkedList} {cells : List Cell} (h : l.Rep cells) (x : LLPayload_t) :
    ∃ l', LinkedList_Append l x = .ok l' ∧ l'.Rep (cells ++ [(l.brk, x)])
      ∧ l'.num_elements = l.num_elements + 1 := by
  rcases eq_nil_or_snoc cells with rfl | ⟨pre, p, rfl⟩
  · have h0 : l.num_elements = 0 := by simpa using h.count
    refine ⟨_, by simp [LinkedList_Append, h0]; rfl, ?_, by simp [h0]⟩
    refine ⟨by simp, by simp, by simp [lastAddr], by simp, by simp, ?_⟩
    intro l1 c l2 hs
    cases l1 with
    | nil => simp at hs; obtain ⟨rfl, rfl⟩ := hs; simp
    | cons e l1 => simp at hs
  · have h' : l.Rep (pre ++ p :: []) := h
    have h0 : l.num_elements ≠ 0 := h'.num_ne_zero
    have ht : l.tail = some p.1 := by simpa using h.tail_eq
    have hfr : p.1 ≠ l.brk := by have := h.fresh p (by simp); omega
    have hn : l.nodes p.1 = some ⟨p.2, none, lastAddr pre⟩ := by simpa using h'.node_at
    have hd : deref (store l.nodes l.brk ⟨x, none, some p.1⟩) (some p.1)
        = .ok (p.1, ⟨p.2, none, lastAddr pre⟩) :=
      deref_some (by rw [store_other _ _ hfr, hn])
    refine ⟨_, by simp [LinkedList_Append, h0, ht, hd]; rfl, ?_, rfl⟩
    refine ⟨by simp [h.count]; omega, ?_, by simp, ?_, ?_, ?_⟩
    · show l.head = _
      rw [h.head_eq]
      cases pre <;> simp
    · have := h.nodup
      simp only [List.map_append, List.map_cons, List.map_nil] at this ⊢
      rw [List.nodup_append]
      refine ⟨this, by simp, ?_⟩
      intro a ha hb
      simp only [List.mem_singleton] at hb
      subst hb
      rw [← List.map_singleton, ← List.map_append] at ha
      obtain ⟨y, hy, hye⟩ := List.mem_map.1 ha
      have := h.fresh y hy
      omega
    · intro c hc
      show c.1 < l.brk + 1
      rcases List.mem_append.1 hc with hc | hc
      · have := h.fresh c hc
        omega
      · simp only [List.mem_singleton] at hc
        subst hc
        simp
    · intro l1 c l2 hs
      show store (store l.nodes l.brk _) p.1 _ c.1 = _
      rcases eq_nil_or_snoc l2 with rfl | ⟨L, b, rfl⟩
      · have := List.append_inj' hs (by simp)
        obtain ⟨rfl, hc⟩ := this
        simp only [List.cons.injEq, and_true] at hc
        subst hc
        simp [store_other _ _ hfr.symm]
      · have hs' : (pre ++ [p]) ++ [(l.brk, x)] = (l1 ++ c :: L) ++ [b] := by simpa using hs
        obtain ⟨hcells, hb⟩ := List.append_inj' hs' (by simp)
        simp only [List.cons.injEq, and_true] at hb
        subst hb
        have hc : c ∈ pre ++ [p] := by rw [hcells]; simp
        have h1 : c.1 ≠ l.brk := by have := h.fresh c hc; omega
        have hold := h.node l1 c L hcells
        by_cases hcp : c.1 = p.1
        · have hsp := split_unique h.nodup hcells (rfl : pre ++ [p] = pre ++ p :: []) hcp
          obtain ⟨rfl, rfl, rfl⟩ := hsp
          simp
        · rw [store_other _ _ hcp, store_other _ _ h1, hold]
          have hL : L ≠ [] := by
            rintro rfl
            have := List.append_inj' hcells (by simp)
            simp only [List.cons.injEq, and_true] at this
            exact hcp (by rw [this.2])
          simp [firstAddr_append_of_ne hL]

theorem slice_rep_nil {l : LinkedList} (h : l.Rep []) : LLSlice l = .ok (l, none) := by
  have h0 : l.num_elements = 0 := by simpa using h.count
  simp [LLSlice, h0]

theorem slice_rep_snoc {l : LinkedList} {c : Cell} {cells : List Cell}
    (h : l.Rep (cells ++ [c])) :
    ∃ l', LLSlice l = .ok (l', some c.2) ∧ l'.Rep cells
      ∧ l'.num_elements = l.num_elements - 1 := by
  have h' : l.Rep (cells ++ c :: []) := h
  have h0 := h'.num_ne_zero
  have hd : deref l.nodes l.tail = .ok (c.1, ⟨c.2, none, lastAddr cells⟩) := by
    rw [h.tail_eq, lastAddr_snoc]; exact deref_some (by simpa using h'.node_at)
  rcases eq_nil_or_snoc cells with rfl | ⟨pre, p, rfl⟩
  · have h1 : l.num_elements = 1 := h'.num_eq_one_iff.2 ⟨rfl, rfl⟩
    refine ⟨_, by simp [LLSlice, h1, hd, pure, Except.pure]; rfl, ?_, by simp [h1]⟩
    refine rep_erase h' (by simp [h1]) rfl rfl rfl ?_
    intro q d hq hqd
    simp [release_other _ hq, hqd]
  · have h1 : l.num_elements ≠ 1 := fun hx => by simpa using h'.num_eq_one_iff.1 hx
    have hpn : l.nodes p.1 = some ⟨p.2, some c.1, lastAddr pre⟩ := by
      simpa using h.node pre p [c] (by simp)
    have hd2 : deref l.nodes (some p.1) = .ok (p.1, ⟨p.2, some c.1, lastAddr pre⟩) :=
      deref_some hpn
    have hd' : deref l.nodes l.tail = .ok (c.1, ⟨c.2, none, some p.1⟩) := by simpa using hd
    refine ⟨{ l with tail := some p.1,
                     nodes := release (store l.nodes p.1 ⟨p.2, none, lastAddr pre⟩) c.1,
                     num_elements := l.num_elements - 1 },
      by simp [LLSlice, h0, h1, hd', hd2, pure, Except.pure], ?_, rfl⟩
    have hgoal : ∀ l' : LinkedList, l'.Rep ((pre ++ [p]) ++ []) → l'.Rep (pre ++ [p]) := by
      intro l' hx; simpa using hx
    refine hgoal _ (rep_erase h' rfl (by simp [h.head_eq, firstAddr_append_cons]) (by simp) rfl ?_)
    intro q dd hq hqd
    simp only [release_other _ hq]
    by_cases hqp : q = p.1
    · subst hqp
      rw [hpn] at hqd
      cases hqd
      simp
    · rw [store_other _ _ hqp, hqd]
      simp [hqp]

/-- C11. On a well-formed list `LLSlice` returns false exactly when the list is
empty, and then leaves it as it is; on a list of payloads `xs ++ [x]` it returns
`x` and leaves a well-formed list of payloads `xs` with the count decremented; and
after `LinkedList_Append(x)` it returns `x` and restores the sequence. -/
theorem LLSlice_spec (l : LinkedList) (h : l.WF) :
    ∃ l' r, LLSlice l = .ok (l', r) ∧ l'.WF ∧
      (r = none ↔ LinkedList_NumElements l = 0) ∧
      (LinkedList_NumElements l = 0 ↔ l.toList = []) ∧
      (r = none → l' = l) ∧
      (∀ xs x, l.toList = xs ++ [x] →
        r = some x ∧ l'.toList = xs ∧ l'.num_elements = l.num_elements - 1) ∧
      (∀ x, ∃ l1 l2, LinkedList_Append l x = .ok l1 ∧ l1.toList = l.toList ++ [x] ∧
        LLSlice l1 = .ok (l2, some x) ∧
        l2.WF ∧ l2.toList = l.toList ∧ l2.num_elements = l.num_elements) := by
  obtain ⟨cells, hr⟩ := h
  have happ : ∀ x, ∃ l1 l2, LinkedList_Append l x = .ok l1 ∧ l1.toList = l.toList ++ [x] ∧
      LLSlice l1 = .ok (l2, some x) ∧ l2.WF ∧ l2.toList = l.toList ∧
      l2.num_elements = l.num_elements := by
    intro x
    obtain ⟨l1, hp, hr1, _⟩ := append_rep hr x
    obtain ⟨l2, hsl, hr2, hn2⟩ := slice_rep_snoc hr1
    refine ⟨l1, l2, hp, by simp [toList_rep hr1, toList_rep hr], hsl, ⟨cells, hr2⟩,
      by rw [toList_rep hr2, toList_rep hr], ?_⟩
    rw [hr2.count, hr.count]
  rcases eq_nil_or_snoc cells with rfl | ⟨pre, c, rfl⟩
  · have h0 : l.num_elements = 0 := by simpa using hr.count
    refine ⟨l, none, slice_rep_nil hr, ⟨[], hr⟩, by simp [LinkedList_NumElements, h0],
      by simp [LinkedList_NumElements, h0, toList_rep hr], fun _ => rfl, ?_, happ⟩
    intro xs x hx
    rw [toList_rep hr] at hx
    simp at hx
  · obtain ⟨l', hsl, hr', hn'⟩ := slice_rep_snoc hr
    have hr0 : l.Rep (pre ++ c :: []) := hr
    have h0 : l.num_elements ≠ 0 := hr0.num_ne_zero
    refine ⟨l', some c.2, hsl, ⟨pre, hr'⟩, by simp [LinkedList_NumElements, h0],
      by simp [LinkedList_NumElements, h0, toList_rep hr], fun h => by simp at h, ?_, happ⟩
    intro xs x hx
    rw [toList_rep hr] at hx
    simp only [List.map_append, List.map_cons, List.map_nil] at hx
    obtain ⟨h1, h2⟩ := List.append_inj' hx (by simp)
    simp only [List.cons.injEq, and_true] at h2
    exact ⟨by rw [h2], by rw [toList_rep hr', h1], hn'⟩

/-- C11 at the list of payloads 3, 1, 2. -/
theorem LLSlice_spec_witness :
    (listOf [3, 1, 2]).toList = [3, 1] ++ [2] ∧
    ∃ l' r, LLSlice (listOf [3, 1, 2]) = .ok (l', r) ∧ l'.WF ∧
      (r = none ↔ LinkedList_NumElements (listOf [3, 1, 2]) = 0) ∧
      (LinkedList_NumElements (listOf [3, 1, 2]) = 0 ↔ (listOf [3, 1, 2]).toList = []) ∧
      (r = none → l' = listOf [3, 1, 2]) ∧
      (∀ xs x, (listOf [3, 1, 2]).toList = xs ++ [x] →
        r = some x ∧ l'.toList = xs ∧ l'.num_elements = (listOf [3, 1, 2]).num_elements - 1) ∧
      (∀ x, ∃ l1 l2, LinkedList_Append (listOf [3, 1, 2]) x = .ok l1 ∧
        l1.toList = (listOf [3, 1, 2]).toList ++ [x] ∧
        LLSlice l1 = .ok (l2, some x) ∧
        l2.WF ∧ l2.toList = (listOf [3, 1, 2]).toList ∧
        l2.num_elements = (listOf [3, 1, 2]).num_elements) :=
  ⟨by decide, LLSlice_spec (listOf [3, 1, 2]) (listOf_wf [3, 1, 2])⟩

/-! ## The contract of the list iterator: removal (C15, C16) -/

theorem walkAddrs_rep {l : LinkedList} {l1 l2 : List Cell} (h : l.Rep (l1 ++ l2)) (fuel : Nat)
    (hf : l2.length ≤ fuel) : walkAddrs l.nodes fuel (firstAddr l2) = l2.map Prod.fst := by
  induction l2 generalizing l1 fuel with
  | nil => cases fuel <;> simp [walkAddrs]
  | cons c l2 ih =>
    cases fuel with
    | zero => simp at hf
    | succ fuel =>
      have h' : l.Rep ((l1 ++ [c]) ++ l2) := by simpa using h
      have := ih h' fuel (by simpa using hf)
      simp [walkAddrs, h.node_at, this]

theorem addrs_rep {l : LinkedList} {cells : List Cell} (h : l.Rep cells) :
    l.addrs = cells.map Prod.fst := by
  have h' : l.Rep ([] ++ cells) := h
  unfold LinkedList.addrs
  rw [h.head_eq]
  exact walkAddrs_rep h' _ (by rw [h.count]; simp)

/-- A position in the nodes of a well-formed list is a position in its cells. -/
theorem rep_at_addr {l : LinkedList} (h : l.WF) {a : Nat} {A1 A2 : List Nat}
    (ha : l.addrs = A1 ++ a :: A2) :
    ∃ l1 c l2, l.Rep (l1 ++ c :: l2) ∧ l1.map Prod.fst = A1 ∧ c.1 = a ∧ l2.map Prod.fst = A2 := by
  obtain ⟨cells, hr⟩ := h
  rw [addrs_rep hr] at ha
  obtain ⟨l1, r, hc, h1, h2⟩ := List.map_eq_append_iff.1 ha
  obtain ⟨c, l2, hr2, hc1, hc2⟩ := List.map_eq_cons_iff.1 h2
  subst hc hr2
  exact ⟨l1, c, l2, hr, h1, hc1, hc2⟩

theorem lastAddr_eq_map (l : List Cell) : lastAddr l = (l.map Prod.fst).getLast? := by
  simp [lastAddr]

theorem firstAddr_eq_map (l : List Cell) : firstAddr l = (l.map Prod.fst).head? := by
  simp [firstAddr]

/-- What `LLIterator_Remove` does at the node `a` of a well-formed list. -/
theorem remove_at_addr {σ : Type} {l : LinkedList} (h : l.WF) {a : Nat} {A1 A2 : List Nat}
    (ha : l.addrs = A1 ++ a :: A2) (f : LLPayload_t → σ → σ) (s : σ) :
    ∃ l' x, LLIterator_Get l ⟨some a⟩ = .ok x ∧ l.toList[A1.length]? = some x ∧
      LLIterator_Remove l ⟨some a⟩ f s =
        .ok (l', ⟨if A2 = [] then A1.getLast? else A2.head?⟩, f x s, decide (A1 ++ A2 ≠ [])) ∧
      l'.WF ∧ l'.addrs = A1 ++ A2 ∧ l'.toList = l.toList.eraseIdx A1.length ∧
      l'.num_elements = l.num_elements - 1 := by
  obtain ⟨l1, c, l2, hr, rfl, rfl, rfl⟩ := rep_at_addr h ha
  obtain ⟨l', hrem, hr', hn⟩ := remove_rep hr f s
  refine ⟨l', c.2, get_at hr, ?_, ?_, ⟨_, hr'⟩, ?_, ?_, hn⟩
  · rw [toList_rep hr]
    simp only [List.map_append, List.map_cons, List.length_map]
    rw [List.getElem?_append_right (by simp)]
    simp
  · rw [hrem, lastAddr_eq_map, firstAddr_eq_map]
    cases l2 <;> cases l1 <;> simp
  · rw [addrs_rep hr']; simp
  · rw [toList_rep hr, toList_rep hr']
    simp only [List.map_append, List.map_cons, List.length_map]
    rw [List.eraseIdx_append_of_length_le (by simp)]
    simp

/-- C15, refuted as stated: in the list of payloads 1, 2 the iterator that `Next`
has moved onto the tail (one more `Next` would exhaust it: the node has no
successor) is not exhausted by `LLIterator_Remove`; it is left on the node before,
which is the new tail, and the call returns true. -/
theorem LLIterator_Remove_tail_moves_back :
    LLIterator_Next (listOf [1, 2]) (LLIterator_Allocate (listOf [1, 2])) = .ok (⟨some 0⟩, true) ∧
    LLIterator_Get (listOf [1, 2]) ⟨some 0⟩ = .ok 2 ∧
    LLIterator_Next (listOf [1, 2]) ⟨some 0⟩ = .ok (⟨none⟩, false) ∧
    (LLIterator_Remove (listOf [1, 2]) ⟨some 0⟩ (fun _ (s : Unit) => s) ()).map
      (fun r => (r.2.1, LLIterator_IsValid r.2.1, r.2.2.2, LLIterator_Get r.1 r.2.1, r.1.toList))
      = .ok (⟨some 1⟩, true, true, .ok 1, [1]) :=
  ⟨by decide, by decide, by decide, by decide⟩

/-- C15, amended. On a well-formed list, `LLIterator_Remove` at the node `a`, with the
nodes `A1` before it and `A2` after it, hands the payload of `a` to the destructor
and deletes exactly that node: the nodes left are `A1 ++ A2`, the payloads are those
of before without the one at the position of `a`, the count drops by one.  The
iterator is left on the node that followed `a` when there is one; when `a` was the
tail it is left on the node before `a`, the new tail; it is exhausted only when `a`
was the only node. -/
theorem LLIterator_Remove_spec {σ : Type} (l : LinkedList) (h : l.WF) (iter : LLIterator)
    (a : Nat) (A1 A2 : List Nat) (hit : iter.node = some a) (ha : l.addrs = A1 ++ a :: A2)
    (f : LLPayload_t → σ → σ) (s : σ) :
    ∃ l' iter' x b, LLIterator_Get l iter = .ok x ∧ l.toList[A1.length]? = some x ∧
      LLIterator_Remove l iter f s = .ok (l', iter', f x s, b) ∧
      l'.WF ∧ l'.addrs = A1 ++ A2 ∧ l'.toList = l.toList.eraseIdx A1.length ∧
      l'.num_elements = l.num_elements - 1 ∧
      (A2 ≠ [] → iter'.node = A2.head? ∧ LLIterator_IsValid iter' = true) ∧
      (A2 = [] → A1 ≠ [] → iter'.node = l'.tail ∧ iter'.node = A1.getLast? ∧
        LLIterator_IsValid iter' = true) ∧
      (A2 = [] → A1 = [] → LLIterator_IsValid iter' = false) := by
  obtain ⟨l', x, hg, hx, hrem, hwf, haddr, hl, hn⟩ := remove_at_addr h ha f s
  have hiter : iter = ⟨some a⟩ := by cases iter; simp at hit; simp [hit]
  subst hiter
  refine ⟨l', _, x, _, hg, hx, hrem, hwf, haddr, hl, hn, ?_, ?_, ?_⟩
  · intro h2
    cases A2 with
    | nil => exact absurd rfl h2
    | cons b A2 => simp [LLIterator_IsValid]
  · rintro rfl h1
    obtain ⟨cells, hr'⟩ := hwf
    have e := addrs_rep hr'
    rw [haddr] at e
    simp only [List.append_nil] at e
    refine ⟨?_, by simp, ?_⟩
    · simp [hr'.tail_eq, lastAddr_eq_map, ← e]
    · rcases eq_nil_or_snoc A1 with rfl | ⟨L, b, rfl⟩
      · exact absurd rfl h1
      · simp [LLIterator_IsValid]
  · rintro rfl rfl
    simp [LLIterator_IsValid]

/-- C15, amended, at the tail of the list of payloads 3, 1, 2. -/
theorem LLIterator_Remove_spec_witness :
    ∃ l' iter' x b, LLIterator_Get (listOf [3, 1, 2]) ⟨some 0⟩ = .ok x ∧
      (listOf [3, 1, 2]).toList[[2, 1].length]? = some x ∧
      LLIterator_Remove (listOf [3, 1, 2]) ⟨some 0⟩ (fun p s => p :: s) [] =
        .ok (l', iter', (fun p s => p :: s) x [], b) ∧
      l'.WF ∧ l'.addrs = [2, 1] ++ [] ∧
      l'.toList = (listOf [3, 1, 2]).toList.eraseIdx [2, 1].length ∧
      l'.num_elements = (listOf [3, 1, 2]).num_elements - 1 ∧
      (([] : List Nat) ≠ [] → iter'.node = ([] : List Nat).head? ∧
        LLIterator_IsValid iter' = true) ∧
      (([] : List Nat) = [] → [2, 1] ≠ [] → iter'.node = l'.tail ∧
        iter'.node = [2, 1].getLast? ∧ LLIterator_IsValid iter' = true) ∧
      (([] : List Nat) = [] → [2, 1] = [] → LLIterator_IsValid iter' = false) :=
  LLIterator_Remove_spec (listOf [3, 1, 2]) (listOf_wf [3, 1, 2]) ⟨some 0⟩ 0 [2, 1] [] rfl
    (by decide) (fun p s => p :: s) []

/-- C16. On a well-formed list and an iterator on one of its nodes,
`LLIterator_Remove` returns true if and only if the iterator it leaves is valid,
and it returns false exactly when the list held that one node only. -/
theorem LLIterator_Remove_returns_validity {σ : Type} (l : LinkedList) (h : l.WF)
    (iter : LLIterator) (hv : LLIterator_IsValid iter = true)
    (hon : ∀ a, iter.node = some a → a ∈ l.addrs) (f : LLPayload_t → σ → σ) (s : σ) :
    ∃ l' iter' s' b, LLIterator_Remove l iter f s = .ok (l', iter', s', b) ∧
      (b = true ↔ LLIterator_IsValid iter' = true) ∧
      (b = false ↔ LinkedList_NumElements l = 1) ∧
      (b = false ↔ ∃ x, l.toList = [x]) := by
  obtain ⟨node⟩ := iter
  cases node with
  | none => simp [LLIterator_IsValid] at hv
  | some a =>
    obtain ⟨A1, A2, ha⟩ := List.append_of_mem (hon a rfl)
    obtain ⟨l1, c, l2, hr, rfl, rfl, rfl⟩ := rep_at_addr h ha
    obtain ⟨l', hrem, hr', hn⟩ := remove_rep hr f s
    refine ⟨l', _, _, _, hrem, ?_, ?_, ?_⟩
    · cases l2 <;> rcases eq_nil_or_snoc l1 with rfl | ⟨L, b, rfl⟩ <;>
        simp [LLIterator_IsValid]
    · rw [LinkedList_NumElements, hr.num_eq_one_iff]
      simp
    · rw [toList_rep hr]
      cases l1 <;> cases l2 <;> simp

/-- C16 at the middle node of the list of payloads 3, 1, 2. -/
theorem LLIterator_Remove_returns_validity_witness :
    ∃ l' iter' s' b, LLIterator_Remove (listOf [3, 1, 2]) ⟨some 1⟩ (fun p s => p :: s) [] =
        .ok (l', iter', s', b) ∧
      (b = true ↔ LLIterator_IsValid iter' = true) ∧
      (b = false ↔ LinkedList_NumElements (listOf [3, 1, 2]) = 1) ∧
      (b = false ↔ ∃ x, (listOf [3, 1, 2]).toList = [x]) :=
  LLIterator_Remove_returns_validity (listOf [3, 1, 2]) (listOf_wf [3, 1, 2]) ⟨some 1⟩
    (by decide) (by intro a ha; cases ha; decide) (fun p s => p :: s) []

/-! ## The hash function (C18) -/

theorem fnv_loop_spec (pre bs extra : List Nat) (hval : Nat) :
    FNVHash64_loop (pre ++ bs ++ extra) bs.length pre.length hval =
      .ok (bs.foldl (fun h b => ((h ^^^ b) * 0x100000001b3) % 2 ^ 64) hval) := by
  induction bs generalizing pre hval with
  | nil => simp [FNVHash64_loop]
  | cons b bs ih =>
    have hget : (pre ++ b :: bs ++ extra)[pre.length]? = some b := by
      rw [List.append_assoc, List.getElem?_append_right (by simp)]
      simp
    have := ih (pre ++ [b]) (((hval ^^^ b) * FNV_64_PRIME) % 2 ^ 64)
    simp only [List.length_append, List.length_singleton, List.append_assoc,
      List.singleton_append] at this
    simp only [List.length_cons, FNVHash64_loop, hget, List.foldl_cons]
    simpa [List.append_assoc, FNV_64_PRIME] using this

theorem foldl_fnv_lt (bs : List Nat) (h : Nat) (hh : h < 2 ^ 64) :
    bs.foldl (fun h b => ((h ^^^ b) * 0x100000001b3) % 2 ^ 64) h < 2 ^ 64 := by
  induction bs generalizing h with
  | nil => simpa using hh
  | cons b bs ih => exact ih _ (Nat.mod_lt _ (by norm_num))

/-- C18. `FNVHash64` on the octets `bs` is the left fold over `bs` of
`h := ((h XOR b) * 0x100000001b3) mod 2^64` from `0xcbf29ce484222325`, with nothing
done to the result of the fold: it is `0xcbf29ce484222325` on no octets and
`0xaf63dc4c8601ec8c` on the one octet 97; it is a 64-bit value; and it is the same
whatever the memory holds after the `len` octets hashed. -/
theorem FNVHash64_spec (bs : List Nat) :
    FNVHash64 bs bs.length = .ok (fnv1a64 bs) ∧
    FNVHash64 [] 0 = .ok 0xcbf29ce484222325 ∧
    FNVHash64 [97] 1 = .ok 0xaf63dc4c8601ec8c ∧
    fnv1a64 bs < 2 ^ 64 ∧
    ∀ extra, FNVHash64 (bs ++ extra) bs.length = FNVHash64 bs bs.length := by
  have key : ∀ extra, FNVHash64 (bs ++ extra) bs.length = .ok (fnv1a64 bs) := by
    intro extra
    have := fnv_loop_spec [] bs extra FNV1_64_INIT
    simpa [FNVHash64, fnv1a64, FNV1_64_INIT] using this
  have h0 := key []
  rw [List.append_nil] at h0
  refine ⟨h0, by decide, by decide, foldl_fnv_lt bs _ (by norm_num), ?_⟩
  intro extra
  rw [key extra, h0]

/-! ## The contract of the table iterator: allocation (C17) -/

theorem bucketAt_ok {buckets : List LinkedList} {i : Nat} {l : LinkedList}
    (h : bucketAt buckets i = .ok l) : buckets[i]? = some l := by
  unfold bucketAt at h
  cases hb : buckets[i]? with
  | none => simp [hb] at h
  | some l0 => simp [hb] at h; rw [h]

/-- On a table that holds a record, `HTIterator_Allocate` opens the list iterator of the
first chain that is not empty. -/
theorem allocate_first {t : HashTable} {bs : List (List HTKeyValue_t)} (h : TInv t bs)
    (h0 : t.num_elements ≠ 0) :
    ∃ (i : Nat) (l : LinkedList) (r : HTKeyValue_t) (b : List HTKeyValue_t),
      HTIterator_Allocate t = .ok ⟨(i : Int), some (LLIterator_Allocate l)⟩ ∧
      t.buckets[i]? = some l ∧ bs[i]? = some (r :: b) ∧ (∀ j, j < i → bs[j]? = some []) ∧
      IterRem t bs ⟨(i : Int), some (LLIterator_Allocate l)⟩ bs.flatten := by
  unfold HTIterator_Allocate
  simp only [h0, if_false]
  have hlen : 0 + t.num_buckets = bs.length := by rw [← h.rep.1, h.len]; simp
  rcases scan_spec h.rep t.num_buckets 0 hlen with ⟨_, h2⟩ | ⟨i, b, h1, _, h3, h4, h5⟩
  · exfalso
    apply h0
    rw [h.abs.count, ← List.length_flatten]
    simp only [List.drop_zero] at h2
    simp [h2]
  · obtain ⟨l, hl, hit⟩ := iterRem_enter h.rep h3 h4
    simp only [List.drop_zero] at h5
    have hi : i < bs.length := (List.getElem?_eq_some_iff.1 h3).1
    have hbi : bs[i] = b := (List.getElem?_eq_some_iff.1 h3).2
    have hsplit : bs = bs.take i ++ b :: bs.drop (i + 1) := by
      rw [← hbi]
      simp
    have hfl : (bs.take i).flatten = [] := by
      have e : bs.flatten = (bs.take i).flatten ++ (b ++ (bs.drop (i + 1)).flatten) := by
        conv_lhs => rw [hsplit]
        simp
      rw [h5] at e
      exact List.self_eq_append_left.1 e
    cases b with
    | nil => exact absurd rfl h4
    | cons r b =>
      refine ⟨i, l, r, b, by simp [h1, hl], bucketAt_ok hl, h3, ?_, ?_⟩
      · intro j hj
        have hjl : j < bs.length := by omega
        rw [List.getElem?_eq_getElem hjl]
        congr 1
        have hm : bs[j] ∈ bs.take i := by
          rw [List.mem_take_iff_getElem]
          exact ⟨j, by omega, rfl⟩
        exact List.flatten_eq_nil_iff.1 hfl _ hm
      · rw [h5]
        exact hit

/-- C17. On a table that satisfies the invariant `HTIterator_Allocate` returns an
iterator that is valid if and only if the table holds a record.  On an empty table
it is the iterator of bucket index `-1` without a list iterator.  Otherwise its
bucket index is the lowest index of a chain that is not empty, its list iterator is
the one `LLIterator_Allocate` makes on that chain, at the head node, and
`HTIterator_Get` returns the head record of that chain. -/
theorem HTIterator_Allocate_spec (t : HashTable) (h : t.Inv) :
    ∃ it, HTIterator_Allocate t = .ok it ∧
      (HTIterator_IsValid it = true ↔ HashTable_NumElements t ≠ 0) ∧
      (HashTable_NumElements t = 0 ↔ ∀ b ∈ t.chains, b = []) ∧
      (HashTable_NumElements t = 0 → it.bucket_idx = -1 ∧ it.bucket_it = none) ∧
      (HashTable_NumElements t ≠ 0 →
        ∃ (i : Nat) (l : LinkedList) (r : HTKeyValue_t) (b : List HTKeyValue_t),
          it.bucket_idx = (i : Int) ∧ t.buckets[i]? = some l ∧
          it.bucket_it = some (LLIterator_Allocate l) ∧
          (LLIterator_Allocate l).node = l.head ∧
          t.chains[i]? = some (r :: b) ∧ (∀ j, j < i → t.chains[j]? = some []) ∧
          HTIterator_Get t it = .ok (some r)) := by
  have hT := tinv_of_inv h
  have hempty : HashTable_NumElements t = 0 ↔ ∀ b ∈ t.chains, b = [] := by
    unfold HashTable_NumElements
    rw [h.count, ← List.length_flatten]
    constructor
    · intro hz
      have : t.chains.flatten = [] := List.length_eq_zero.1 (by exact_mod_cast hz)
      exact List.flatten_eq_nil_iff.1 this
    · intro hz
      have : t.chains.flatten = [] := List.flatten_eq_nil_iff.2 hz
      simp [this]
  by_cases h0 : t.num_elements = 0
  · refine ⟨⟨INVALID_IDX, none⟩, by simp [HTIterator_Allocate, h0], ?_, hempty, ?_, ?_⟩
    · simp [HTIterator_IsValid, HashTable_NumElements, h0]
    · intro _; exact ⟨rfl, rfl⟩
    · intro hx; exact absurd h0 hx
  · obtain ⟨i, l, r, b, ha, hl, hb, hlow, hit⟩ := allocate_first hT h0
    have hfl : t.chains.flatten ≠ [] := by
      intro hx
      have := (List.flatten_eq_nil_iff.1 hx) _ (List.getElem?_mem hb)
      simp at this
    obtain ⟨hget, hvalid⟩ := iterRem_get hT hit
    refine ⟨_, ha, ?_, hempty, ?_, ?_⟩
    · rw [hvalid]; simp [HashTable_NumElements, h0, hfl]
    · intro hx; exact absurd hx h0
    · intro _
      refine ⟨i, l, r, b, rfl, hl, rfl, rfl, hb, hlow, ?_⟩
      rw [hget]
      have hsplit : t.chains = t.chains.take i ++ (r :: b) :: t.chains.drop (i + 1) := by
        have hi : i < t.chains.length := (List.getElem?_eq_some_iff.1 hb).1
        have hbi : t.chains[i] = r :: b := (List.getElem?_eq_some_iff.1 hb).2
        rw [← hbi]
        simp
      have hpre : (t.chains.take i).flatten = [] := by
        apply List.flatten_eq_nil_iff.2
        intro c hc
        obtain ⟨j, hj, rfl⟩ := List.mem_take_iff_getElem.1 hc
        have := hlow j (by omega)
        rw [List.getElem?_eq_getElem (by omega)] at this
        exact Option.some.inj this
      conv_lhs => rw [hsplit]
      simp [hpre]

/-- C17 at the table of keys 1, 5, 9, 2 in four buckets, whose bucket 0 is empty. -/
theorem HTIterator_Allocate_spec_witness :
    ∃ it, HTIterator_Allocate (tableOf 9 4 [⟨1, 10⟩, ⟨5, 50⟩, ⟨9, 90⟩, ⟨2, 20⟩]) = .ok it ∧
      (HTIterator_IsValid it = true ↔
        HashTable_NumElements (tableOf 9 4 [⟨1, 10⟩, ⟨5, 50⟩, ⟨9, 90⟩, ⟨2, 20⟩]) ≠ 0) ∧
      (HashTable_NumElements (tableOf 9 4 [⟨1, 10⟩, ⟨5, 50⟩, ⟨9, 90⟩, ⟨2, 20⟩]) = 0 ↔
        ∀ b ∈ (tableOf 9 4 [⟨1, 10⟩, ⟨5, 50⟩, ⟨9, 90⟩, ⟨2, 20⟩]).chains, b = []) ∧
      (HashTable_NumElements (tableOf 9 4 [⟨1, 10⟩, ⟨5, 50⟩, ⟨9, 90⟩, ⟨2, 20⟩]) = 0 →
        it.bucket_idx = -1 ∧ it.bucket_it = none) ∧
      (HashTable_NumElements (tableOf 9 4 [⟨1, 10⟩, ⟨5, 50⟩, ⟨9, 90⟩, ⟨2, 20⟩]) ≠ 0 →
        ∃ (i : Nat) (l : LinkedList) (r : HTKeyValue_t) (b : List HTKeyValue_t),
          it.bucket_idx = (i : Int) ∧
          (tableOf 9 4 [⟨1, 10⟩, ⟨5, 50⟩, ⟨9, 90⟩, ⟨2, 20⟩]).buckets[i]? = some l ∧
          it.bucket_it = some (LLIterator_Allocate l) ∧
          (LLIterator_Allocate l).node = l.head ∧
          (tableOf 9 4 [⟨1, 10⟩, ⟨5, 50⟩, ⟨9, 90⟩, ⟨2, 20⟩]).chains[i]? = some (r :: b) ∧
          (∀ j, j < i →
            (tableOf 9 4 [⟨1, 10⟩, ⟨5, 50⟩, ⟨9, 90⟩, ⟨2, 20⟩]).chains[j]? = some []) ∧
          HTIterator_Get (tableOf 9 4 [⟨1, 10⟩, ⟨5, 50⟩, ⟨9, 90⟩, ⟨2, 20⟩]) it = .ok (some r)) :=
  HTIterator_Allocate_spec _ (tableOf_inv (by decide) _ (by decide))

/-! ## The contract of the table: chain order and frame (C19, C20) -/

theorem absInsert_present_map {nb : Nat} {n : Int} {bs : List (List HTKeyValue_t)}
    (hlen : bs.length = nb) (hnb : 0 < nb) (h : AbsInv nb n bs) (kv : HTKeyValue_t) :
    bs.set (kv.key % nb) ((homeChain nb bs kv.key).map (fun r => if r.key = kv.key then kv else r))
      = bs.map (fun b => b.map (fun x => if x.key = kv.key then kv else x)) := by
  have hi : kv.key % nb < bs.length := by rw [hlen]; exact Nat.mod_lt _ hnb
  apply List.ext_getElem?
  intro j
  rw [List.getElem?_set, List.getElem?_map]
  by_cases hj : kv.key % nb = j
  · subst hj
    simp [hi, homeChain, List.getElem?_eq_getElem hi]
  · simp only [hj, if_false]
    cases hb : bs[j]? with
    | none => simp
    | some b =>
      simp only [Option.map_some', Option.some.injEq]
      have : b.map (fun x => if x.key = kv.key then kv else x) = b.map id := by
        apply List.map_congr_left
        intro x hx
        have := h.home j b hb x hx
        have hne : x.key ≠ kv.key := by
          intro e
          rw [e] at this
          exact hj this
        simp [hne]
      rw [this, List.map_id]

/-- C19. On a table that satisfies the invariant, when `HashTable_Insert` triggers no
resize, that is when the test `num_elements < 3 * num_buckets` of `MaybeResize`,
an `int` comparison, holds and `MaybeResize` returns at once: when no chain holds the
key, the call returns false, the new record is the head of the chain of index
`key mod num_buckets`, followed by the records that chain held, in their order, the
other chains are as they were, and the count grows by one; when a chain holds a
record of the key, the call returns that record and every chain holds the records it
held, in their order, but for that one record, which now is the new one. -/
theorem HashTable_Insert_chain_order (t : HashTable) (h : t.Inv) (kv : HTKeyValue_t)
    (fuel : Nat) (hf : t.num_elements < (fuel : Int))
    (hno : t.num_elements < toInt32 (3 * (t.num_buckets : Int))) :
    MaybeResize fuel t = .ok t ∧
    ∃ t' r, HashTable_Insert fuel t kv = .ok (t', r) ∧ t'.num_buckets = t.num_buckets ∧
      ((∀ x ∈ t.chains.flatten, x.key ≠ kv.key) →
        r = none ∧
        t'.chains = t.chains.set (kv.key % t.num_buckets)
          (kv :: (t.chains[kv.key % t.num_buckets]?).getD []) ∧
        t'.num_elements = t.num_elements + 1) ∧
      (∀ old ∈ t.chains.flatten, old.key = kv.key →
        r = some old ∧
        t'.chains = t.chains.map (fun b => b.map (fun x => if x.key = kv.key then kv else x)) ∧
        t'.num_elements = t.num_elements) := by
  have hT := tinv_of_inv h
  obtain ⟨hmr, hbody⟩ := insert_no_resize fuel kv hno
  obtain ⟨t', hb, hT', hnb, hn⟩ := insert_body_spec hT kv fuel hf
  have hins : HashTable_Insert fuel t kv = .ok (t', absLookup t.num_buckets t.chains kv.key) := by
    rw [hbody]; exact hb
  have hch : t'.chains = absInsert t.num_buckets t.chains kv := (inv_of_tinv hT').2
  refine ⟨hmr, t', _, hins, hnb, ?_, ?_⟩
  · intro habs
    have hlk : absLookup t.num_buckets t.chains kv.key = none :=
      find_key_none (fun r hr => habs r (homeChain_subset hr))
    refine ⟨hlk, ?_, by rw [hn, hlk]; simp⟩
    rw [hch]
    simp [absInsert, hlk, homeChain]
  · intro old hold hkey
    have hlk : absLookup t.num_buckets t.chains kv.key = some old := by
      rw [← hkey]
      exact (lookup_iff_mem hT old).2 hold
    refine ⟨hlk, ?_, by rw [hn, hlk]; simp⟩
    rw [hch]
    have hlen : t.chains.length = t.num_buckets := by rw [← hT.rep.1, hT.len]
    rw [← absInsert_present_map hlen hT.nb_pos hT.abs kv]
    simp [absInsert, hlk]

/-- C19 at the table of keys 1, 5, 9 in four buckets: the absent key 13 of their
bucket, then the present key 5. -/
theorem HashTable_Insert_chain_order_witness :
    (tableOf 9 4 [⟨1, 10⟩, ⟨5, 50⟩, ⟨9, 90⟩]).num_elements
      < toInt32 (3 * ((tableOf 9 4 [⟨1, 10⟩, ⟨5, 50⟩, ⟨9, 90⟩]).num_buckets : Int)) ∧
    MaybeResize 9 (tableOf 9 4 [⟨1, 10⟩, ⟨5, 50⟩, ⟨9, 90⟩])
      = .ok (tableOf 9 4 [⟨1, 10⟩, ⟨5, 50⟩, ⟨9, 90⟩]) ∧
    (∀ x ∈ (tableOf 9 4 [⟨1, 10⟩, ⟨5, 50⟩, ⟨9, 90⟩]).chains.flatten, x.key ≠ 13) ∧
    (⟨5, 50⟩ : HTKeyValue_t) ∈ (tableOf 9 4 [⟨1, 10⟩, ⟨5, 50⟩, ⟨9, 90⟩]).chains.flatten ∧
    (∃ t' r, HashTable_Insert 9 (tableOf 9 4 [⟨1, 10⟩, ⟨5, 50⟩, ⟨9, 90⟩]) ⟨13, 7⟩ = .ok (t', r) ∧
      t'.num_buckets = (tableOf 9 4 [⟨1, 10⟩, ⟨5, 50⟩, ⟨9, 90⟩]).num_buckets ∧
      r = none ∧
      t'.chains = (tableOf 9 4 [⟨1, 10⟩, ⟨5, 50⟩, ⟨9, 90⟩]).chains.set
        (13 % (tableOf 9 4 [⟨1, 10⟩, ⟨5, 50⟩, ⟨9, 90⟩]).num_buckets)
        (⟨13, 7⟩ :: ((tableOf 9 4 [⟨1, 10⟩, ⟨5, 50⟩, ⟨9, 90⟩]).chains[
          13 % (tableOf 9 4 [⟨1, 10⟩, ⟨5, 50⟩, ⟨9, 90⟩]).num_buckets]?).getD []) ∧
      t'.num_elements = (tableOf 9 4 [⟨1, 10⟩, ⟨5, 50⟩, ⟨9, 90⟩]).num_elements + 1) ∧
    (∃ t' r, HashTable_Insert 9 (tableOf 9 4 [⟨1, 10⟩, ⟨5, 50⟩, ⟨9, 90⟩]) ⟨5, 55⟩ = .ok (t', r) ∧
      r = some ⟨5, 50⟩ ∧
      t'.chains = (tableOf 9 4 [⟨1, 10⟩, ⟨5, 50⟩, ⟨9, 90⟩]).chains.map
        (fun b => b.map (fun x => if x.key = 5 then ⟨5, 55⟩ else x)) ∧
      t'.num_elements = (tableOf 9 4 [⟨1, 10⟩, ⟨5, 50⟩, ⟨9, 90⟩]).num_elements) :=
  have h1 := HashTable_Insert_chain_order (tableOf 9 4 [⟨1, 10⟩, ⟨5, 50⟩, ⟨9, 90⟩])
    (tableOf_inv (by decide) _ (by decide)) ⟨13, 7⟩ 9 (by decide) (by decide)
  have h2 := HashTable_Insert_chain_order (tableOf 9 4 [⟨1, 10⟩, ⟨5, 50⟩, ⟨9, 90⟩])
    (tableOf_inv (by decide) _ (by decide)) ⟨5, 55⟩ 9 (by decide) (by decide)
  ⟨by decide, h1.1, by decide, by decide,
   h1.2.elim fun t' hx => hx.elim fun r hr =>
     ⟨t', r, hr.1, hr.2.1, (hr.2.2.1 (by decide)).1, (hr.2.2.1 (by decide)).2.1,
       (hr.2.2.1 (by decide)).2.2⟩,
   h2.2.elim fun t' hx => hx.elim fun r hr =>
     ⟨t', r, hr.1, (hr.2.2.2 ⟨5, 50⟩ (by decide) rfl).1, (hr.2.2.2 ⟨5, 50⟩ (by decide) rfl).2.1,
       (hr.2.2.2 ⟨5, 50⟩ (by decide) rfl).2.2⟩⟩

/-- C20, at the empty table of 800000000 buckets, which satisfies the invariant, and
the distinct keys 1 and 2: `HashTable_Find(2)` returns false on the table, and
`HashTable_Insert(1, v)` does not return a table on which `HashTable_Find(2)` could
give that outcome again.  `MaybeResize` takes the resize branch on the empty table and
fails the `Verify333(num_buckets > 0)` of `HashTable_Allocate`. -/
theorem HashTable_frame_overflow :
    (emptyTable 800000000).Inv ∧
    ∀ (fuel : Nat) (v : HTValue_t),
      HashTable_Find (fuel + 1) (emptyTable 800000000) 2 = .ok (emptyTable 800000000, none) ∧
      HashTable_Insert (fuel + 1) (emptyTable 800000000) ⟨1, v⟩ = .error .verify ∧
      (HashTable_Insert (fuel + 1) (emptyTable 800000000) ⟨1, v⟩ >>= fun p =>
        HashTable_Find (fuel + 1) p.1 2) = .error .verify :=
  ⟨overflow_table.2, fun fuel v =>
    ⟨by
      rw [find_spec (emptyTable_tinv (n := 800000000) (by decide)).2 2
        (by show (0 : Int) < ((fuel + 1 : Nat) : Int); omega)]
      rw [absLookup_replicate],
     insert_overflow fuel ⟨1, v⟩, by rw [insert_overflow fuel ⟨1, v⟩]; rfl⟩⟩

/-- The contract of C20 on a table on which the `int` products of `MaybeResize` are
exact.  On such a table that satisfies the invariant, for two distinct keys `k` and
`k'`: `HashTable_Find(k')` gives the same outcome, found or not and the record found,
on the table itself, on the table that `HashTable_Insert(k, v)` leaves, whether it
resizes or not, and on the table that `HashTable_Remove(k)` leaves. -/
theorem HashTable_frame (t : HashTable) (h : t.Inv) (hfit : t.Fits) (k k' : HTKey_t)
    (hne : k ≠ k')
    (v : HTValue_t) (fuel : Nat) (hf : t.num_elements + 1 < (fuel : Int)) :
    ∃ r0 ti ri tr rr, HashTable_Find fuel t k' = .ok (t, r0) ∧
      HashTable_Insert fuel t ⟨k, v⟩ = .ok (ti, ri) ∧
      HashTable_Find fuel ti k' = .ok (ti, r0) ∧
      HashTable_Remove fuel t k = .ok (tr, rr) ∧
      HashTable_Find fuel tr k' = .ok (tr, r0) := by
  have hT := tinv_of_inv h
  obtain ⟨ti, bsi, hins, hTi, hlki, hni, _, _⟩ := insert_spec hT hfit ⟨k, v⟩ fuel (by omega)
  obtain ⟨tr, hrem, hTr, hnbr, hnr, _⟩ := remove_spec hT k fuel (by omega)
  have hfi : ti.num_elements < (fuel : Int) := by
    rw [hni]; split_ifs <;> omega
  have hfr : tr.num_elements < (fuel : Int) := by
    rw [hnr]; split_ifs <;> omega
  have hlen : t.chains.length = t.num_buckets := by rw [← hT.rep.1, hT.len]
  refine ⟨_, ti, _, tr, _, find_spec hT k' (by omega), hins, ?_, hrem, ?_⟩
  · rw [find_spec hTi k' hfi, hlki k']
    have : ¬ k' = k := fun e => hne e.symm
    simp [this]
  · rw [find_spec hTr k' hfr, hnbr, absLookup_remove hT.nb_pos hlen hT.abs k k']
    have : ¬ k' = k := fun e => hne e.symm
    simp [this]

/-- The contract of C20 at the table of keys 1, 2, 3 in one bucket, where the
insertion of key 1 resizes: the lookup of key 2 is the same after it, and after the removal of key 1. -/
theorem HashTable_frame_witness :
    ∃ r0 ti ri tr rr,
      HashTable_Find 9 (tableOf 9 1 [⟨1, 10⟩, ⟨2, 20⟩, ⟨3, 30⟩]) 2
        = .ok (tableOf 9 1 [⟨1, 10⟩, ⟨2, 20⟩, ⟨3, 30⟩], r0) ∧
      HashTable_Insert 9 (tableOf 9 1 [⟨1, 10⟩, ⟨2, 20⟩, ⟨3, 30⟩]) ⟨1, 11⟩ = .ok (ti, ri) ∧
      HashTable_Find 9 ti 2 = .ok (ti, r0) ∧
      HashTable_Remove 9 (tableOf 9 1 [⟨1, 10⟩, ⟨2, 20⟩, ⟨3, 30⟩]) 1 = .ok (tr, rr) ∧
      HashTable_Find 9 tr 2 = .ok (tr, r0) :=
  HashTable_frame (tableOf 9 1 [⟨1, 10⟩, ⟨2, 20⟩, ⟨3, 30⟩])
    (tableOf_inv (by decide) _ (by decide)) (by decide) 1 2 (by decide) 11 9 (by decide)

/-! ## Proofs: bubble sort -/

theorem bubble_length {α : Type} (sw : α → α → Bool) (x : α) (ys : List α) :
    (bubble sw x ys).1.length = ys.length + 1 := by
  induction ys generalizing x with
  | nil => rfl
  | cons y ys ih =>
    simp only [bubble]
    split_ifs <;> simp [ih]

theorem bubble_perm {α : Type} (sw : α → α → Bool) (x : α) (ys : List α) :
    (bubble sw x ys).1.Perm (x :: ys) := by
  induction ys generalizing x with
  | nil => exact List.Perm.refl _
  | cons y ys ih =>
    simp only [bubble]
    split_ifs
    · exact ((ih x).cons y).trans (List.Perm.swap x y ys)
    · exact (ih y).cons x

theorem bubble_noswap {α : Type} (sw : α → α → Bool) (x : α) (ys : List α)
    (h : (bubble sw x ys).2 = false) :
    (bubble sw x ys).1 = x :: ys ∧ List.Chain (fun a b => sw a b = false) x ys := by
  induction ys generalizing x with
  | nil => exact ⟨rfl, List.Chain.nil⟩
  | cons y ys ih =>
    simp only [bubble] at h ⊢
    by_cases hs : sw x y = true
    · simp [hs] at h
    · simp only [hs, if_false] at h ⊢
      obtain ⟨h1, h2⟩ := ih y h
      simp only [Bool.false_eq_true, if_false]
      exact ⟨by rw [h1], List.Chain.cons (by simpa using hs) h2⟩

theorem bubble_filter {α : Type} (sw : α → α → Bool) (p : α → Bool)
    (hp : ∀ a b, sw a b = true → ¬ (p a = true ∧ p b = true)) (x : α) (ys : List α) :
    (bubble sw x ys).1.filter p = (x :: ys).filter p := by
  induction ys generalizing x with
  | nil => rfl
  | cons y ys ih =>
    simp only [bubble]
    by_cases hs : sw x y = true
    · simp only [hs, if_true]
      have := hp x y hs
      rw [List.filter_cons, ih x]
      by_cases hx : p x = true
      · have hy : ¬ p y = true := fun hy => this ⟨hx, hy⟩
        simp [List.filter_cons, hx, hy]
      · simp [List.filter_cons, hx]
    · simp only [hs, Bool.false_eq_true, if_false]
      rw [List.filter_cons, ih y, ← List.filter_cons]

theorem bubble_inversions {α : Type} (sw : α → α → Bool)
    (has : ∀ a b, sw a b = true → sw b a = false) (x : α) (ys : List α) :
    inversions sw (bubble sw x ys).1 + (if (bubble sw x ys).2 then 1 else 0)
      ≤ inversions sw (x :: ys) := by
  induction ys generalizing x with
  | nil => simp [bubble, inversions]
  | cons y ys ih =>
    simp only [bubble]
    by_cases hs : sw x y = true
    · have hyx : sw y x = false := has x y hs
      have hc : List.countP (sw y) (bubble sw x ys).1 = List.countP (sw y) ys := by
        rw [(bubble_perm sw x ys).countP_eq, List.countP_cons]
        simp [hyx]
      have := ih x
      simp only [hs, if_true, inversions, hc, List.countP_cons] at this ⊢
      split_ifs at this <;> omega
    · have hc : List.countP (sw x) (bubble sw y ys).1 = List.countP (sw x) (y :: ys) :=
        (bubble_perm sw y ys).countP_eq _
      have := ih y
      simp only [hs, Bool.false_eq_true, if_false, inversions, hc] at this ⊢
      omega

theorem inversions_le {α : Type} (sw : α → α → Bool) (l : List α) :
    inversions sw l ≤ l.length * l.length := by
  induction l with
  | nil => simp [inversions]
  | cons x l ih =>
    have := List.countP_le_length (sw x) (l := l)
    simp only [inversions, List.length_cons]
    nlinarith

theorem bubblePass_length {α : Type} (sw : α → α → Bool) (l : List α) :
    (bubblePass sw l).1.length = l.length := by
  cases l with
  | nil => rfl
  | cons x ys => exact bubble_length sw x ys

/-- What bubble sort returns is a permutation of its input in which `sw` swaps no
adjacent pair, and every sublist of elements of which no two get swapped is as it
was. -/
theorem bubbleSort_sound {α : Type} (sw : α → α → Bool) (fuel : Nat) (l l' : List α)
    (h : bubbleSort sw fuel l = some l') :
    l'.Perm l ∧ List.Chain' (fun a b => sw a b = false) l' ∧
      ∀ p : α → Bool, (∀ a b, sw a b = true → ¬ (p a = true ∧ p b = true)) →
        l'.filter p = l.filter p := by
  induction fuel generalizing l with
  | zero => simp [bubbleSort] at h
  | succ fuel ih =>
    simp only [bubbleSort] at h
    have hperm : (bubblePass sw l).1.Perm l := by
      cases l with
      | nil => exact List.Perm.refl _
      | cons x ys => exact bubble_perm sw x ys
    have hfil : ∀ p : α → Bool, (∀ a b, sw a b = true → ¬ (p a = true ∧ p b = true)) →
        (bubblePass sw l).1.filter p = l.filter p := by
      intro p hp
      cases l with
      | nil => rfl
      | cons x ys => exact bubble_filter sw p hp x ys
    by_cases hs : (bubblePass sw l).2 = true
    · simp only [hs, if_true] at h
      obtain ⟨h1, h2, h3⟩ := ih _ h
      exact ⟨h1.trans hperm, h2, fun p hp => (h3 p hp).trans (hfil p hp)⟩
    · simp only [hs, Bool.false_eq_true, if_false, Option.some.injEq] at h
      subst h
      refine ⟨hperm, ?_, hfil⟩
      cases l with
      | nil => exact List.chain'_nil
      | cons x ys =>
        obtain ⟨h1, h2⟩ := bubble_noswap sw x ys (by simpa [bubblePass] using hs)
        show List.Chain' _ (bubble sw x ys).1
        rw [h1]
        exact h2

/-- Bubble sort returns within `inversions + 1` passes when `sw` never swaps a pair both ways. -/
theorem bubbleSort_terminates {α : Type} (sw : α → α → Bool)
    (has : ∀ a b, sw a b = true → sw b a = false) (fuel : Nat) (l : List α)
    (hf : inversions sw l < fuel) : ∃ l', bubbleSort sw fuel l = some l' := by
  induction fuel generalizing l with
  | zero => omega
  | succ fuel ih =>
    simp only [bubbleSort]
    by_cases hs : (bubblePass sw l).2 = true
    · simp only [hs, if_true]
      apply ih
      cases l with
      | nil => simp [bubblePass] at hs
      | cons x ys =>
        have := bubble_inversions sw has x ys
        simp only [bubblePass] at hs ⊢
        rw [hs] at this
        simp only [if_true] at this
        omega
    · simp [hs]

/-! ## Proofs: a pass of the sort -/

theorem lastAddr_cons_fst (a : Nat) (x y : LLPayload_t) (l : List Cell) :
    lastAddr ((a, x) :: l) = lastAddr ((a, y) :: l) := by
  cases l <;> simp [lastAddr]

/-- A write to the payload of a node leaves the list a chain of the same nodes. -/
theorem rep_set_payload {l : LinkedList} {l1 l2 : List Cell} {c : Cell}
    (h : l.Rep (l1 ++ c :: l2)) (y : LLPayload_t) :
    ({ l with nodes := store l.nodes c.1 ⟨y, firstAddr l2, lastAddr l1⟩ } : LinkedList).Rep
      (l1 ++ (c.1, y) :: l2) := by
  have hmap : (l1 ++ (c.1, y) :: l2).map Prod.fst = (l1 ++ c :: l2).map Prod.fst := by simp
  refine ⟨?_, ?_, ?_, ?_, ?_, ?_⟩
  · simpa using h.count
  · show l.head = _
    rw [h.head_eq]; cases l1 <;> simp
  · show l.tail = _
    rw [h.tail_eq, lastAddr_append_cons, lastAddr_append_cons]
    exact lastAddr_cons_fst c.1 c.2 y l2
  · rw [hmap]; exact h.nodup
  · intro e he
    show e.1 < l.brk
    rcases List.mem_append.1 he with he | he
    · exact h.fresh e (by simp [he])
    · rcases List.mem_cons.1 he with rfl | he
      · exact h.fresh c (by simp)
      · exact h.fresh e (by simp [he])
  · intro k1 e k2 hs
    show store l.nodes c.1 _ e.1 = _
    have hnd : ((l1 ++ (c.1, y) :: l2).map Prod.fst).Nodup := by rw [hmap]; exact h.nodup
    by_cases he : e.1 = c.1
    · obtain ⟨rfl, rfl, rfl⟩ := split_unique hnd rfl hs (show ((c.1, y) : Cell).1 = e.1 from he.symm)
      simp
    · rw [store_other _ _ he]
      rcases List.append_eq_append_iff.1 hs with ⟨a', hk1, hb⟩ | ⟨c', hl1, hd⟩
      · cases a' with
        | nil =>
          simp only [List.nil_append, List.cons.injEq] at hb
          exact absurd (by rw [← hb.1]) he
        | cons a0 t =>
          simp only [List.cons_append, List.cons.injEq] at hb
          obtain ⟨rfl, rfl⟩ := hb
          subst hk1
          have := h.node (l1 ++ c :: t) e k2 (by simp)
          rw [this]
          simp only [lastAddr_append_cons]
          rw [lastAddr_cons_fst c.1 c.2 y t]
      · cases c' with
        | nil =>
          simp only [List.nil_append, List.cons.injEq] at hd
          exact absurd (by rw [hd.1]) he
        | cons a0 t =>
          simp only [List.cons_append, List.cons.injEq] at hd
          obtain ⟨rfl, rfl⟩ := hd
          subst hl1
          have := h.node k1 e (t ++ c :: l2) (by simp)
          rw [this]
          cases t <;> simp

/-- A pass of `LinkedList_Sort` from the node `c` is a pass of bubble sort over the
payloads from there on; the nodes stay where they are. -/
theorem pass_rep (asc : Bool) (cmp : LLPayloadComparatorFnPtr) {suf : List Cell} :
    ∀ {l : LinkedList} {pre : List Cell} {c : Cell}, l.Rep (pre ++ c :: suf) →
    ∀ (fuel : Nat), suf.length < fuel → ∀ (s : Bool),
    ∃ nodes', LinkedList_Sort_pass asc cmp fuel l.nodes (some c.1) s =
        .ok (nodes', s || (bubble (outOfOrder asc cmp) c.2 (suf.map Prod.snd)).2) ∧
      ({ l with nodes := nodes' } : LinkedList).Rep
        (pre ++ (c.1 :: suf.map Prod.fst).zip
          (bubble (outOfOrder asc cmp) c.2 (suf.map Prod.snd)).1) := by
  induction suf with
  | nil =>
    intro l pre c h fuel hf s
    cases fuel with
    | zero => simp at hf
    | succ fuel =>
      have hcn := h.node_at
      refine ⟨l.nodes, by simp [LinkedList_Sort_pass, deref_some hcn, bubble], ?_⟩
      simpa [bubble] using h
  | cons d rest ih =>
    intro l pre c h fuel hf s
    cases fuel with
    | zero => simp at hf
    | succ fuel =>
      have hf' : rest.length < fuel := by simpa using hf
      have hcn : l.nodes c.1 = some ⟨c.2, some d.1, lastAddr pre⟩ := by simpa using h.node_at
      have hdn : l.nodes d.1 = some ⟨d.2, firstAddr rest, some c.1⟩ := by
        simpa using h.node (pre ++ [c]) d rest (by simp)
      have hdc : d.1 ≠ c.1 := by
        have := h.addr_not_mem_right
        simp only [List.map_cons, List.mem_cons, not_or] at this
        exact fun e => this.1 e.symm
      by_cases hsw : outOfOrder asc cmp c.2 d.2 = true
      · have hlt : (if asc = true then toInt32 (cmp c.2 d.2 * -1) else cmp c.2 d.2) < 0 := by
          simpa [outOfOrder] using hsw
        have h1 := rep_set_payload h d.2
        have h1' : ({ l with nodes := store l.nodes c.1 ⟨d.2, some d.1, lastAddr pre⟩ }
            : LinkedList).Rep ((pre ++ [(c.1, d.2)]) ++ d :: rest) := by simpa using h1
        have h2 := rep_set_payload h1' c.2
        have h2' : ({ l with
            nodes := store (store l.nodes c.1 ⟨d.2, some d.1, lastAddr pre⟩) d.1
                       ⟨c.2, firstAddr rest, some c.1⟩ } : LinkedList).Rep
            ((pre ++ [(c.1, d.2)]) ++ (d.1, c.2) :: rest) := by simpa using h2
        obtain ⟨nodes', hp, hr⟩ := ih h2' fuel hf' true
        have hd1 : deref (store l.nodes c.1 ⟨d.2, some d.1, lastAddr pre⟩) (some d.1)
            = .ok (d.1, ⟨d.2, firstAddr rest, some c.1⟩) :=
          deref_some (by rw [store_other _ _ hdc, hdn])
        refine ⟨nodes', ?_, ?_⟩
        · simp only [LinkedList_Sort_pass, deref_some hcn, deref_some hdn, ok_bind, hlt,
            if_true, hd1]
          simp only [List.map_cons, bubble, hsw, if_true, Bool.or_true]
          simpa using hp
        · simp only [List.map_cons, bubble, hsw, if_true, List.zip_cons_cons]
          simpa using hr
      · have hlt : ¬ (if asc = true then toInt32 (cmp c.2 d.2 * -1) else cmp c.2 d.2) < 0 := by
          simpa [outOfOrder] using hsw
        have h' : l.Rep ((pre ++ [c]) ++ d :: rest) := by simpa using h
        obtain ⟨nodes', hp, hr⟩ := ih h' fuel hf' s
        refine ⟨nodes', ?_, ?_⟩
        · simp only [LinkedList_Sort_pass, deref_some hcn, deref_some hdn, ok_bind, hlt,
            if_false]
          simp only [List.map_cons, bubble, hsw, Bool.false_eq_true, if_false]
          simpa using hp
        · simp only [List.map_cons, bubble, hsw, Bool.false_eq_true, if_false,
            List.zip_cons_cons]
          simpa using hr

theorem zip_fst_snd (cells : List Cell) :
    (cells.map Prod.fst).zip (cells.map Prod.snd) = cells := by
  induction cells with
  | nil => rfl
  | cons c cells ih => simp [ih]

/-- A pass that is given fewer steps than the nodes it has to visit runs out of them. -/
theorem pass_short (asc : Bool) (cmp : LLPayloadComparatorFnPtr) {suf : List Cell} :
    ∀ {l : LinkedList} {pre : List Cell} {c : Cell}, l.Rep (pre ++ c :: suf) →
    ∀ (fuel : Nat), fuel ≤ suf.length → ∀ (s : Bool),
      LinkedList_Sort_pass asc cmp fuel l.nodes (some c.1) s = .error .outOfFuel := by
  induction suf with
  | nil =>
    intro l pre c h fuel hf s
    have : fuel = 0 := by simpa using hf
    subst this
    rfl
  | cons d rest ih =>
    intro l pre c h fuel hf s
    cases fuel with
    | zero => rfl
    | succ fuel =>
      have hf' : fuel ≤ rest.length := by simpa using hf
      have hcn : l.nodes c.1 = some ⟨c.2, some d.1, lastAddr pre⟩ := by simpa using h.node_at
      have hdn : l.nodes d.1 = some ⟨d.2, firstAddr rest, some c.1⟩ := by
        simpa using h.node (pre ++ [c]) d rest (by simp)
      have hdc : d.1 ≠ c.1 := by
        have := h.addr_not_mem_right
        simp only [List.map_cons, List.mem_cons, not_or] at this
        exact fun e => this.1 e.symm
      by_cases hlt : (if asc = true then toInt32 (cmp c.2 d.2 * -1) else cmp c.2 d.2) < 0
      · have h1 := rep_set_payload h d.2
        have h1' : ({ l with nodes := store l.nodes c.1 ⟨d.2, some d.1, lastAddr pre⟩ }
            : LinkedList).Rep ((pre ++ [(c.1, d.2)]) ++ d :: rest) := by simpa using h1
        have h2 := rep_set_payload h1' c.2
        have h2' : ({ l with
            nodes := store (store l.nodes c.1 ⟨d.2, some d.1, lastAddr pre⟩) d.1
                       ⟨c.2, firstAddr rest, some c.1⟩ } : LinkedList).Rep
            ((pre ++ [(c.1, d.2)]) ++ (d.1, c.2) :: rest) := by simpa using h2
        have hp := ih h2' fuel hf' true
        have hd1 : deref (store l.nodes c.1 ⟨d.2, some d.1, lastAddr pre⟩) (some d.1)
            = .ok (d.1, ⟨d.2, firstAddr rest, some c.1⟩) :=
          deref_some (by rw [store_other _ _ hdc, hdn])
        simp only [LinkedList_Sort_pass, deref_some hcn, deref_some hdn, ok_bind, hlt,
          if_true, hd1]
        simpa using hp
      · have h' : l.Rep ((pre ++ [c]) ++ d :: rest) := by simpa using h
        have hp := ih h' fuel hf' s
        simp only [LinkedList_Sort_pass, deref_some hcn, deref_some hdn, ok_bind, hlt,
          if_false]
        simpa using hp

/-- The loop of `LinkedList_Sort` is bubble sort on the payloads, the nodes staying
where they are. -/
theorem loop_rep (asc : Bool) (cmp : LLPayloadComparatorFnPtr) (steps : Nat) (A : List Nat) :
    ∀ (fuel : Nat) {l : LinkedList} {P : List LLPayload_t}, l.Rep (A.zip P) →
      A.length = P.length → P ≠ [] → P.length ≤ steps →
      (∀ P', bubbleSort (outOfOrder asc cmp) fuel P = some P' →
        ∃ l', LinkedList_Sort_loop asc cmp steps fuel l = .ok l' ∧ l'.Rep (A.zip P') ∧
          l'.brk = l.brk) ∧
      (bubbleSort (outOfOrder asc cmp) fuel P = none →
        LinkedList_Sort_loop asc cmp steps fuel l = .error .outOfFuel) := by
  intro fuel
  induction fuel with
  | zero =>
    intro l P h hlen hne hst
    exact ⟨fun P' hP => by simp [bubbleSort] at hP, fun _ => rfl⟩
  | succ fuel ih =>
    intro l P h hlen hne hst
    cases P with
    | nil => exact absurd rfl hne
    | cons x ys =>
      cases A with
      | nil => simp at hlen
      | cons a as =>
        have hlen' : as.length = ys.length := by simpa using hlen
        have h' : l.Rep ([] ++ (a, x) :: as.zip ys) := by simpa using h
        have hfst : (as.zip ys).map Prod.fst = as := List.map_fst_zip _ _ (by omega)
        have hsnd : (as.zip ys).map Prod.snd = ys := List.map_snd_zip _ _ (by omega)
        have hsteps : (as.zip ys).length < steps := by
          simp only [List.length_zip, hlen', min_self]
          simpa using hst
        obtain ⟨nodes', hp, hr⟩ := pass_rep asc cmp h' steps hsteps false
        simp only [hfst, hsnd, Bool.false_or, List.nil_append] at hp hr
        have hhead : l.head = some a := by simpa using h.head_eq
        have hbl := bubble_length (outOfOrder asc cmp) x ys
        have hnext := @ih { l with nodes := nodes' } (bubble (outOfOrder asc cmp) x ys).1 hr
          (by simp [hbl, hlen'])
          (by intro e; rw [e] at hbl; simp at hbl)
          (by rw [hbl]; simpa using hst)
        rw [show some (a, x).1 = l.head from hhead.symm] at hp
        simp only [LinkedList_Sort_loop, hp, ok_bind, bubbleSort, bubblePass]
        by_cases hs : (bubble (outOfOrder asc cmp) x ys).2 = true
        · simp only [hs, if_true]
          exact hnext
        · simp only [hs, Bool.false_eq_true, if_false]
          refine ⟨?_, fun hx => by simp at hx⟩
          intro P' hP
          simp only [Option.some.injEq] at hP
          subst hP
          exact ⟨_, rfl, hr, rfl⟩

/-- `LinkedList_Sort` on a well-formed list: nothing on fewer than two nodes, out of
fuel on less fuel than nodes, and bubble sort on the payloads otherwise. -/
theorem sort_rep (asc : Bool) (cmp : LLPayloadComparatorFnPtr) {l : LinkedList}
    {cells : List Cell} (h : l.Rep cells) (fuel : Nat) :
    (cells.length < 2 → LinkedList_Sort fuel l asc cmp = .ok l) ∧
    (2 ≤ cells.length → fuel < cells.length →
      LinkedList_Sort fuel l asc cmp = .error .outOfFuel) ∧
    (2 ≤ cells.length → cells.length ≤ fuel →
      (∀ P', bubbleSort (outOfOrder asc cmp) fuel (cells.map Prod.snd) = some P' →
        ∃ l', LinkedList_Sort fuel l asc cmp = .ok l' ∧
          l'.Rep ((cells.map Prod.fst).zip P') ∧ l'.brk = l.brk) ∧
      (bubbleSort (outOfOrder asc cmp) fuel (cells.map Prod.snd) = none →
        LinkedList_Sort fuel l asc cmp = .error .outOfFuel)) := by
  have hcount := h.count
  refine ⟨?_, ?_, ?_⟩
  · intro hlt
    have : l.num_elements < 2 := by rw [hcount]; exact_mod_cast hlt
    simp [LinkedList_Sort, this]
  · intro h2 hf
    have hn : ¬ l.num_elements < 2 := by rw [hcount]; exact_mod_cast (by omega : ¬ cells.length < 2)
    simp only [LinkedList_Sort, hn, if_false]
    cases cells with
    | nil => simp at h2
    | cons c suf =>
      have h' : l.Rep ([] ++ c :: suf) := h
      cases fuel with
      | zero => rfl
      | succ fuel =>
        have hhead : l.head = some c.1 := by simpa using h.head_eq
        have := pass_short asc cmp h' (fuel + 1) (by simpa using hf) false
        rw [← hhead] at this
        simp [LinkedList_Sort_loop, this]
  · intro h2 hf
    have hn : ¬ l.num_elements < 2 := by rw [hcount]; exact_mod_cast (by omega : ¬ cells.length < 2)
    simp only [LinkedList_Sort, hn, if_false]
    have hz : l.Rep ((cells.map Prod.fst).zip (cells.map Prod.snd)) := by
      rw [zip_fst_snd]; exact h
    exact loop_rep asc cmp fuel (cells.map Prod.fst) fuel hz (by simp)
      (by intro e; rw [List.map_eq_nil_iff] at e; subst e; simp at h2) (by simpa using hf)

/-! ## Proofs: the sort and its comparator -/

theorem outOfOrder_desc (cmp : LLPayloadComparatorFnPtr) (x y : LLPayload_t) :
    outOfOrder false cmp x y = true ↔ cmp x y < 0 := by
  simp [outOfOrder]

theorem toInt32_neg {c : Int} (h1 : -2147483648 < c) (h2 : c ≤ 2147483647) :
    toInt32 (c * -1) = -c := by
  unfold toInt32
  omega

theorem outOfOrder_asc {cmp : LLPayloadComparatorFnPtr} {x y : LLPayload_t}
    (h1 : -2147483648 < cmp x y) (h2 : cmp x y ≤ 2147483647) :
    outOfOrder true cmp x y = true ↔ 0 < cmp x y := by
  simp only [outOfOrder, if_true, toInt32_neg h1 h2, decide_eq_true_eq]
  omega

theorem outOfOrder_asc_false {cmp : LLPayloadComparatorFnPtr} {x y : LLPayload_t}
    (h1 : -2147483648 ≤ cmp x y) (h2 : cmp x y ≤ 2147483647)
    (h : outOfOrder true cmp x y = false) : cmp x y ≤ 0 := by
  simp only [outOfOrder, if_true, decide_eq_false_iff_not, not_lt, toInt32] at h
  omega

theorem outOfOrder_ne_zero {asc : Bool} {cmp : LLPayloadComparatorFnPtr} {x y : LLPayload_t}
    (h : outOfOrder asc cmp x y = true) : cmp x y ≠ 0 := by
  intro h0
  cases asc <;> simp [outOfOrder, h0, toInt32] at h

theorem IsTotalPreorder.eq_zero_symm {cmp : LLPayloadComparatorFnPtr} (h : IsTotalPreorder cmp)
    {x y : LLPayload_t} (hxy : cmp x y = 0) : cmp y x = 0 := by
  have h1 := h.antisymm x y
  have h2 := h.antisymm y x
  omega

theorem IsTotalPreorder.eq_zero_trans {cmp : LLPayloadComparatorFnPtr} (h : IsTotalPreorder cmp)
    {a b x : LLPayload_t} (ha : cmp a x = 0) (hb : cmp b x = 0) : cmp a b = 0 := by
  have hxb := h.eq_zero_symm hb
  have hxa := h.eq_zero_symm ha
  have h1 := h.trans a x b (by omega) (by omega)
  have h2 := h.trans b x a (by omega) (by omega)
  have h3 := h.antisymm a b
  omega

/-- A comparator that is a total preorder and never answers `INT_MIN` makes no pass
swap a pair both ways. -/
theorem outOfOrder_asymm {cmp : LLPayloadComparatorFnPtr} (h : IsTotalPreorder cmp)
    (hmin : ∀ x y, cmp x y ≠ -2147483648) (asc : Bool) (a b : LLPayload_t)
    (hab : outOfOrder asc cmp a b = true) : outOfOrder asc cmp b a = false := by
  have r1 := h.int_range a b
  have r2 := h.int_range b a
  have m1 := hmin a b
  have m2 := hmin b a
  have a1 := h.antisymm a b
  have a2 := h.antisymm b a
  cases asc with
  | false =>
    rw [outOfOrder_desc] at hab
    rw [Bool.eq_false_iff, Ne, outOfOrder_desc]
    omega
  | true =>
    rw [outOfOrder_asc (by omega) r1.2] at hab
    rw [Bool.eq_false_iff, Ne, outOfOrder_asc (by omega) r2.2]
    omega

theorem chain'_of_length_lt_two {α : Type} (R : α → α → Prop) (l : List α) (h : l.length < 2) :
    List.Chain' R l := by
  cases l with
  | nil => exact List.chain'_nil
  | cons x l =>
    cases l with
    | nil => exact List.chain'_singleton x
    | cons y l => simp only [List.length_cons] at h; omega

/-- What `LinkedList_Sort` returns on a well-formed list, whatever the comparator: a
well-formed list of the same nodes whose payloads are a permutation of those of
before, no adjacent pair of which the pass would swap, and in which the payloads of
which no two are ever swapped are in the order of before. -/
theorem sort_sound (asc : Bool) (cmp : LLPayloadComparatorFnPtr) {l : LinkedList} (h : l.WF)
    {fuel : Nat} {l' : LinkedList} (hs : LinkedList_Sort fuel l asc cmp = .ok l') :
    l'.WF ∧ l'.addrs = l.addrs ∧ l'.num_elements = l.num_elements ∧
      l'.toList.Perm l.toList ∧
      List.Chain' (fun a b => outOfOrder asc cmp a b = false) l'.toList ∧
      (∀ p : LLPayload_t → Bool,
        (∀ a b, outOfOrder asc cmp a b = true → ¬ (p a = true ∧ p b = true)) →
        l'.toList.filter p = l.toList.filter p) ∧
      (l.num_elements < 2 → l' = l) := by
  obtain ⟨cells, hr⟩ := h
  obtain ⟨h1, h2, h3⟩ := sort_rep asc cmp hr fuel
  by_cases hlt : cells.length < 2
  · have hsame : l' = l := by
      rw [h1 hlt] at hs
      exact (Except.ok.inj hs).symm
    subst hsame
    refine ⟨⟨cells, hr⟩, rfl, rfl, List.Perm.refl _, ?_, fun _ _ => rfl, fun _ => rfl⟩
    apply chain'_of_length_lt_two
    rw [toList_rep hr]
    simpa using hlt
  · have hge : 2 ≤ cells.length := by omega
    have hnn : ¬ l.num_elements < 2 := by
      rw [hr.count]; exact_mod_cast hlt
    by_cases hf : fuel < cells.length
    · rw [h2 hge hf] at hs
      cases hs
    · obtain ⟨h4, h5⟩ := h3 hge (by omega)
      cases hb : bubbleSort (outOfOrder asc cmp) fuel (cells.map Prod.snd) with
      | none =>
        rw [h5 hb] at hs
        cases hs
      | some P' =>
        obtain ⟨l'', hl'', hr'', _⟩ := h4 P' hb
        rw [hl''] at hs
        have hsame : l'' = l' := Except.ok.inj hs
        subst hsame
        obtain ⟨hperm, hchain, hfil⟩ := bubbleSort_sound _ _ _ _ hb
        have hlen : (cells.map Prod.fst).length = P'.length := by
          rw [hperm.length_eq]; simp
        have hP : ((cells.map Prod.fst).zip P').map Prod.snd = P' :=
          List.map_snd_zip _ _ (by omega)
        have hA : ((cells.map Prod.fst).zip P').map Prod.fst = cells.map Prod.fst :=
          List.map_fst_zip _ _ (by omega)
        refine ⟨⟨_, hr''⟩, ?_, ?_, ?_, ?_, ?_, fun hx => absurd hx hnn⟩
        · rw [addrs_rep hr'', addrs_rep hr, hA]
        · rw [hr''.count, hr.count]
          simp only [List.length_zip, List.length_map] at hlen ⊢
          rw [← hlen]; simp
        · rw [toList_rep hr'', toList_rep hr, hP]; exact hperm
        · rw [toList_rep hr'', hP]; exact hchain
        · intro p hp
          rw [toList_rep hr'', toList_rep hr, hP]
          exact hfil p hp

/-- `LinkedList_Sort` returns on a well-formed list when no pass swaps a pair both
ways and the fuel exceeds the square of the number of elements. -/
theorem sort_total (asc : Bool) (cmp : LLPayloadComparatorFnPtr)
    (has : ∀ a b, outOfOrder asc cmp a b = true → outOfOrder asc cmp b a = false)
    {l : LinkedList} (h : l.WF) {fuel : Nat}
    (hf : l.num_elements * l.num_elements < (fuel : Int)) :
    ∃ l', LinkedList_Sort fuel l asc cmp = .ok l' := by
  obtain ⟨cells, hr⟩ := h
  obtain ⟨h1, _, h3⟩ := sort_rep asc cmp hr fuel
  rw [hr.count] at hf
  have hf' : cells.length * cells.length < fuel := by exact_mod_cast hf
  by_cases hlt : cells.length < 2
  · exact ⟨l, h1 hlt⟩
  · have hle : cells.length ≤ fuel := by nlinarith
    obtain ⟨h4, _⟩ := h3 (by omega) hle
    have hinv := inversions_le (outOfOrder asc cmp) (cells.map Prod.snd)
    simp only [List.length_map] at hinv
    obtain ⟨P', hP'⟩ := bubbleSort_terminates _ has fuel (cells.map Prod.snd) (by omega)
    obtain ⟨l', hl', _⟩ := h4 P' hP'
    exact ⟨l', hl'⟩

/-- The contract of `LinkedList_Sort` for a comparator that is a total preorder and
never answers `INT_MIN`. -/
theorem sort_correct {cmp : LLPayloadComparatorFnPtr} (hc : IsTotalPreorder cmp)
    (hmin : ∀ x y, cmp x y ≠ -2147483648) (asc : Bool) {l : LinkedList} (h : l.WF)
    {fuel : Nat} (hf : l.num_elements * l.num_elements < (fuel : Int)) :
    ∃ l', LinkedList_Sort fuel l asc cmp = .ok l' ∧ l'.WF ∧ l'.addrs = l.addrs ∧
      l'.num_elements = l.num_elements ∧ l'.toList.Perm l.toList ∧
      (asc = true → List.Chain' (fun x y => cmp x y ≤ 0) l'.toList) ∧
      (asc = false → List.Chain' (fun x y => 0 ≤ cmp x y) l'.toList) ∧
      (∀ x, l'.toList.filter (fun z => decide (cmp z x = 0))
        = l.toList.filter (fun z => decide (cmp z x = 0))) ∧
      (l.num_elements < 2 → l' = l) := by
  obtain ⟨l', hs⟩ := sort_total asc cmp (outOfOrder_asymm hc hmin asc) h hf
  obtain ⟨hwf, haddr, hn, hperm, hchain, hfil, hsmall⟩ := sort_sound asc cmp h hs
  refine ⟨l', hs, hwf, haddr, hn, hperm, ?_, ?_, ?_, hsmall⟩
  · rintro rfl
    refine List.Chain'.imp ?_ hchain
    intro a b hab
    exact outOfOrder_asc_false (hc.int_range a b).1 (hc.int_range a b).2 hab
  · rintro rfl
    refine List.Chain'.imp ?_ hchain
    intro a b hab
    have : ¬ cmp a b < 0 := by
      rw [← outOfOrder_desc]; simp [hab]
    omega
  · intro x
    apply hfil
    intro a b hab hp
    simp only [decide_eq_true_eq] at hp
    exact outOfOrder_ne_zero hab (hc.eq_zero_trans hp.1 hp.2)

/-- Every list that `LinkedList_Sort` returns under a total preorder, `INT_MIN` among
its answers or not, holds the payloads that compare equal in the order of before. -/
theorem sort_stable {cmp : LLPayloadComparatorFnPtr} (hc : IsTotalPreorder cmp) (asc : Bool)
    {l : LinkedList} (h : l.WF) {fuel : Nat} {l' : LinkedList}
    (hs : LinkedList_Sort fuel l asc cmp = .ok l') (x : LLPayload_t) :
    l'.toList.filter (fun z => decide (cmp z x = 0))
      = l.toList.filter (fun z => decide (cmp z x = 0)) := by
  apply (sort_sound asc cmp h hs).2.2.2.2.2.1
  intro a b hab hp
  simp only [decide_eq_true_eq] at hp
  exact outOfOrder_ne_zero hab (hc.eq_zero_trans hp.1 hp.2)

/-! ## The contract of the sort (C13) -/

theorem bubbleSort_cycle {α : Type} (sw : α → α → Bool) (S : List α → Prop)
    (hS : ∀ l, S l → (bubblePass sw l).2 = true ∧ S (bubblePass sw l).1) :
    ∀ (fuel : Nat) (l : List α), S l → bubbleSort sw fuel l = none := by
  intro fuel
  induction fuel with
  | zero => intro l _; rfl
  | succ fuel ih =>
    intro l hl
    obtain ⟨h1, h2⟩ := hS l hl
    simp only [bubbleSort, h1, if_true]
    exact ih _ h2

/-- `LinkedList_Sort` runs out of any fuel when bubble sort on the payloads does. -/
theorem sort_diverges (asc : Bool) (cmp : LLPayloadComparatorFnPtr) {l : LinkedList}
    {cells : List Cell} (h : l.Rep cells) (h2 : 2 ≤ cells.length)
    (hb : ∀ fuel, bubbleSort (outOfOrder asc cmp) fuel (cells.map Prod.snd) = none)
    (fuel : Nat) : LinkedList_Sort fuel l asc cmp = .error .outOfFuel := by
  obtain ⟨_, h3, h4⟩ := sort_rep asc cmp h fuel
  by_cases hf : fuel < cells.length
  · exact h3 h2 hf
  · exact (h4 h2 (by omega)).2 (hb fuel)

theorem natCompare_preorder : IsTotalPreorder natCompare := by
  refine ⟨?_, ?_, ?_⟩
  · intro (x : Nat) (y : Nat); unfold natCompare; split_ifs <;> omega
  · intro (x : Nat) (y : Nat); unfold natCompare; split_ifs <;> omega
  · intro (x : Nat) (y : Nat) (z : Nat); unfold natCompare; split_ifs <;> omega

theorem intMinCompare_preorder : IsTotalPreorder intMinCompare := by
  refine ⟨?_, ?_, ?_⟩
  · intro (x : Nat) (y : Nat); unfold intMinCompare; split_ifs <;> omega
  · intro (x : Nat) (y : Nat); unfold intMinCompare; split_ifs <;> omega
  · intro (x : Nat) (y : Nat) (z : Nat); unfold intMinCompare; split_ifs <;> omega

theorem tensIntMinCompare_preorder : IsTotalPreorder tensIntMinCompare := by
  refine ⟨?_, ?_, ?_⟩
  · intro x y; exact intMinCompare_preorder.int_range _ _
  · intro x y; exact intMinCompare_preorder.antisymm _ _
  · intro x y z; exact intMinCompare_preorder.trans _ _ _

theorem natCompare_ne_min (x y : Nat) : natCompare x y ≠ -2147483648 := by
  unfold natCompare; split_ifs <;> omega

/-- C13, the input on which the code fails: `intMinCompare` is a total preorder whose
results are `int`s, and it answers `INT_MIN` for the payloads 1, 2 of a list that is
in ascending order.  The ascending sort multiplies this by -1, which stays `INT_MIN`:
its first pass swaps the pair, into 2, 1, and no amount of fuel lets
`LinkedList_Sort` return, each pass undoing the swap of the one before.  The
descending sort, which does not multiply, returns 2, 1 under the same comparator. -/
theorem LinkedList_Sort_int_min_ascending :
    IsTotalPreorder intMinCompare ∧ (listOf [1, 2]).WF ∧ (listOf [1, 2]).toList = [1, 2] ∧
    intMinCompare 1 2 = -2147483648 ∧ toInt32 (intMinCompare 1 2 * -1) = -2147483648 ∧
    (LinkedList_Sort_pass true intMinCompare 2 (listOf [1, 2]).nodes (listOf [1, 2]).head
      false).map (fun r => (walk r.1 2 (listOf [1, 2]).head, r.2)) = .ok ([2, 1], true) ∧
    (LinkedList_Sort 9 (listOf [1, 2]) false intMinCompare).map LinkedList.toList
      = .ok [2, 1] ∧
    ∀ fuel, LinkedList_Sort fuel (listOf [1, 2]) true intMinCompare = .error .outOfFuel := by
  refine ⟨intMinCompare_preorder, listOf_wf _, by decide, by decide, by decide, by decide,
    by decide, ?_⟩
  obtain ⟨cells, hr, hc⟩ := listOf_rep [1, 2]
  have hlen : cells.length = 2 := by
    have := congrArg List.length hc
    simpa using this
  apply sort_diverges true intMinCompare hr (by omega)
  rw [hc]
  intro fuel
  apply bubbleSort_cycle _ (fun l => l = [1, 2] ∨ l = [2, 1])
  · intro l hl
    rcases hl with rfl | rfl
    · exact ⟨by decide, Or.inr (by decide)⟩
    · exact ⟨by decide, Or.inl (by decide)⟩
  · exact Or.inl rfl

/-- C14, at the list 10, 11, 20 sorted ascending by tens with `INT_MIN` the answer for
less: `tensIntMinCompare` is a total preorder whose results are `int`s, under which
the payloads 10 and 11 compare equal, 10 before 11 in the list, and 20 is greater.  No
amount of fuel lets the ascending `LinkedList_Sort` return: there is no sorted list
in which 10 could stand before 11. -/
theorem LinkedList_Sort_int_min_no_sorted_list :
    IsTotalPreorder tensIntMinCompare ∧ (listOf [10, 11, 20]).WF ∧
    (listOf [10, 11, 20]).toList = [10, 11, 20] ∧
    tensIntMinCompare 10 11 = 0 ∧ tensIntMinCompare 11 20 = -2147483648 ∧
    ∀ fuel,
      LinkedList_Sort fuel (listOf [10, 11, 20]) true tensIntMinCompare = .error .outOfFuel := by
  refine ⟨tensIntMinCompare_preorder, listOf_wf _, by decide, by decide, by decide, ?_⟩
  obtain ⟨cells, hr, hc⟩ := listOf_rep [10, 11, 20]
  have hlen : cells.length = 3 := by
    have := congrArg List.length hc
    simpa using this
  apply sort_diverges true tensIntMinCompare hr (by omega)
  rw [hc]
  intro fuel
  apply bubbleSort_cycle _ (fun l => l = [10, 11, 20] ∨ l = [10, 20, 11] ∨ l = [20, 10, 11])
  · intro l hl
    rcases hl with rfl | rfl | rfl
    · exact ⟨by decide, Or.inr (Or.inl (by decide))⟩
    · exact ⟨by decide, Or.inr (Or.inr (by decide))⟩
    · exact ⟨by decide, Or.inl (by decide)⟩
  · exact Or.inl rfl

/-- The examples of the specification: 3, 1, 2 sorted with the comparator of the
natural order, ascending and descending, and lists of one and of no payload. -/
theorem sort_examples :
    (LinkedList_Sort 9 (listOf [3, 1, 2]) true natCompare).map LinkedList.toList
      = .ok [1, 2, 3] ∧
    (LinkedList_Sort 9 (listOf [3, 1, 2]) false natCompare).map LinkedList.toList
      = .ok [3, 2, 1] ∧
    (LinkedList_Sort 9 (listOf [7]) true natCompare).map LinkedList.toList = .ok [7] ∧
    (LinkedList_Sort 9 (listOf []) true natCompare).map LinkedList.toList = .ok [] :=
  ⟨by decide, by decide, by decide, by decide⟩

/-! ## Proofs: the list invariant -/

theorem follow_path (m : Nat → Option LinkedListNode) :
    ∀ (n : Nat) (p q : Option Nat), follow m n p = some q →
      ∃ cells : List Cell, cells.length = n ∧ Path m p cells q ∧
        walkAddrs m n p = cells.map Prod.fst := by
  intro n
  induction n with
  | zero =>
    intro p q h
    simp only [follow, Option.some.injEq] at h
    exact ⟨[], rfl, h, by simp [walkAddrs]⟩
  | succ n ih =>
    intro p q h
    cases p with
    | none => simp [follow] at h
    | some a =>
      cases hm : m a with
      | none => simp [follow, hm] at h
      | some nd =>
        simp only [follow, hm] at h
        obtain ⟨cells, hl, hp, hw⟩ := ih _ _ h
        exact ⟨(a, nd.payload) :: cells, by simp [hl], ⟨rfl, nd, hm, rfl, hp⟩,
          by simp [walkAddrs, hm, hw]⟩

theorem path_append (m : Nat → Option LinkedListNode) (l1 l2 : List Cell) :
    ∀ (p q : Option Nat), Path m p (l1 ++ l2) q → ∃ r, Path m p l1 r ∧ Path m r l2 q := by
  induction l1 with
  | nil => intro p q h; exact ⟨p, rfl, h⟩
  | cons c l1 ih =>
    intro p q h
    obtain ⟨hp, nd, hm, hpay, hrest⟩ := h
    obtain ⟨r, h1, h2⟩ := ih _ _ hrest
    exact ⟨r, ⟨hp, nd, hm, hpay, h1⟩, h2⟩

theorem path_length_unique (m : Nat → Option LinkedListNode) (l1 : List Cell) :
    ∀ (l2 : List Cell) (p : Option Nat), Path m p l1 none → Path m p l2 none →
      l1.length = l2.length := by
  induction l1 with
  | nil =>
    intro l2 p h1 h2
    cases l2 with
    | nil => rfl
    | cons d ds =>
      have e1 : p = none := h1
      have e2 : p = some d.1 := h2.1
      rw [e1] at e2
      cases e2
  | cons c cs ih =>
    intro l2 p h1 h2
    obtain ⟨hp, nd, hm, _, hrest⟩ := h1
    cases l2 with
    | nil =>
      have e2 : p = none := h2
      rw [hp] at e2
      cases e2
    | cons d ds =>
      obtain ⟨hp2, nd2, hm2, _, hrest2⟩ := h2
      have e : c.1 = d.1 := by
        rw [hp] at hp2
        exact Option.some.inj hp2
      rw [← e, hm] at hm2
      have e2 : nd = nd2 := Option.some.inj hm2
      subst e2
      simp [ih ds _ hrest hrest2]

theorem path_nodup (m : Nat → Option LinkedListNode) (cells : List Cell) :
    ∀ (p : Option Nat), Path m p cells none → (cells.map Prod.fst).Nodup := by
  induction cells with
  | nil => intro p _; simp
  | cons c cs ih =>
    intro p h
    have hfull := h
    obtain ⟨hp, nd, hm, _, hrest⟩ := h
    simp only [List.map_cons, List.nodup_cons]
    refine ⟨?_, ih _ hrest⟩
    intro hmem
    obtain ⟨d, hd, hdc⟩ := List.mem_map.1 hmem
    obtain ⟨l1, l2, hs⟩ := List.append_of_mem hd
    rw [hs] at hrest
    obtain ⟨r, _, h2⟩ := path_append m l1 (d :: l2) _ _ hrest
    have hr : r = p := by
      have : r = some d.1 := h2.1
      rw [this, hdc, hp]
    rw [hr] at h2
    have := path_length_unique m _ _ p hfull h2
    rw [hs] at this
    simp at this
    omega

theorem path_node (m : Nat → Option LinkedListNode) {p : Option Nat} {l1 l2 : List Cell}
    {c : Cell} (h : Path m p (l1 ++ c :: l2) none) :
    ∃ nd, m c.1 = some nd ∧ nd.payload = c.2 ∧ nd.next = firstAddr l2 ∧
      (l1 = [] → p = some c.1) := by
  obtain ⟨r, h1, h2⟩ := path_append m l1 (c :: l2) _ _ h
  obtain ⟨hr, nd, hm, hpay, hrest⟩ := h2
  refine ⟨nd, hm, hpay, ?_, ?_⟩
  · cases l2 with
    | nil => exact hrest
    | cons d l2 => exact hrest.1
  · rintro rfl
    have : p = r := h1
    rw [this, hr]

theorem follow_rep {l : LinkedList} {l1 l2 : List Cell} (h : l.Rep (l1 ++ l2)) :
    follow l.nodes l2.length (firstAddr l2) = some none := by
  induction l2 generalizing l1 with
  | nil => rfl
  | cons c l2 ih =>
    have h' : l.Rep ((l1 ++ [c]) ++ l2) := by simpa using h
    have := ih h'
    simp [follow, h.node_at, this]

/-- The invariant of the specification is the well-formedness the proofs work with. -/
theorem inv_iff_wf (l : LinkedList) : l.Inv ↔ l.WF := by
  constructor
  · intro h
    obtain ⟨cells, hlen, hpath, hw⟩ := follow_path _ _ _ _ h.reach
    have haddr : l.addrs = cells.map Prod.fst := hw
    refine ⟨cells, ?_, ?_, ?_, path_nodup _ _ _ hpath, ?_, ?_⟩
    · have := h.count_nonneg
      rw [hlen]
      omega
    · cases cells with
      | nil => exact hpath
      | cons c cs => exact hpath.1
    · rw [h.tail_last, haddr, lastAddr_eq_map]
    · intro c hc
      exact h.frontier c.1 (by rw [haddr]; exact List.mem_map_of_mem _ hc)
    · intro l1 c l2 hs
      subst hs
      obtain ⟨nd, hm, hpay, hnext, hfirst⟩ := path_node _ hpath
      have hprev : nd.prev = lastAddr l1 := by
        rcases eq_nil_or_snoc l1 with rfl | ⟨L, b, rfl⟩
        · exact h.head_prev c.1 nd (hfirst rfl) hm
        · have hpath' : Path l.nodes l.head (L ++ b :: (c :: l2)) none := by simpa using hpath
          obtain ⟨nb, hmb, _, hnb, _⟩ := path_node _ hpath'
          have hb : b.1 ∈ l.addrs := by rw [haddr]; simp
          rw [lastAddr_snoc]
          exact h.back b.1 hb nb c.1 nd hmb (by rw [hnb]; rfl) hm
      rw [hm]
      cases nd
      simp only [LinkedListNode.mk.injEq, Option.some.injEq] at hpay hnext hprev ⊢
      exact ⟨hpay, hnext, hprev⟩
  · rintro ⟨cells, hr⟩
    have haddr := addrs_rep hr
    have hr0 : l.Rep ([] ++ cells) := hr
    refine ⟨by rw [hr.count]; simp, ?_, ?_, ?_, ?_, ?_, ?_, ?_, ?_⟩
    · have := follow_rep hr0
      rw [hr.head_eq, hr.count]
      simpa using this
    · rw [hr.head_eq, hr.count]
      cases cells with
      | nil => simp
      | cons c cs => simp; omega
    · rw [hr.tail_eq, hr.count]
      rcases eq_nil_or_snoc cells with rfl | ⟨L, b, rfl⟩
      · simp
      · simp; omega
    · rw [hr.tail_eq, haddr, lastAddr_eq_map]
    · intro a nd ha hm
      cases cells with
      | nil => rw [hr.head_eq] at ha; simp at ha
      | cons c cs =>
        rw [hr.head_eq] at ha
        simp only [firstAddr_cons, Option.some.injEq] at ha
        subst ha
        rw [hr.head_node] at hm
        cases hm
        rfl
    · intro a nd ha hm
      rcases eq_nil_or_snoc cells with rfl | ⟨L, b, rfl⟩
      · rw [hr.tail_eq] at ha; simp at ha
      · rw [hr.tail_eq, lastAddr_snoc] at ha
        simp only [Option.some.injEq] at ha
        subst ha
        have hr' : l.Rep (L ++ b :: []) := hr
        rw [hr'.node_at] at hm
        cases hm
        rfl
    · intro a ha na b nb hma hnext hmb
      rw [haddr] at ha
      obtain ⟨c, hc, rfl⟩ := List.mem_map.1 ha
      obtain ⟨l1, l2, rfl⟩ := List.append_of_mem hc
      rw [hr.node_at] at hma
      cases hma
      cases l2 with
      | nil => simp at hnext
      | cons d l2 =>
        simp only [firstAddr_cons, Option.some.injEq] at hnext
        subst hnext
        have := hr.node (l1 ++ [c]) d l2 (by simp)
        rw [this] at hmb
        cases hmb
        simp
    · intro a ha
      rw [haddr] at ha
      obtain ⟨c, hc, rfl⟩ := List.mem_map.1 ha
      exact hr.fresh c hc

/-! ## The contract of the list: the invariant (C12) -/

/-- C12. The list invariant holds of the list `LinkedList_Allocate` makes, and on a
list that satisfies it `LinkedList_Push`, `LinkedList_Append`, `LinkedList_Pop`,
`LLSlice` and `LLIterator_Remove` (at a node of the list) return a list that satisfies
it.  So does every list that `LinkedList_Sort` returns, whatever the comparator, and
`LinkedList_Sort` does return one when the comparator is a total preorder that never
answers `INT_MIN` and the fuel exceeds the square of the number of elements. -/
theorem LinkedList_Inv_preserved {σ : Type} (l : LinkedList) (h : l.Inv) :
    LinkedList_Allocate.Inv ∧
    (∀ x, ∃ l', LinkedList_Push l x = .ok l' ∧ l'.Inv) ∧
    (∀ x, ∃ l', LinkedList_Append l x = .ok l' ∧ l'.Inv) ∧
    (∃ l' r, LinkedList_Pop l = .ok (l', r) ∧ l'.Inv) ∧
    (∃ l' r, LLSlice l = .ok (l', r) ∧ l'.Inv) ∧
    (∀ fuel ascending comparator l',
      LinkedList_Sort fuel l ascending comparator = .ok l' → l'.Inv) ∧
    (∀ (fuel : Nat) ascending comparator, IsTotalPreorder comparator →
      (∀ x y, comparator x y ≠ -2147483648) →
      l.num_elements * l.num_elements < (fuel : Int) →
      ∃ l', LinkedList_Sort fuel l ascending comparator = .ok l' ∧ l'.Inv) ∧
    (∀ (iter : LLIterator) (f : LLPayload_t → σ → σ) (s : σ),
      (∃ a ∈ l.addrs, iter.node = some a) →
      ∃ l' iter' s' b, LLIterator_Remove l iter f s = .ok (l', iter', s', b) ∧ l'.Inv) := by
  have hwf := (inv_iff_wf l).1 h
  obtain ⟨cells, hr⟩ := hwf
  refine ⟨(inv_iff_wf _).2 ⟨[], rep_allocate⟩, ?_, ?_, ?_, ?_, ?_, ?_, ?_⟩
  · intro x
    obtain ⟨l', hp, hr'⟩ := push_rep hr x
    exact ⟨l', hp, (inv_iff_wf _).2 ⟨_, hr'⟩⟩
  · intro x
    obtain ⟨l', hp, hr', _⟩ := append_rep hr x
    exact ⟨l', hp, (inv_iff_wf _).2 ⟨_, hr'⟩⟩
  · cases cells with
    | nil => exact ⟨l, none, pop_rep_nil hr, h⟩
    | cons c cs =>
      obtain ⟨l', hp, hr', _⟩ := pop_rep_cons hr
      exact ⟨l', _, hp, (inv_iff_wf _).2 ⟨_, hr'⟩⟩
  · rcases eq_nil_or_snoc cells with rfl | ⟨L, c, rfl⟩
    · exact ⟨l, none, slice_rep_nil hr, h⟩
    · obtain ⟨l', hp, hr', _⟩ := slice_rep_snoc hr
      exact ⟨l', _, hp, (inv_iff_wf _).2 ⟨_, hr'⟩⟩
  · intro fuel asc cmp l' hs
    exact (inv_iff_wf _).2 (sort_sound asc cmp ⟨cells, hr⟩ hs).1
  · intro fuel asc cmp hc hmin hf
    obtain ⟨l', hs, hwf', _⟩ := sort_correct hc hmin asc ⟨cells, hr⟩ hf
    exact ⟨l', hs, (inv_iff_wf _).2 hwf'⟩
  · rintro ⟨node⟩ f s ⟨a, ha, hnode⟩
    simp only at hnode
    subst hnode
    obtain ⟨A1, A2, hs⟩ := List.append_of_mem ha
    obtain ⟨l', x, _, _, hrem, hwf', _⟩ := remove_at_addr ⟨cells, hr⟩ hs f s
    exact ⟨l', _, _, _, hrem, (inv_iff_wf _).2 hwf'⟩

/-- C12 at the list of payloads 3, 1, 2, with the comparator of the natural order
and the iterator on its middle node. -/
theorem LinkedList_Inv_preserved_witness :
    (listOf [3, 1, 2]).Inv ∧
    LinkedList_Allocate.Inv ∧
    (∀ x, ∃ l', LinkedList_Push (listOf [3, 1, 2]) x = .ok l' ∧ l'.Inv) ∧
    (∀ x, ∃ l', LinkedList_Append (listOf [3, 1, 2]) x = .ok l' ∧ l'.Inv) ∧
    (∃ l' r, LinkedList_Pop (listOf [3, 1, 2]) = .ok (l', r) ∧ l'.Inv) ∧
    (∃ l' r, LLSlice (listOf [3, 1, 2]) = .ok (l', r) ∧ l'.Inv) ∧
    (∃ l', LinkedList_Sort 10 (listOf [3, 1, 2]) true natCompare = .ok l' ∧ l'.Inv) ∧
    (∃ l' iter' s' b, LLIterator_Remove (listOf [3, 1, 2]) ⟨some 1⟩ (fun _ (s : Unit) => s) ()
      = .ok (l', iter', s', b) ∧ l'.Inv) :=
  have hinv : (listOf [3, 1, 2]).Inv := (inv_iff_wf _).2 (listOf_wf [3, 1, 2])
  have hw := @LinkedList_Inv_preserved Unit (listOf [3, 1, 2]) hinv
  ⟨hinv, hw.1, hw.2.1, hw.2.2.1, hw.2.2.2.1, hw.2.2.2.2.1,
   hw.2.2.2.2.2.2.1 10 true natCompare natCompare_preorder natCompare_ne_min (by decide),
   hw.2.2.2.2.2.2.2 ⟨some 1⟩ (fun _ s => s) () ⟨1, by decide, rfl⟩⟩

/-! ## The contract of the sort: stability (C14) -/

theorem tensCompare_preorder : IsTotalPreorder tensCompare := by
  refine ⟨?_, ?_, ?_⟩
  · intro x y; exact natCompare_preorder.int_range _ _
  · intro x y; exact natCompare_preorder.antisymm _ _
  · intro x y z; exact natCompare_preorder.trans _ _ _

theorem tensCompare_ne_min (x y : Nat) : tensCompare x y ≠ -2147483648 :=
  natCompare_ne_min _ _

/-- A descending pass swaps no pair both ways under a total preorder, and neither does
an ascending one under a total preorder that never answers `INT_MIN`. -/
theorem outOfOrder_asymm_of {cmp : LLPayloadComparatorFnPtr} (h : IsTotalPreorder cmp)
    (asc : Bool) (hmin : asc = false ∨ ∀ x y, cmp x y ≠ -2147483648) (a b : LLPayload_t)
    (hab : outOfOrder asc cmp a b = true) : outOfOrder asc cmp b a = false := by
  rcases hmin with rfl | hmin
  · have a1 := h.antisymm a b
    rw [outOfOrder_desc] at hab
    rw [Bool.eq_false_iff, Ne, outOfOrder_desc]
    omega
  · exact outOfOrder_asymm h hmin asc a b hab

theorem IsTotalPreorder.refl {cmp : LLPayloadComparatorFnPtr} (h : IsTotalPreorder cmp)
    (x : LLPayload_t) : cmp x x = 0 := by
  have := h.antisymm x x
  omega

/-- The contract of C14 for the lists that the sort returns.  `LinkedList_Sort` is
stable, ascending and descending: on a well-formed list
and under a comparator that is a total preorder, every list it returns holds the
payloads that compare equal to a given one in the order the input held them; so two
payloads that compare equal, the first somewhere before the second in the input, are
in that order in the sorted list.  The sorted list exists, for fuel above the square
of the number of elements, when the sort is descending or the comparator never
answers `INT_MIN`. -/
theorem LinkedList_Sort_stable (l : LinkedList) (h : l.WF)
    (comparator : LLPayloadComparatorFnPtr) (hc : IsTotalPreorder comparator)
    (ascending : Bool) :
    (∀ fuel l', LinkedList_Sort fuel l ascending comparator = .ok l' →
      (∀ x, l'.toList.filter (fun z => decide (comparator z x = 0))
        = l.toList.filter (fun z => decide (comparator z x = 0))) ∧
      (∀ x y, comparator x y = 0 → List.Sublist [x, y] l.toList →
        List.Sublist [x, y] l'.toList)) ∧
    ((ascending = false ∨ ∀ x y, comparator x y ≠ -2147483648) →
      ∀ fuel : Nat, l.num_elements * l.num_elements < (fuel : Int) →
        ∃ l', LinkedList_Sort fuel l ascending comparator = .ok l') := by
  refine ⟨?_, ?_⟩
  · intro fuel l' hs
    have hfil := sort_stable hc ascending h hs
    refine ⟨hfil, ?_⟩
    intro x y hxy hsub
    have h1 := hsub.filter (fun z => decide (comparator z y = 0))
    have hx : decide (comparator x y = 0) = true := by simpa using hxy
    have hy : decide (comparator y y = 0) = true := by simpa using hc.refl y
    simp only [List.filter_cons, hx, hy, if_true, List.filter_nil] at h1
    rw [← hfil y] at h1
    exact h1.trans (List.filter_sublist _)
  · intro hmin fuel hf
    exact sort_total ascending comparator (outOfOrder_asymm_of hc ascending hmin) h hf

/-- The contract of C14 at the list 20, 11, 10, 21 sorted by tens, ascending: 11 stays
before 10 and 20 before 21. -/
theorem LinkedList_Sort_stable_witness :
    (LinkedList_Sort 20 (listOf [20, 11, 10, 21]) true tensCompare).map LinkedList.toList
      = .ok [11, 10, 20, 21] ∧
    (∀ fuel l', LinkedList_Sort fuel (listOf [20, 11, 10, 21]) true tensCompare = .ok l' →
      (∀ x, l'.toList.filter (fun z => decide (tensCompare z x = 0))
        = (listOf [20, 11, 10, 21]).toList.filter (fun z => decide (tensCompare z x = 0))) ∧
      (∀ x y, tensCompare x y = 0 → List.Sublist [x, y] (listOf [20, 11, 10, 21]).toList →
        List.Sublist [x, y] l'.toList)) ∧
    ∃ l', LinkedList_Sort 20 (listOf [20, 11, 10, 21]) true tensCompare = .ok l' :=
  have hw := LinkedList_Sort_stable (listOf [20, 11, 10, 21]) (listOf_wf _) tensCompare
    tensCompare_preorder true
  ⟨by decide, hw.1, hw.2 (Or.inr tensCompare_ne_min) 20 (by decide)⟩

/-! ## Proofs: the tables that a client can reach -/

theorem ok_pair_inj {α β : Type} {a a' : α} {b b' : β}
    (h : (Except.ok (a, b) : Except Fault (α × β)) = .ok (a', b')) : a = a' ∧ b = b' :=
  Prod.mk.inj (Except.ok.inj h)

/-- A table that the client can reach within the range of `int` satisfies the
invariant and holds at most three records for each bucket. -/
theorem reachable_load {t : HashTable} (h : Reachable t) :
    ∃ bs, TInv t bs ∧ t.num_elements ≤ 3 * (t.num_buckets : Int) := by
  induction h with
  | @allocate n t hn _ ha =>
    obtain ⟨_, hT0, _, hz⟩ := allocate_ok ha
    exact ⟨_, hT0, by rw [hz]; exact_mod_cast Nat.zero_le _⟩
  | @insert t t' kv old fuel _ hfit hf hi ih =>
    obtain ⟨bs, hT, hload⟩ := ih
    obtain ⟨t'', bs', hi', hT', _, hn, hsame, hres, _⟩ := insert_spec hT hfit kv fuel hf
    rw [hi] at hi'
    have : t' = t'' := (ok_pair_inj hi').1
    subst this
    refine ⟨bs', hT', ?_⟩
    have hnb := hT.nb_pos
    have hle : t'.num_elements ≤ t.num_elements + 1 := by
      rw [hn]; split_ifs <;> omega
    by_cases hc : t.num_elements < 3 * (t.num_buckets : Int)
    · rw [(hsame hc).1]
      omega
    · have := (hres (by omega)).1
      have h9 : (9 : Int) * (t.num_buckets : Int) ≤ (t'.num_buckets : Int) := by exact_mod_cast this
      omega
  | @remove t t' k r fuel _ hf hr ih =>
    obtain ⟨bs, hT, hload⟩ := ih
    obtain ⟨t'', hr', hT', hnb, hn, _⟩ := remove_spec hT k fuel hf
    rw [hr] at hr'
    have : t' = t'' := (ok_pair_inj hr').1
    subst this
    refine ⟨_, hT', ?_⟩
    rw [hnb, hn]
    split_ifs <;> omega
  | @iterator_remove t t' it it' r fuel _ hon hf hr ih =>
    obtain ⟨bs, hT, hload⟩ := ih
    cases hv : HTIterator_IsValid it with
    | false =>
      rw [iterator_remove_invalid hv] at hr
      have : t = t' := (ok_pair_inj hr).1
      subst this
      exact ⟨bs, hT, hload⟩
    | true =>
      obtain ⟨i, l, c1, c, c2, b1, r0, b2, rfl, hl, hb, hrep, hk1, hkc, hk2⟩ :=
        position_of_on hT hon hv
      obtain ⟨it1, t'', _, _, hrem, _, hT', hnb, hn, _⟩ :=
        iter_remove_spec hT hl hb hrep hk1 hkc hk2 hf
      rw [hr] at hrem
      have : t' = t'' := (ok_pair_inj hrem).1
      subst this
      refine ⟨_, hT', ?_⟩
      rw [hnb, hn]
      omega

/-- The loop of `MaybeResize` returns the same table with an insertion that returns
whatever the given one returns. -/
theorem resize_loop_mono
    {ins ins' : HashTable → HTKeyValue_t → Except Fault (HashTable × Option HTKeyValue_t)}
    (t : HashTable)
    (hins : ∀ u kv r, ins u kv = .ok r → ins' u kv = .ok r) :
    ∀ (fuel : Nat) (it : HTIterator) (u u' : HashTable),
      MaybeResize_loop ins t fuel it u = .ok u' →
      MaybeResize_loop ins' t fuel it u = .ok u' := by
  intro fuel
  induction fuel with
  | zero => intro it u u' h; simp [MaybeResize_loop] at h
  | succ fuel ih =>
    intro it u u' h
    simp only [MaybeResize_loop] at h ⊢
    by_cases hv : HTIterator_IsValid it = true
    · simp only [hv, if_true] at h ⊢
      cases hg : HTIterator_Get t it with
      | error e => simp [hg] at h
      | ok o =>
        cases o with
        | none => simp [hg] at h
        | some item =>
          simp only [hg, ok_bind] at h ⊢
          cases hi : ins u item with
          | error e => simp [hi] at h
          | ok p =>
            rw [hins u item p hi]
            obtain ⟨u1, o1⟩ := p
            simp only [hi, ok_bind] at h ⊢
            cases hn : HTIterator_Next t it with
            | error e => simp [hn] at h
            | ok q =>
              obtain ⟨it1, b⟩ := q
              simp only [hn, ok_bind] at h ⊢
              exact ih _ _ _ h
    · simp only [hv, Bool.false_eq_true, if_false] at h ⊢
      exact h

/-- The loop of `MaybeResize` with the check returns what the loop without it returns. -/
theorem loop_of_guarded (f : Nat) (t : HashTable) :
    ∀ (fuel : Nat) (it : HTIterator) (u u' : HashTable),
      MaybeResize_loop (insertNoResize f) t fuel it u = .ok u' →
      MaybeResize_loop (innerInsert f) t fuel it u = .ok u' := by
  apply resize_loop_mono
  intro u kv r h
  unfold insertNoResize at h
  by_cases hc : u.num_elements < toInt32 (3 * (u.num_buckets : Int))
  · rw [if_pos hc] at h
    exact h
  · rw [if_neg hc] at h
    cases h

/-! ## The load of a table that a client can reach (C21) -/

/-- The resize of a table that holds exactly three records for each bucket and on which
the `int` products are exact: the loop of `MaybeResize` fills a table of nine times
the buckets, and no insertion of the loop finds that table in need of a resize. -/
theorem resize_exact {t : HashTable} {bs : List (List HTKeyValue_t)} (hT : TInv t bs)
    (hfit : t.Fits) (hfull : t.num_elements = 3 * (t.num_buckets : Int)) (f : Nat)
    (hf : t.num_elements < (f : Int) + 1) :
    ∃ newht it t' bs',
      HashTable_Allocate (toInt32 ((t.num_buckets : Int) * 9)) = .ok newht ∧
      HTIterator_Allocate t = .ok it ∧
      MaybeResize_loop (insertNoResize f) t (f + 1) it newht = .ok t' ∧
      MaybeResize_loop (innerInsert f) t (f + 1) it newht = .ok t' ∧
      MaybeResize (f + 1) t = .ok t' ∧ TInv t' bs' ∧
      t'.num_buckets = 9 * t.num_buckets ∧ t'.num_elements = t.num_elements := by
  have hnb := hT.nb_pos
  have hfit1 := hfit.1
  have hfit2 := hfit.2
  have hc : ¬ t.num_elements < toInt32 (3 * (t.num_buckets : Int)) := by
    rw [hfit.test]; omega
  obtain ⟨newht, hal, hnew, hnewnb, hnewn⟩ := allocate_tinv (n := t.num_buckets * 9) (by omega)
  rw [← hfit.ninefold (by omega)] at hal
  obtain ⟨it, hit0, hit⟩ := allocate_spec hT
  have hN := hT.num_eq_flatten
  have hins : ∀ u cs kv, TInv u cs → u.num_buckets = 9 * t.num_buckets →
      u.num_elements < (bs.flatten.length : Int) →
      absLookup u.num_buckets cs kv.key = none →
      ∃ u' cs' o, insertNoResize f u kv = .ok (u', o) ∧ TInv u' cs' ∧
        u'.num_buckets = 9 * t.num_buckets ∧
        u'.num_elements = u.num_elements + 1 ∧
        ∀ k, absLookup u'.num_buckets cs' k =
          if k = kv.key then some kv else absLookup u.num_buckets cs k := by
    intro u cs kv hu hJ hlt hnone
    have hguard : u.num_elements < toInt32 (3 * (u.num_buckets : Int)) := by
      rw [toInt32_eq (by omega) (by rw [hJ]; push_cast; omega), hJ]
      push_cast
      omega
    obtain ⟨u2, hb2, hu2, hnb2, hn2⟩ := insert_body_spec hu kv f (by omega)
    rw [hnone] at hb2 hn2
    simp only [Option.isSome_none, Bool.false_eq_true, if_false] at hn2
    refine ⟨u2, _, none, ?_, hu2, by rw [hnb2, hJ], hn2, ?_⟩
    · unfold insertNoResize
      rw [if_pos hguard]
      simp [innerInsert, maybeResize_noop f u hguard, hb2]
    · intro k
      rw [hnb2, absLookup_insert hu.nb_pos (hu.rep.1.symm.trans hu.len)]
  obtain ⟨u', cs', hloop, hu', hJ', hn', _⟩ := resize_loop_spec hT hins bs.flatten [] it
    newht _ (f + 1) hit hnew (by rw [hnewnb]; omega) (by simp [hnewn]) (by simp)
    (by simpa using keys_flatten_nodup hT.abs)
    (by intro k; rw [absLookup_replicate]; rfl) (by omega)
  have hreal := loop_of_guarded f t _ _ _ _ hloop
  obtain ⟨_, hfree⟩ := free_spec hT (fun _ (u : Unit) => u) ()
    (by omega : t.num_elements < ((f + 1 : Nat) : Int))
  refine ⟨newht, it, u', cs', hal, hit0, hloop, hreal, ?_, hu', hJ', by rw [hn', hN]⟩
  rw [maybeResize_succ _ _ hc]
  simp [hal, hit0, hreal, hfree]

theorem insertAll_reachable (fuel : Nat) (kvs : List HTKeyValue_t) :
    ∀ {t : HashTable}, Reachable t → 3 * (t.num_buckets : Int) ≤ 2147483647 →
      9 * (t.num_elements + kvs.length) ≤ 2147483647 →
      t.num_elements + kvs.length ≤ (fuel : Int) →
      ∃ t', insertAll fuel kvs t = .ok t' ∧ Reachable t' := by
  induction kvs with
  | nil => intro t h _ _ _; exact ⟨t, rfl, h⟩
  | cons kv kvs ih =>
    intro t h h3 h9 hf
    simp only [List.length_cons, Nat.cast_add, Nat.cast_one] at hf h9
    obtain ⟨bs, hT, _⟩ := reachable_load h
    have hfit : t.Fits := ⟨h3, by omega⟩
    obtain ⟨t1, bs1, hi, _, _, hn1, _, _, h31⟩ := insert_spec hT hfit kv fuel (by omega)
    have hle : t1.num_elements ≤ t.num_elements + 1 := by
      rw [hn1]; split_ifs <;> omega
    obtain ⟨t', hrec, hr'⟩ := ih (Reachable.insert h hfit (by omega) hi) h31 (by omega)
      (by omega)
    exact ⟨t', by simp [insertAll, hi, hrec], hr'⟩

theorem tableOf_reachable {fuel n : Nat} (hn : 0 < n) (h3 : 3 * (n : Int) ≤ 2147483647)
    (kvs : List HTKeyValue_t) (h9 : 9 * (kvs.length : Int) ≤ 2147483647)
    (hf : kvs.length ≤ fuel) : Reachable (tableOf fuel n kvs) := by
  obtain ⟨t', hr, hreach⟩ := insertAll_reachable fuel kvs
    (Reachable.allocate (n := (n : Int)) (by exact_mod_cast hn) (by omega)
      (emptyTable_tinv hn).1)
    (by show 3 * ((n : Nat) : Int) ≤ 2147483647; exact h3)
    (by show 9 * ((0 : Int) + _) ≤ _; simpa using h9)
    (by show (0 : Int) + _ ≤ _; simp; exact_mod_cast hf)
  unfold tableOf
  rw [hr]
  exact hreach

/-- The client can reach the empty table of 800000000 buckets:
`HashTable_Allocate(800000000)` makes it. -/
theorem overflow_reachable : Reachable (emptyTable 800000000) :=
  Reachable.allocate (n := 800000000) (by decide) (by decide) overflow_table.1

/-- C21, at the table that `HashTable_Allocate(800000000)` makes: the test of
`MaybeResize` fails on it, as the `int` product `3 * num_buckets` is negative, and the
resize starts with no element, not with `3 × num_buckets` = 2400000000; the
`Verify333(num_buckets > 0)` of `HashTable_Allocate` then fails on the `int` product
`num_buckets * 9`, so no insertion leaves a table. -/
theorem HashTable_load_overflow :
    Reachable (emptyTable 800000000) ∧
    ¬ (emptyTable 800000000).num_elements
        < toInt32 (3 * ((emptyTable 800000000).num_buckets : Int)) ∧
    (emptyTable 800000000).num_elements = 0 ∧
    3 * ((emptyTable 800000000).num_buckets : Int) = 2400000000 ∧
    HashTable_Allocate (toInt32 (((emptyTable 800000000).num_buckets : Int) * 9))
      = .error .verify ∧
    ∀ (fuel : Nat) (kv : HTKeyValue_t),
      HashTable_Insert (fuel + 1) (emptyTable 800000000) kv = .error .verify :=
  ⟨overflow_reachable, overflow_test.2, rfl, by decide, overflow_allocate.2, insert_overflow⟩

/-- The contract of C21 within the range of `int`.  A table reached from
`HashTable_Allocate(n)`, `n > 0`, by calls of `HashTable_Insert` on tables on which
the `int` products of `MaybeResize` are exact, of `HashTable_Remove` and of
`HTIterator_Remove` satisfies the invariant and holds at most `3 × num_buckets`
elements.  So when `MaybeResize` resizes it, the products being exact, it holds exactly
`3 × num_buckets` elements; the loop of `MaybeResize` then fills a table of
`9 × num_buckets` buckets, and it returns the same table with a check in front of
each of its insertions that the table it inserts into is not itself due for a resize:
no nested resize.  `HashTable_Insert` on such a table leaves a table of `num_buckets`
or of `9 × num_buckets` buckets. -/
theorem HashTable_load_bound (t : HashTable) (h : Reachable t) :
    t.Inv ∧ t.num_elements ≤ 3 * (t.num_buckets : Int) ∧
    (t.Fits → ¬ t.num_elements < toInt32 (3 * (t.num_buckets : Int)) →
      t.num_elements = 3 * (t.num_buckets : Int)) ∧
    (t.Fits → ¬ t.num_elements < toInt32 (3 * (t.num_buckets : Int)) →
      ∀ fuel : Nat, t.num_elements < (fuel : Int) + 1 →
      ∃ newht it t',
        HashTable_Allocate (toInt32 ((t.num_buckets : Int) * 9)) = .ok newht ∧
        HTIterator_Allocate t = .ok it ∧
        MaybeResize_loop (insertNoResize fuel) t (fuel + 1) it newht = .ok t' ∧
        MaybeResize_loop (innerInsert fuel) t (fuel + 1) it newht = .ok t' ∧
        MaybeResize (fuel + 1) t = .ok t' ∧
        t'.num_buckets = 9 * t.num_buckets ∧ t'.num_elements = t.num_elements) ∧
    (t.Fits → ∀ (kv : HTKeyValue_t) (fuel : Nat), t.num_elements < (fuel : Int) →
      ∃ t' old, HashTable_Insert fuel t kv = .ok (t', old) ∧ Reachable t' ∧
        t'.num_buckets =
          (if t.num_elements < 3 * (t.num_buckets : Int) then t.num_buckets
           else 9 * t.num_buckets)) := by
  obtain ⟨bs, hT, hload⟩ := reachable_load h
  refine ⟨(inv_of_tinv hT).1, hload, ?_, ?_, ?_⟩
  · intro hfit hc
    rw [hfit.test] at hc
    omega
  · intro hfit hc fuel hf
    rw [hfit.test] at hc
    obtain ⟨newht, it, t', bs', h1, h2, h3, h4, h5, _, h7, h8⟩ :=
      resize_exact hT hfit (by omega) fuel hf
    exact ⟨newht, it, t', h1, h2, h3, h4, h5, h7, h8⟩
  · intro hfit kv fuel hf
    obtain ⟨t', bs', hi, _, _, _, hsame, hres, _⟩ := insert_spec hT hfit kv fuel hf
    refine ⟨t', _, hi, Reachable.insert h hfit hf hi, ?_⟩
    by_cases hc : t.num_elements < 3 * (t.num_buckets : Int)
    · simp only [hc, if_true]
      exact (hsame hc).1
    · simp only [hc, if_false]
      exact (hres (by omega)).2 (by have := hT.nb_pos; omega)

/-- The contract of C21 at the table of keys 1, 2, 3 in one bucket, which the next
insertion resizes. -/
theorem HashTable_load_bound_witness :
    ¬ (tableOf 9 1 [⟨1, 10⟩, ⟨2, 20⟩, ⟨3, 30⟩]).num_elements
        < toInt32 (3 * ((tableOf 9 1 [⟨1, 10⟩, ⟨2, 20⟩, ⟨3, 30⟩]).num_buckets : Int)) ∧
    (tableOf 9 1 [⟨1, 10⟩, ⟨2, 20⟩, ⟨3, 30⟩]).Inv ∧
    (tableOf 9 1 [⟨1, 10⟩, ⟨2, 20⟩, ⟨3, 30⟩]).num_elements
      = 3 * ((tableOf 9 1 [⟨1, 10⟩, ⟨2, 20⟩, ⟨3, 30⟩]).num_buckets : Int) ∧
    (∃ newht it t',
      HashTable_Allocate
        (toInt32 (((tableOf 9 1 [⟨1, 10⟩, ⟨2, 20⟩, ⟨3, 30⟩]).num_buckets : Int) * 9))
        = .ok newht ∧
      HTIterator_Allocate (tableOf 9 1 [⟨1, 10⟩, ⟨2, 20⟩, ⟨3, 30⟩]) = .ok it ∧
      MaybeResize_loop (insertNoResize 8) (tableOf 9 1 [⟨1, 10⟩, ⟨2, 20⟩, ⟨3, 30⟩]) (8 + 1)
        it newht = .ok t' ∧
      MaybeResize_loop (innerInsert 8) (tableOf 9 1 [⟨1, 10⟩, ⟨2, 20⟩, ⟨3, 30⟩]) (8 + 1)
        it newht = .ok t' ∧
      MaybeResize (8 + 1) (tableOf 9 1 [⟨1, 10⟩, ⟨2, 20⟩, ⟨3, 30⟩]) = .ok t' ∧
      t'.num_buckets = 9 * (tableOf 9 1 [⟨1, 10⟩, ⟨2, 20⟩, ⟨3, 30⟩]).num_buckets ∧
      t'.num_elements = (tableOf 9 1 [⟨1, 10⟩, ⟨2, 20⟩, ⟨3, 30⟩]).num_elements) :=
  have hw := HashTable_load_bound (tableOf 9 1 [⟨1, 10⟩, ⟨2, 20⟩, ⟨3, 30⟩])
    (tableOf_reachable (by decide) (by decide) _ (by decide) (by decide))
  ⟨by decide, hw.1, hw.2.2.1 (by decide) (by decide),
   hw.2.2.2.1 (by decide) (by decide) 8 (by decide)⟩

/-! ## The bucket count of a table that a client can reach (C6) -/

/-- C6, at the table that `HashTable_Allocate(800000000)` makes, which satisfies the
invariant: it holds no element, fewer than `3 × num_buckets`, yet `HashTable_Insert`
does not leave `num_buckets` unchanged: `MaybeResize` takes the resize branch, as the
`int` product `3 * num_buckets` is negative, and fails the `Verify333(num_buckets > 0)`
of `HashTable_Allocate`, so that no fuel lets the call return a table. -/
theorem HashTable_bucket_count_overflow :
    Reachable (emptyTable 800000000) ∧ (emptyTable 800000000).Inv ∧
    (emptyTable 800000000).num_elements < 3 * ((emptyTable 800000000).num_buckets : Int) ∧
    (∀ fuel : Nat, MaybeResize (fuel + 1) (emptyTable 800000000) = .error .verify) ∧
    (∀ (fuel : Nat) (kv : HTKeyValue_t) (t' : HashTable) (old : Option HTKeyValue_t),
      HashTable_Insert fuel (emptyTable 800000000) kv ≠ .ok (t', old)) := by
  refine ⟨overflow_reachable, overflow_table.2, by decide, maybeResize_overflow, ?_⟩
  intro fuel kv t' old h
  cases fuel with
  | zero => rw [insert_overflow_zero] at h; cases h
  | succ fuel => rw [insert_overflow] at h; cases h

/-- The contract of C6 on a table that the client can reach and on which the `int`
products of `MaybeResize` are exact: `HashTable_Insert` leaves a table of exactly
`9 × num_buckets` buckets if and only if `num_elements >= 3 × num_buckets` holds at
the start of the call, the key being present or not, and leaves the bucket count as it
is otherwise; `HashTable_Find`, `HashTable_Remove` and `HTIterator_Remove` keep the
count, so that no call lowers it. -/
theorem HashTable_bucket_count (t : HashTable) (h : Reachable t) (hfit : t.Fits) (fuel : Nat)
    (hf : t.num_elements < (fuel : Int)) :
    (∀ kv, ∃ t' old, HashTable_Insert fuel t kv = .ok (t', old) ∧
      (t'.num_buckets = 9 * t.num_buckets ↔ 3 * (t.num_buckets : Int) ≤ t.num_elements) ∧
      (t.num_elements < 3 * (t.num_buckets : Int) → t'.num_buckets = t.num_buckets) ∧
      t.num_buckets ≤ t'.num_buckets) ∧
    (∀ k, ∃ r, HashTable_Find fuel t k = .ok (t, r)) ∧
    (∀ k, ∃ t' r, HashTable_Remove fuel t k = .ok (t', r) ∧ t'.num_buckets = t.num_buckets) ∧
    (∀ it : HTIterator, it.On t →
      ∃ t' it' r, HTIterator_Remove fuel t it = .ok (t', it', r) ∧
        t'.num_buckets = t.num_buckets) := by
  obtain ⟨bs, hT, hload⟩ := reachable_load h
  have hnb := hT.nb_pos
  refine ⟨?_, fun k => ⟨_, find_spec hT k hf⟩, ?_, ?_⟩
  · intro kv
    obtain ⟨t', bs', hi, _, _, _, hno, hre, _⟩ := insert_spec hT hfit kv _ hf
    refine ⟨t', _, hi, ?_, fun hc => (hno hc).1, ?_⟩
    · constructor
      · intro h9
        by_contra hc
        have := (hno (by omega)).1
        omega
      · intro hc
        exact (hre hc).2 (by omega)
    · by_cases hc : t.num_elements < 3 * (t.num_buckets : Int)
      · rw [(hno hc).1]
      · have := (hre (by omega)).1
        omega
  · intro k
    obtain ⟨t', hr, _, hnb', _⟩ := remove_spec hT k _ hf
    exact ⟨t', _, hr, hnb'⟩
  · intro it hon
    cases hv : HTIterator_IsValid it with
    | false => exact ⟨t, it, none, iterator_remove_invalid hv, rfl⟩
    | true =>
      obtain ⟨i, l, c1, c, c2, b1, r, b2, rfl, hl, hb, hr, hk1, hkc, hk2⟩ :=
        position_of_on hT hon hv
      obtain ⟨it1, t', _, _, hrem, _, _, hnb', _⟩ := iter_remove_spec hT hl hb hr hk1 hkc hk2 hf
      exact ⟨t', it1, _, hrem, hnb'⟩

/-- The contract of C6 at a table of one bucket and three elements. -/
theorem HashTable_bucket_count_witness :
    (∃ t' old, HashTable_Insert 9 (tableOf 9 1 [⟨1, 10⟩, ⟨2, 20⟩, ⟨3, 30⟩]) ⟨7, 70⟩
        = .ok (t', old) ∧
      t'.num_buckets = 9 * (tableOf 9 1 [⟨1, 10⟩, ⟨2, 20⟩, ⟨3, 30⟩]).num_buckets) ∧
    (∃ t' r, HashTable_Remove 9 (tableOf 9 1 [⟨1, 10⟩, ⟨2, 20⟩, ⟨3, 30⟩]) 2 = .ok (t', r) ∧
      t'.num_buckets = (tableOf 9 1 [⟨1, 10⟩, ⟨2, 20⟩, ⟨3, 30⟩]).num_buckets) :=
  have hw := HashTable_bucket_count (tableOf 9 1 [⟨1, 10⟩, ⟨2, 20⟩, ⟨3, 30⟩])
    (tableOf_reachable (by decide) (by decide) _ (by decide) (by decide)) (by decide) 9
    (by decide)
  ⟨(hw.1 ⟨7, 70⟩).imp fun _ ht => ht.imp fun _ ho => ⟨ho.1, ho.2.1.2 (by decide)⟩,
   hw.2.2.1 2⟩

/-! ## No check of the table fails (C22) -/

/-- On a table that holds a record the scan of `HTIterator_Allocate` stops at a bucket
of the table whose chain is not empty. -/
theorem allocate_scan {t : HashTable} {bs : List (List HTKeyValue_t)} (h : TInv t bs)
    (h0 : t.num_elements ≠ 0) :
    ∃ (i : Nat) (chain : LinkedList), scanBuckets t.buckets t.num_buckets 0 = .ok (some i) ∧
      i < t.num_buckets ∧ bucketAt t.buckets i = .ok chain ∧
      0 < LinkedList_NumElements chain ∧
      HTIterator_Allocate t = .ok ⟨(i : Int), some (LLIterator_Allocate chain)⟩ := by
  have hlen : 0 + t.num_buckets = bs.length := by rw [← h.rep.1, h.len]; simp
  rcases scan_spec h.rep t.num_buckets 0 hlen with ⟨_, h2⟩ | ⟨i, b, h1, _, h3, h4, _⟩
  · exfalso
    apply h0
    rw [h.abs.count, ← List.length_flatten]
    simp only [List.drop_zero] at h2
    simp [h2]
  · have hi : i < bs.length := (List.getElem?_eq_some_iff.1 h3).1
    have hi' : i < t.buckets.length := by rw [h.rep.1]; exact hi
    have hl := List.getElem?_eq_getElem hi'
    obtain ⟨cells, hr, hk, _⟩ := h.rep.2 _ _ _ hl h3
    have hcl := recordsAt_length hk
    have hpos : 0 < b.length := List.length_pos.2 h4
    refine ⟨i, _, h1, by omega, bucketAt_eq hl, ?_, ?_⟩
    · unfold LinkedList_NumElements
      rw [hr.count, hcl]
      exact_mod_cast hpos
    · simp [HTIterator_Allocate, h0, h1, bucketAt_eq hl]

/-- An iterator on the table: `HTIterator_Next` and `HTIterator_Get` return. -/
theorem next_get_on {t : HashTable} {bs : List (List HTKeyValue_t)} (hT : TInv t bs)
    {it : HTIterator} (hon : it.On t) :
    ∃ it' b r, HTIterator_Next t it = .ok (it', b) ∧ HTIterator_Get t it = .ok r := by
  cases hv : HTIterator_IsValid it with
  | false => exact ⟨it, false, none, by simp [HTIterator_Next, hv], get_invalid hv⟩
  | true =>
    obtain ⟨i, l, c1, c, c2, b1, r, b2, rfl, hl, hb, hr, hk1, hkc, hk2⟩ :=
      position_of_on hT hon hv
    have hit : IterRem t bs ⟨(i : Int), some ⟨some c.1⟩⟩
        (r :: (b2 ++ (bs.drop (i + 1)).flatten)) :=
      Or.inr ⟨i, l, c1, c, c2, b1, r, b2, rfl, hl, hb, hr, hk1, hkc, hk2, rfl⟩
    obtain ⟨_, hg, it', hn, _⟩ := iterRem_step hT hit
    exact ⟨it', _, _, hn, hg⟩

/-- The call of `FindKey` that `HashTable_Find` makes returns. -/
theorem findKey_returns {t : HashTable} {bs : List (List HTKeyValue_t)} (hT : TInv t bs)
    (k : HTKey_t) {fuel : Nat} (hf : t.num_elements < (fuel : Int)) :
    ∃ chain r, bucketAt t.buckets (k % t.num_buckets) = .ok chain ∧
      FindKey fuel t.kvs chain k = .ok r := by
  obtain ⟨l, cells, hl, _, _, _, _, _, _⟩ := hT.home_chain k
  have hfind := find_spec hT k hf
  unfold HashTable_Find at hfind
  rw [hashKey_eq hT.nb_pos, ok_bind, bucketAt_eq hl, ok_bind] at hfind
  cases hfk : FindKey fuel t.kvs l k with
  | error e => simp [hfk] at hfind
  | ok r => exact ⟨l, r, bucketAt_eq hl, hfk⟩

/-- C22, at the empty table of 800000000 buckets, which satisfies the invariant: a
check of the hash table fails.  `MaybeResize`, which `HashTable_Insert` calls first,
takes the resize branch, as the `int` product `3 * num_buckets` is negative, and calls
`HashTable_Allocate` with the `int` product `num_buckets * 9`, which is negative as
well: `Verify333(num_buckets > 0)` fails. -/
theorem HashTable_Allocate_check_fails :
    (emptyTable 800000000).Inv ∧
    ¬ (0 : Int) < toInt32 (((emptyTable 800000000).num_buckets : Int) * 9) ∧
    HashTable_Allocate (toInt32 (((emptyTable 800000000).num_buckets : Int) * 9))
      = .error .verify ∧
    (∀ fuel : Nat, MaybeResize (fuel + 1) (emptyTable 800000000) = .error .verify) ∧
    (∀ (fuel : Nat) (kv : HTKeyValue_t),
      HashTable_Insert (fuel + 1) (emptyTable 800000000) kv = .error .verify) :=
  ⟨overflow_table.2, by rw [overflow_allocate.1]; decide, overflow_allocate.2,
   maybeResize_overflow, insert_overflow⟩

/-- The contract of C22 apart from the check of `HashTable_Allocate` inside
`MaybeResize`.  On a table that satisfies the invariant no other check of the hash
table fails, given fuel above the number of elements, and that one does not fail when
the `int` products of `MaybeResize` are exact.  `HashKeyToBucketNum` returns an index below
`num_buckets`, at which there is a chain.  On a table that holds an element the scan
of `HTIterator_Allocate` stops at an index below `num_buckets` whose chain is not
empty.  For an iterator on the table, the record that `HTIterator_Get` reads is the
one that `HashTable_Remove` of its key returns, and `HTIterator_Remove` returns it.
`FindKey` on the chain of a key, `HashTable_Find`, `HashTable_Remove`,
`HTIterator_Next` and `HTIterator_Get` return without a fault, and so does
`HashTable_Insert` when the products are exact, while `LLIterator_Next` and
`LLIterator_Get` fault on a list iterator that is not valid: none of them is called
on such an iterator. -/
theorem HashTable_no_assertion_fails (t : HashTable) (h : t.Inv) (fuel : Nat)
    (hf : t.num_elements < (fuel : Int)) :
    (∀ k, ∃ i chain, HashKeyToBucketNum t k = .ok i ∧ i < t.num_buckets ∧
      bucketAt t.buckets i = .ok chain) ∧
    (0 < t.num_elements →
      ∃ (i : Nat) (chain : LinkedList),
        scanBuckets t.buckets t.num_buckets 0 = .ok (some i) ∧ i < t.num_buckets ∧
        bucketAt t.buckets i = .ok chain ∧ 0 < LinkedList_NumElements chain ∧
        HTIterator_Allocate t = .ok ⟨(i : Int), some (LLIterator_Allocate chain)⟩) ∧
    (∃ it, HTIterator_Allocate t = .ok it ∧ it.On t) ∧
    (∀ it kv, it.On t → HTIterator_Get t it = .ok (some kv) →
      ∃ t' it', HashTable_Remove fuel t kv.key = .ok (t', some kv) ∧
        HTIterator_Remove fuel t it = .ok (t', it', some kv)) ∧
    (∀ it, it.On t → ∃ t' it' r, HTIterator_Remove fuel t it = .ok (t', it', r)) ∧
    (∀ k, ∃ chain r, bucketAt t.buckets (k % t.num_buckets) = .ok chain ∧
      FindKey fuel t.kvs chain k = .ok r) ∧
    (∀ k, ∃ r, HashTable_Find fuel t k = .ok (t, r)) ∧
    (∀ k, ∃ t' r, HashTable_Remove fuel t k = .ok (t', r)) ∧
    (t.Fits → ∀ kv, ∃ t' r, HashTable_Insert fuel t kv = .ok (t', r)) ∧
    (∀ it, it.On t →
      ∃ it' b r, HTIterator_Next t it = .ok (it', b) ∧ HTIterator_Get t it = .ok r) ∧
    (∀ (l : LinkedList) (it : LLIterator), LLIterator_IsValid it = false →
      LLIterator_Next l it = .error .verify ∧ LLIterator_Get l it = .error .verify) := by
  have hT := tinv_of_inv h
  have hrm : ∀ it, it.On t → HTIterator_IsValid it = true →
      ∃ r t' it', HTIterator_Get t it = .ok (some r) ∧
        HashTable_Remove fuel t r.key = .ok (t', some r) ∧
        HTIterator_Remove fuel t it = .ok (t', it', some r) := by
    intro it hon hv
    obtain ⟨i, l, c1, c, c2, b1, r, b2, rfl, hl, hb, hr, hk1, hkc, hk2⟩ :=
      position_of_on hT hon hv
    obtain ⟨it1, t', hg, _, hrem, hremove, _⟩ :=
      iter_remove_spec hT hl hb hr hk1 hkc hk2 hf
    exact ⟨r, t', it1, hg, hremove, hrem⟩
  refine ⟨?_, ?_, ?_, ?_, ?_, ?_, ?_, ?_, ?_, ?_, ?_⟩
  · intro k
    obtain ⟨l, _, hl, _⟩ := hT.home_chain k
    exact ⟨_, l, hashKey_eq hT.nb_pos k, Nat.mod_lt _ hT.nb_pos, bucketAt_eq hl⟩
  · intro hpos
    exact allocate_scan hT (by omega)
  · obtain ⟨it, ha, hit⟩ := allocate_spec hT
    exact ⟨it, ha, iterRem_on hit⟩
  · intro it kv hon hg
    cases hv : HTIterator_IsValid it with
    | false => rw [get_invalid hv] at hg; cases hg
    | true =>
      obtain ⟨r, t', it', hg', hremove, hrem⟩ := hrm it hon hv
      rw [hg] at hg'
      have : kv = r := Option.some.inj (Except.ok.inj hg')
      subst this
      exact ⟨t', it', hremove, hrem⟩
  · intro it hon
    cases hv : HTIterator_IsValid it with
    | false => exact ⟨t, it, none, iterator_remove_invalid hv⟩
    | true =>
      obtain ⟨r, t', it', _, _, hrem⟩ := hrm it hon hv
      exact ⟨t', it', _, hrem⟩
  · intro k
    exact findKey_returns hT k hf
  · intro k
    exact ⟨_, find_spec hT k hf⟩
  · intro k
    obtain ⟨t', hr, _⟩ := remove_spec hT k fuel hf
    exact ⟨t', _, hr⟩
  · intro hfit kv
    obtain ⟨t', _, hi, _⟩ := insert_spec hT hfit kv fuel hf
    exact ⟨t', _, hi⟩
  · intro it hon
    exact next_get_on hT hon
  · intro l it hv
    have : it.node = none := by
      cases hn : it.node with
      | none => rfl
      | some a => simp [LLIterator_IsValid, hn] at hv
    simp [LLIterator_Next, LLIterator_Get, this]

/-- The contract of C22 at the table of keys 1, 5, 9, 2 in four buckets and the
iterator that `HTIterator_Allocate` makes on it. -/
theorem HashTable_no_assertion_fails_witness :
    (∀ k, ∃ i chain,
      HashKeyToBucketNum (tableOf 9 4 [⟨1, 10⟩, ⟨5, 50⟩, ⟨9, 90⟩, ⟨2, 20⟩]) k = .ok i ∧
      i < (tableOf 9 4 [⟨1, 10⟩, ⟨5, 50⟩, ⟨9, 90⟩, ⟨2, 20⟩]).num_buckets ∧
      bucketAt (tableOf 9 4 [⟨1, 10⟩, ⟨5, 50⟩, ⟨9, 90⟩, ⟨2, 20⟩]).buckets i = .ok chain) ∧
    (∃ (i : Nat) (chain : LinkedList),
      scanBuckets (tableOf 9 4 [⟨1, 10⟩, ⟨5, 50⟩, ⟨9, 90⟩, ⟨2, 20⟩]).buckets
        (tableOf 9 4 [⟨1, 10⟩, ⟨5, 50⟩, ⟨9, 90⟩, ⟨2, 20⟩]).num_buckets 0 = .ok (some i) ∧
      i < (tableOf 9 4 [⟨1, 10⟩, ⟨5, 50⟩, ⟨9, 90⟩, ⟨2, 20⟩]).num_buckets ∧
      bucketAt (tableOf 9 4 [⟨1, 10⟩, ⟨5, 50⟩, ⟨9, 90⟩, ⟨2, 20⟩]).buckets i = .ok chain ∧
      0 < LinkedList_NumElements chain ∧
      HTIterator_Allocate (tableOf 9 4 [⟨1, 10⟩, ⟨5, 50⟩, ⟨9, 90⟩, ⟨2, 20⟩])
        = .ok ⟨(i : Int), some (LLIterator_Allocate chain)⟩) ∧
    (∃ t' it', HashTable_Remove 9 (tableOf 9 4 [⟨1, 10⟩, ⟨5, 50⟩, ⟨9, 90⟩, ⟨2, 20⟩])
        (⟨9, 90⟩ : HTKeyValue_t).key = .ok (t', some ⟨9, 90⟩) ∧
      HTIterator_Remove 9 (tableOf 9 4 [⟨1, 10⟩, ⟨5, 50⟩, ⟨9, 90⟩, ⟨2, 20⟩]) ⟨1, some ⟨some 2⟩⟩
        = .ok (t', it', some ⟨9, 90⟩)) :=
  have hinv : (tableOf 9 4 [⟨1, 10⟩, ⟨5, 50⟩, ⟨9, 90⟩, ⟨2, 20⟩]).Inv :=
    tableOf_inv (by decide) _ (by decide)
  have hw := HashTable_no_assertion_fails (tableOf 9 4 [⟨1, 10⟩, ⟨5, 50⟩, ⟨9, 90⟩, ⟨2, 20⟩])
    hinv 9 (by decide)
  ⟨hw.1, hw.2.1 (by decide),
   hw.2.2.2.1 ⟨1, some ⟨some 2⟩⟩ ⟨9, 90⟩ (allocate_on hinv (by decide)) (by decide)⟩

/-! ## The termination of the sort (C23) -/

/-- A pass of bubble sort that swaps lowers the number of inversions, when `sw` never
swaps a pair both ways. -/
theorem bubblePass_decreases {α : Type} (sw : α → α → Bool)
    (has : ∀ a b, sw a b = true → sw b a = false) (l : List α)
    (hs : (bubblePass sw l).2 = true) :
    inversions sw (bubblePass sw l).1 < inversions sw l := by
  cases l with
  | nil => simp [bubblePass] at hs
  | cons x ys =>
    have := bubble_inversions sw has x ys
    simp only [bubblePass] at hs ⊢
    rw [hs] at this
    simp only [if_true] at this
    omega

/-- One pass of `LinkedList_Sort` over a well-formed list of two or more elements: it
returns, the list stays well-formed, its payloads are those of a pass of bubble sort,
and the pass has swapped exactly when bubble sort has. -/
theorem pass_wf (asc : Bool) (cmp : LLPayloadComparatorFnPtr) {l : LinkedList} (h : l.WF)
    (steps : Nat) (hsteps : l.num_elements ≤ (steps : Int)) (hne : l.num_elements ≠ 0) :
    ∃ nodes', LinkedList_Sort_pass asc cmp steps l.nodes l.head false =
        .ok (nodes', (bubblePass (outOfOrder asc cmp) l.toList).2) ∧
      ({ l with nodes := nodes' } : LinkedList).WF ∧
      ({ l with nodes := nodes' } : LinkedList).toList
        = (bubblePass (outOfOrder asc cmp) l.toList).1 := by
  obtain ⟨cells, hr⟩ := h
  cases cells with
  | nil => exact absurd (by simpa using hr.count) hne
  | cons c suf =>
    have h' : l.Rep ([] ++ c :: suf) := hr
    have hlen : suf.length < steps := by
      have := hr.count
      rw [this] at hsteps
      simp only [List.length_cons] at hsteps
      omega
    obtain ⟨nodes', hp, hrep⟩ := pass_rep asc cmp h' steps hlen false
    have hhead : l.head = some c.1 := by simpa using hr.head_eq
    have hbl := bubble_length (outOfOrder asc cmp) c.2 (suf.map Prod.snd)
    have hsnd : ((c.1 :: suf.map Prod.fst).zip
        (bubble (outOfOrder asc cmp) c.2 (suf.map Prod.snd)).1).map Prod.snd
        = (bubble (outOfOrder asc cmp) c.2 (suf.map Prod.snd)).1 :=
      List.map_snd_zip _ _ (by simp [hbl])
    refine ⟨nodes', ?_, ⟨_, hrep⟩, ?_⟩
    · rw [hhead, hp, toList_rep hr]
      simp [bubblePass]
    · rw [toList_rep hrep, toList_rep hr]
      simpa [bubblePass] using hsnd

/-- The loop of `LinkedList_Sort` on a well-formed list of two or more elements returns
within `inversions + 1` passes when no pass swaps a pair both ways. -/
theorem loop_terminates (asc : Bool) (cmp : LLPayloadComparatorFnPtr)
    (has : ∀ a b, outOfOrder asc cmp a b = true → outOfOrder asc cmp b a = false)
    {l : LinkedList} (h : l.WF) (hne : l.num_elements ≠ 0) (steps passes : Nat)
    (hsteps : l.num_elements ≤ (steps : Int))
    (hpasses : inversions (outOfOrder asc cmp) l.toList < passes) :
    ∃ l', LinkedList_Sort_loop asc cmp steps passes l = .ok l' := by
  obtain ⟨cells, hr⟩ := h
  have hz : l.Rep ((cells.map Prod.fst).zip (cells.map Prod.snd)) := by
    rw [zip_fst_snd]; exact hr
  have hcne : cells ≠ [] := by
    rintro rfl
    exact hne (by simpa using hr.count)
  have hlen : (cells.map Prod.snd).length ≤ steps := by
    have := hr.count
    rw [this] at hsteps
    simp only [List.length_map]
    exact_mod_cast hsteps
  obtain ⟨h1, _⟩ := loop_rep asc cmp steps (cells.map Prod.fst) passes hz (by simp)
    (by intro e; rw [List.map_eq_nil_iff] at e; exact hcne e) hlen
  rw [toList_rep hr] at hpasses
  obtain ⟨P', hP'⟩ := bubbleSort_terminates _ has passes _ hpasses
  obtain ⟨l', hl', _⟩ := h1 P' hP'
  exact ⟨l', hl'⟩

/-- The loop of `LinkedList_Sort` runs out of any budget when bubble sort on the
payloads does. -/
theorem loop_diverges (asc : Bool) (cmp : LLPayloadComparatorFnPtr) {l : LinkedList}
    {cells : List Cell} (h : l.Rep cells) (hne : cells ≠ [])
    (hb : ∀ fuel, bubbleSort (outOfOrder asc cmp) fuel (cells.map Prod.snd) = none)
    (steps passes : Nat) : LinkedList_Sort_loop asc cmp steps passes l = .error .outOfFuel := by
  by_cases hs : cells.length ≤ steps
  · have hz : l.Rep ((cells.map Prod.fst).zip (cells.map Prod.snd)) := by
      rw [zip_fst_snd]; exact h
    exact (loop_rep asc cmp steps (cells.map Prod.fst) passes hz (by simp)
      (by intro e; rw [List.map_eq_nil_iff] at e; exact hne e) (by simpa using hs)).2 (hb passes)
  · cases passes with
    | zero => rfl
    | succ passes =>
      cases cells with
      | nil => exact absurd rfl hne
      | cons c suf =>
        have h' : l.Rep ([] ++ c :: suf) := h
        have hhead : l.head = some c.1 := by simpa using h.head_eq
        have := pass_short asc cmp h' steps (by simp only [List.length_cons] at hs; omega) false
        rw [← hhead] at this
        simp [LinkedList_Sort_loop, this]

theorem outOfOrder_alwaysGreater (x y : LLPayload_t) :
    outOfOrder true alwaysGreater x y = true := by
  simp [outOfOrder, alwaysGreater, toInt32]

/-- Under the comparator that reports every pair as out of order the ascending sort
of a well-formed list of two or more elements never returns. -/
theorem sort_inconsistent_diverges {l : LinkedList} (h : l.WF) (h2 : 2 ≤ l.num_elements)
    (fuel : Nat) : LinkedList_Sort fuel l true alwaysGreater = .error .outOfFuel := by
  obtain ⟨cells, hr⟩ := h
  have hlen : 2 ≤ cells.length := by
    rw [hr.count] at h2
    exact_mod_cast h2
  apply sort_diverges true alwaysGreater hr hlen
  intro fuel
  apply bubbleSort_cycle _ (fun P => 2 ≤ P.length)
  · intro P hP
    refine ⟨?_, by rw [bubblePass_length]; exact hP⟩
    cases P with
    | nil => simp at hP
    | cons x ys =>
      cases ys with
      | nil => simp at hP
      | cons y ys => simp [bubblePass, bubble, outOfOrder_alwaysGreater]
  · simpa using hlen

/-- What holds of the termination of `LinkedList_Sort` on a well-formed list.  Under a
total preorder, the sort being descending or the comparator never answering
`INT_MIN`: a pass that swaps lowers the number of inverted pairs, and the loop returns
within `inversions + 1` passes.  Under the comparator that reports every pair as out
of order the sort of a list of two or more elements never returns. -/
theorem sort_termination {cmp : LLPayloadComparatorFnPtr} (hc : IsTotalPreorder cmp)
    (asc : Bool) (hmin : asc = false ∨ ∀ x y, cmp x y ≠ -2147483648) {l : LinkedList}
    (h : l.WF) (h2 : 2 ≤ l.num_elements) :
    (∀ steps : Nat, l.num_elements ≤ (steps : Int) →
      ∃ nodes' swapped, LinkedList_Sort_pass asc cmp steps l.nodes l.head false =
          .ok (nodes', swapped) ∧
        (swapped = true →
          inversions (outOfOrder asc cmp) ({ l with nodes := nodes' } : LinkedList).toList
            < inversions (outOfOrder asc cmp) l.toList)) ∧
    (∀ steps passes : Nat, l.num_elements ≤ (steps : Int) →
      inversions (outOfOrder asc cmp) l.toList < passes →
      ∃ l', LinkedList_Sort_loop asc cmp steps passes l = .ok l') ∧
    (∀ fuel, LinkedList_Sort fuel l true alwaysGreater = .error .outOfFuel) := by
  have has := outOfOrder_asymm_of hc asc hmin
  refine ⟨?_, ?_, sort_inconsistent_diverges h h2⟩
  · intro steps hsteps
    obtain ⟨nodes', hp, _, hl⟩ := pass_wf asc cmp h steps hsteps (by omega)
    refine ⟨nodes', _, hp, ?_⟩
    intro hsw
    rw [hl]
    exact bubblePass_decreases _ has _ hsw
  · intro steps passes hsteps hpasses
    exact loop_terminates asc cmp has h (by omega) steps passes hsteps hpasses

/-- C23, the input on which the code fails: under `intMinCompare`, a total preorder
that answers `INT_MIN` for less, the list 1, 2 holds no pair that the ascending sort
should swap.  The first pass swaps all the same, which makes one such pair, and the
loop of `LinkedList_Sort` returns within no number of passes, however many steps
each pass is given. -/
theorem LinkedList_Sort_loop_int_min :
    IsTotalPreorder intMinCompare ∧ (listOf [1, 2]).toList = [1, 2] ∧
    inversions (fun x y => decide (0 < intMinCompare x y)) [1, 2] = 0 ∧
    (LinkedList_Sort_pass true intMinCompare 2 (listOf [1, 2]).nodes (listOf [1, 2]).head
      false).map (fun r => (walk r.1 2 (listOf [1, 2]).head, r.2)) = .ok ([2, 1], true) ∧
    inversions (fun x y => decide (0 < intMinCompare x y)) [2, 1] = 1 ∧
    ∀ steps passes,
      LinkedList_Sort_loop true intMinCompare steps passes (listOf [1, 2])
        = .error .outOfFuel := by
  refine ⟨intMinCompare_preorder, by decide, by decide, by decide, by decide, ?_⟩
  obtain ⟨cells, hr, hc⟩ := listOf_rep [1, 2]
  have hne : cells ≠ [] := by
    rintro rfl
    simp at hc
  apply loop_diverges true intMinCompare hr hne
  rw [hc]
  intro fuel
  apply bubbleSort_cycle _ (fun l => l = [1, 2] ∨ l = [2, 1])
  · intro l hl
    rcases hl with rfl | rfl
    · exact ⟨by decide, Or.inr (by decide)⟩
    · exact ⟨by decide, Or.inl (by decide)⟩
  · exact Or.inl rfl

end HW1
